import Mathlib

/-!
# The matrix solver of the Freudenthal sum-and-product problem (`cfreudenthal.c`)

A shallow embedding of the C program and the properties proved about it.

Conventions of the embedding.

* A C `int` is a mathematical integer (`Int`): signed overflow is undefined in C, so the
  definitions describe the runs in which every intermediate value fits an `int`.
  Array indices and the counts `nCols`, `nRows` are natural numbers.
* Two results depend on what the compiled program does when an `int` operation
  overflows, and there the value is reduced to 32 bits (`wrapInt`): the sum
  `minInt + minInt` in the bounds check of `init`, and `sum - a` and `a * b` in `getXY`.
* An array is a `List`; reading `a[i]` is `a.getD i _`, writing is `List.set`.
  The matrix is the flat, row-major array of the source: cell `(row, col)` is at
  index `row * nCols + col`.
* `char live` is a `Bool` (the program only tests it for being non-zero); a matrix
  cell keeps its numeric value because the program tests `v != 1`.
* A `for` loop whose trip count is known on entry is a recursion on the number of
  iterations already executed; the loops of `rmDupProducts`, whose bound changes
  while they run, carry explicit fuel.
* The C library functions `qsort`, `bsearch`, `memmove` and `sqrt` are modelled from
  their contracts; `bsearch` is the usual bisection (probe the middle element) and
  `qsort` is a merge sort (`qsort_spec` shows that it sorts).
* `rmDupProducts` can make `memmove` read past the end of the `rows` allocation.
  The content of that memory is the parameter `heap`: `heap k` is what is stored
  `k` entries past the end of the allocation.
-/

namespace Freudenthal

/-! ## Data model -/

/-- An entry of the sums header (`cols`) or of the products header (`rows`):
`typedef struct { int num; char live; } num_t`. -/
structure num_t where
  num : Int
  live : Bool
deriving DecidableEq

/-- An entry as `calloc` returns it: all bytes zero. -/
def num_t.zero : num_t := ⟨0, false⟩

/-- The solver state: `typedef struct { ... } fr_t`. -/
structure fr_t where
  minInt : Int
  maxInt : Int
  minSum : Int
  maxSum : Int
  nCols : Nat
  nRows : Nat
  cols : List num_t
  rows : List num_t
  matrix : List Int
deriving DecidableEq

/-- The value `*( fr->matrix + row * fr->nCols + col )`. -/
def cell (fr : fr_t) (row col : Nat) : Int :=
  fr.matrix.getD (row * fr.nCols + col) 0

/-- The flag `fr->cols[ col ].live`. -/
def colLive (fr : fr_t) (col : Nat) : Bool :=
  (fr.cols.getD col num_t.zero).live

/-- The flag `fr->rows[ row ].live`. -/
def rowLive (fr : fr_t) (row : Nat) : Bool :=
  (fr.rows.getD row num_t.zero).live

/-- The assignment `arr[ i ].live = 0`. -/
def kill (arr : List num_t) (i : Nat) : List num_t :=
  arr.set i { arr.getD i num_t.zero with live := false }

/-! ## Machine integers -/

/-- The `int` that a 32-bit two's complement machine yields for an operation whose
exact result is `x`: the value congruent to `x` modulo `2^32` that lies between
`INT_MIN = -2147483648` and `INT_MAX = 2147483647`. -/
def wrapInt (x : Int) : Int := (x + 2147483648) % 4294967296 - 2147483648

/-! ## C library functions -/

/-- The comparison callback `cmpNums`: -1, 0 or 1 by the `num` fields. -/
def cmpNums (n1 n2 : num_t) : Int :=
  if n1.num < n2.num then -1
  else if n1.num = n2.num then 0
  else 1

/-- The loop of `bsearch`: bisection of the index interval `[l, u)` of the sub-array
that starts at index `base` of `arr`. The result is an index into `arr`. -/
def bsearchLoop (key : num_t) (arr : List num_t) (base : Nat) : Nat → Nat → Nat → Option Nat
  | 0, _, _ => none
  | fuel + 1, l, u =>
    if l < u then
      let idx := (l + u) / 2
      let c := cmpNums key (arr.getD (base + idx) num_t.zero)
      if c < 0 then bsearchLoop key arr base fuel l idx
      else if 0 < c then bsearchLoop key arr base fuel (idx + 1) u
      else some (base + idx)
    else none

/-- The call `bsearch( &key, arr + base, nmemb, sizeof( num_t ), cmpNums )`:
`none` is the NULL result, `some i` is the pointer `arr + i`. -/
def bsearch (key : num_t) (arr : List num_t) (base nmemb : Nat) : Option Nat :=
  bsearchLoop key arr base nmemb 0 nmemb

/-- Merging the ascending run `x :: xs` into an ascending run: the smaller head goes
first, the head of `x :: xs` on a tie; `le` is the order and `mergeXs` merges `xs`. -/
def mergeInto (le : num_t → num_t → Bool) (x : num_t) (xs : List num_t)
    (mergeXs : List num_t → List num_t) : List num_t → List num_t
  | [] => x :: xs
  | y :: ys =>
    if le x y then x :: mergeXs (y :: ys) else y :: mergeInto le x xs mergeXs ys

/-- Merging two ascending runs. -/
def mergeRuns (le : num_t → num_t → Bool) : List num_t → List num_t → List num_t
  | [], ys => ys
  | x :: xs, ys => mergeInto le x xs (mergeRuns le xs) ys

/-- Cutting a list into its maximal ascending runs. -/
def splitRuns (le : num_t → num_t → Bool) : List num_t → List (List num_t)
  | [] => []
  | x :: r =>
    match splitRuns le r with
    | [] => [[x]]
    | [] :: rest => [x] :: rest
    | (y :: ys) :: rest =>
      if le x y then (x :: y :: ys) :: rest else [x] :: (y :: ys) :: rest

/-- One pass of the merge sort: neighbouring runs are merged two by two. -/
def mergePairs (le : num_t → num_t → Bool) : List (List num_t) → List (List num_t)
  | a :: b :: rest => mergeRuns le a b :: mergePairs le rest
  | l => l

/-- The passes of the merge sort, at most `fuel` of them. -/
def mergeAll (le : num_t → num_t → Bool) : Nat → List (List num_t) → List num_t
  | 0, l => l.flatten
  | _ + 1, [] => []
  | _ + 1, [a] => a
  | fuel + 1, l => mergeAll le fuel (mergePairs le l)

/-- A natural merge sort by the order `le`. -/
def sortRuns (le : num_t → num_t → Bool) (l : List num_t) : List num_t :=
  mergeAll le l.length (splitRuns le l)

/-- The order that `qsort` gets from the callback `cmpNums`. -/
def cmpLe (x y : num_t) : Bool := decide (cmpNums x y ≤ 0)

/-- The call `qsort( arr, nmemb, sizeof( num_t ), cmpNums )`: the first `nmemb`
entries are put in ascending `num` order. The C library does not fix the
algorithm; a merge sort stands for it. -/
def qsort (arr : List num_t) (nmemb : Nat) : List num_t :=
  sortRuns cmpLe (arr.take nmemb) ++ arr.drop nmemb

/-- The search loop of `isqrt`: the candidate `a` grows while `(a + 1)^2 <= n`. -/
def isqrtLoop (n : Nat) : Nat → Nat → Nat
  | 0, a => a
  | fuel + 1, a => if (a + 1) * (a + 1) ≤ n then isqrtLoop n fuel (a + 1) else a

/-- The floor of the square root of a natural number. -/
def isqrt (n : Nat) : Nat := isqrtLoop n n 0

/-- The value `( int )sqrt( ( double )product )`: the floor of the square root, which
the double computation yields exactly for every non-negative `int`. For a negative
argument `sqrt` returns NaN and the conversion is undefined; 0 stands for it, so that
a loop bounded by the result does not run. -/
def sqroot (product : Int) : Int := (isqrt product.toNat : Nat)

/-- The entry at index `i` counted from the start of the array `arr`, also when `i`
lies past its end: there the memory content `heap` is read. -/
def readPast (arr : List num_t) (heap : Nat → num_t) (i : Nat) : num_t :=
  if i < arr.length then arr.getD i num_t.zero else heap (i - arr.length)

/-- The call `memmove( arr + dst, arr + src, n * sizeof( num_t ) )`: the `n` entries
that start at `src` are copied, as if through a buffer, to the `n` entries that
start at `dst`. -/
def memmove (arr : List num_t) (heap : Nat → num_t) (dst src n : Nat) : List num_t :=
  arr.take dst ++ (List.range n).map (fun i => readPast arr heap (src + i)) ++ arr.drop (dst + n)

/-! ## Counting -/

/-- The state of the loop of `nSums` after `col` iterations: the running `nsums`
and the value of `*thisColumn` (`none` while it has not been written). -/
def nSumsLoop (fr : fr_t) (row : Nat) (liveOnly : Bool) : Nat → Nat × Option Nat
  | 0 => (0, none)
  | col + 1 =>
    let st := nSumsLoop fr row liveOnly col
    if liveOnly && !colLive fr col then st
    else if cell fr row col ≠ 1 then st
    else (st.1 + 1, some col)

/-- The function `nSums`: the returned count and the out-parameter `*thisColumn`.
A caller that passes NULL ignores the second component. -/
def nSums (fr : fr_t) (row : Nat) (liveOnly : Bool) : Nat × Option Nat :=
  nSumsLoop fr row liveOnly fr.nCols

/-- The state of the loop of `nLiveProducts` after `row` iterations. -/
def nLiveProductsLoop (fr : fr_t) (col : Nat) : Nat → Nat × Option Nat
  | 0 => (0, none)
  | row + 1 =>
    let st := nLiveProductsLoop fr col row
    if !rowLive fr row then st
    else if cell fr row col ≠ 1 then st
    else (st.1 + 1, some row)

/-- The function `nLiveProducts`: the returned count and the out-parameter `*thisRow`. -/
def nLiveProducts (fr : fr_t) (col : Nat) : Nat × Option Nat :=
  nLiveProductsLoop fr col fr.nRows

/-! ## The three elimination phases -/

/-- The state after `row` iterations of the loop of `rmSumsWithUniqueProduct`. -/
def rmSumsWithUniqueProductLoop (fr : fr_t) : Nat → fr_t
  | 0 => fr
  | row + 1 =>
    let fr1 := rmSumsWithUniqueProductLoop fr row
    let r := nSums fr1 row false
    if r.1 ≠ 1 then fr1
    else
      match r.2 with
      | some thisColumn => { fr1 with cols := kill fr1.cols thisColumn }
      | none => fr1

/-- Phase 1, `rmSumsWithUniqueProduct`. -/
def rmSumsWithUniqueProduct (fr : fr_t) : fr_t :=
  rmSumsWithUniqueProductLoop fr fr.nRows

/-- The state after `row` iterations of the loop of `rmProductsWithMultipleSums`. -/
def rmProductsWithMultipleSumsLoop (fr : fr_t) : Nat → fr_t
  | 0 => fr
  | row + 1 =>
    let fr1 := rmProductsWithMultipleSumsLoop fr row
    let r := nSums fr1 row true
    if r.1 = 1 then fr1
    else { fr1 with rows := kill fr1.rows row }

/-- Phase 2, `rmProductsWithMultipleSums`. -/
def rmProductsWithMultipleSums (fr : fr_t) : fr_t :=
  rmProductsWithMultipleSumsLoop fr fr.nRows

/-- The state after `col` iterations of the loop of `rmSumsWithMultipleProducts`. -/
def rmSumsWithMultipleProductsLoop (fr : fr_t) : Nat → fr_t
  | 0 => fr
  | col + 1 =>
    let fr1 := rmSumsWithMultipleProductsLoop fr col
    if !colLive fr1 col then fr1
    else
      let r := nLiveProducts fr1 col
      if r.1 = 1 then fr1
      else { fr1 with cols := kill fr1.cols col }

/-- Phase 3, `rmSumsWithMultipleProducts`. -/
def rmSumsWithMultipleProducts (fr : fr_t) : fr_t :=
  rmSumsWithMultipleProductsLoop fr fr.nCols

/-! ## Answer extraction -/

/-- The loop of `getXY` with `n` iterations left, the next candidate being `a`. The
difference and the product are `int` results (`wrapInt`); `a++` cannot overflow, since
`a <= half` in the loop body. -/
def getXYLoop (product sum : Int) : Nat → Int → Int × Int
  | 0, _ => (0, 0)
  | n + 1, a =>
    let b := wrapInt (sum - a)
    if wrapInt (a * b) = product then (a, b)
    else getXYLoop product sum n (a + 1)

/-- The function `getXY`: the pair written to `*x`, `*y`. -/
def getXY (fr : fr_t) (product sum : Int) : Int × Int :=
  let half := sum.tdiv 2
  getXYLoop product sum (half - fr.minInt + 1).toNat fr.minInt

/-- The lines printed by the first `row` iterations of the loop of `printAnswers`,
each as the tuple `(product, sum, x, y)`. -/
def printAnswersLoop (fr : fr_t) : Nat → List (Int × Int × Int × Int)
  | 0 => []
  | row + 1 =>
    let out := printAnswersLoop fr row
    if !rowLive fr row then out
    else
      let r := nSums fr row true
      if r.1 ≠ 1 then out
      else
        match r.2 with
        | some col =>
          let product := (fr.rows.getD row num_t.zero).num
          let sum := (fr.cols.getD col num_t.zero).num
          let xy := getXY fr product sum
          out ++ [(product, sum, xy.1, xy.2)]
        | none => out

/-- The function `printAnswers`: the printed answer lines in order. -/
def printAnswers (fr : fr_t) : List (Int × Int × Int × Int) :=
  printAnswersLoop fr fr.nRows

/-! ## Initialisation -/

/-- The array `cols` after `k` iterations of the loop of `mkSums`
(`sum = minSum + k`, `col = k`). -/
def mkSumsLoop (fr : fr_t) : Nat → List num_t
  | 0 => fr.cols
  | k + 1 => (mkSumsLoop fr k).set k ⟨fr.minSum + k, true⟩

/-- The function `mkSums`. -/
def mkSums (fr : fr_t) : fr_t :=
  { fr with cols := mkSumsLoop fr (fr.maxSum - fr.minSum + 1).toNat }

/-- The triple `(rows, ubound, actual)` after `j` iterations of the inner loop of
`mkProducts` for the outer value `a` (`b = a + 1 + j`); `rowsNull` is `!fr->rows`. -/
def mkProductsInner (fr : fr_t) (rowsNull : Bool) (a : Int) (st : List num_t × Nat × Nat) :
    Nat → List num_t × Nat × Nat
  | 0 => st
  | j + 1 =>
    let s := mkProductsInner fr rowsNull a st j
    let b := a + 1 + j
    let sum := a + b
    if sum > fr.maxSum then s
    else if rowsNull then (s.1, s.2.1 + 1, s.2.2)
    else (s.1.set s.2.2 ⟨a * b, true⟩, s.2.1, s.2.2 + 1)

/-- The triple `(rows, ubound, actual)` after `i` iterations of the outer loop of
`mkProducts` (`a = minInt + i`). -/
def mkProductsOuter (fr : fr_t) (rowsNull : Bool) : Nat → List num_t × Nat × Nat
  | 0 => (fr.rows, 0, 0)
  | i + 1 =>
    let a := fr.minInt + i
    mkProductsInner fr rowsNull a (mkProductsOuter fr rowsNull i) (fr.maxInt - a).toNat

/-- The function `mkProducts`: the state it leaves and the count it returns. The
flag `rowsNull` says whether `fr->rows` is NULL (the counting call). -/
def mkProducts (fr : fr_t) (rowsNull : Bool) : fr_t × Nat :=
  let s := mkProductsOuter fr rowsNull (fr.maxInt - fr.minInt + 1).toNat
  ({ fr with rows := s.1 }, if rowsNull then s.2.1 else s.2.2)

/-- The `while ( 1 )` loop of `rmDupProducts` for the current `row`: the pair
`(rows, nRows)` it leaves. Every iteration that finds a duplicate lowers `nRows`. -/
def rmDupProductsInner (heap : Nat → num_t) (row : Nat) (key : num_t) :
    Nat → List num_t → Nat → List num_t × Nat
  | 0, rows, nRows => (rows, nRows)
  | fuel + 1, rows, nRows =>
    match bsearch key rows (row + 1) (nRows - (row + 1)) with
    | none => (rows, nRows)
    | some found =>
      let n := nRows - (row + 1)
      rmDupProductsInner heap row key fuel (memmove rows heap row found n) (nRows - 1)

/-- The `for` loop of `rmDupProducts` from index `row` on. -/
def rmDupProductsOuter (heap : Nat → num_t) : Nat → Nat → List num_t → Nat → List num_t × Nat
  | 0, _, rows, nRows => (rows, nRows)
  | fuel + 1, row, rows, nRows =>
    if row < nRows then
      let key : num_t := ⟨(rows.getD row num_t.zero).num, false⟩
      let s := rmDupProductsInner heap row key nRows rows nRows
      rmDupProductsOuter heap fuel (row + 1) s.1 s.2
    else (rows, nRows)

/-- The function `rmDupProducts`. -/
def rmDupProducts (fr : fr_t) (heap : Nat → num_t) : fr_t :=
  let s := rmDupProductsOuter heap fr.nRows 0 (qsort fr.rows fr.nRows) fr.nRows
  { fr with rows := s.1, nRows := s.2 }

/-- The matrix after `j` iterations of the inner loop of `mkMatrix` for the row
`row` with product `product` (`a = 2 + j`). -/
def mkMatrixInner (fr : fr_t) (row : Nat) (product : Int) (m : List Int) : Nat → List Int
  | 0 => m
  | j + 1 =>
    let m1 := mkMatrixInner fr row product m j
    let a : Int := 2 + j
    if product.tmod a ≠ 0 then m1
    else
      let b := product.tdiv a
      let sum := a + b
      match bsearch ⟨sum, false⟩ fr.cols 0 fr.nCols with
      | none => m1
      | some col => m1.set (row * fr.nCols + col) 1

/-- The matrix after `row` iterations of the outer loop of `mkMatrix`;
`sqroot = ( int )sqrt( ( double )product )`. -/
def mkMatrixOuter (fr : fr_t) : Nat → List Int
  | 0 => fr.matrix
  | row + 1 =>
    let product := (fr.rows.getD row num_t.zero).num
    let sqroot := sqroot product
    mkMatrixInner fr row product (mkMatrixOuter fr row) (sqroot - 1).toNat

/-- The function `mkMatrix`. -/
def mkMatrix (fr : fr_t) : fr_t :=
  { fr with matrix := mkMatrixOuter fr fr.nRows }

/-- The function `init` for the two parsed arguments `minInt = atoi( argv[ 1 ] )` and
`maxSum = atoi( argv[ 2 ] )`, every `calloc` succeeding; `none` is the NULL result.
The second guard compares `maxSum` with the `int` that `minInt + minInt` yields
(`wrapInt`). Past the guards the state is described with the exact sum: that is the
stored `fr->minSum` whenever `minInt + minInt` fits an `int`, as it does for all
bounds with `2 * minInt < maxSum`. Where the sum overflows and the guard passes
(`minInt >= 1073741824`), only the fact that `init` returns a structure is meant. -/
def init (minInt maxSum : Int) (heap : Nat → num_t) : Option fr_t :=
  if minInt ≤ 0 then none
  else
    let minSum := minInt + minInt
    if maxSum ≤ wrapInt minSum then none
    else
      let maxInt := maxSum - minInt
      let nCols := (maxSum - minSum + 1).toNat
      let fr0 : fr_t := ⟨minInt, maxInt, minSum, maxSum, nCols, 0,
        List.replicate nCols num_t.zero, [], []⟩
      let fr1 := mkSums fr0
      let ubound := (mkProducts fr1 true).2
      let fr2 : fr_t := { fr1 with nRows := ubound, rows := List.replicate ubound num_t.zero }
      let p := mkProducts fr2 false
      let fr3 : fr_t := { p.1 with nRows := p.2 }
      let fr4 := rmDupProducts fr3 heap
      let fr5 : fr_t := { fr4 with matrix := List.replicate (fr4.nCols * fr4.nRows) 0 }
      some (mkMatrix fr5)

/-- The three phases in the order of `main`. -/
def eliminate (fr : fr_t) : fr_t :=
  rmSumsWithMultipleProducts (rmProductsWithMultipleSums (rmSumsWithUniqueProduct fr))

/-- The function `main` after argument parsing: `none` when `init` fails, else the
answer lines printed after the three phases. -/
def main (minInt maxSum : Int) (heap : Nat → num_t) : Option (List (Int × Int × Int × Int)) :=
  (init minInt maxSum heap).map (fun fr => printAnswers (eliminate fr))

/-- Memory that holds zero bytes everywhere. -/
def zeroHeap : Nat → num_t := fun _ => num_t.zero


/-! ## Specification-level descriptions -/

/-- The sums header that `init` builds: the integers `2 * minInt, ..., maxSum` in
order, all live. -/
def initCols (minInt maxSum : Int) : List num_t :=
  (List.range (maxSum - (minInt + minInt) + 1).toNat).map
    (fun (i : Nat) => (⟨minInt + minInt + (i : Int), true⟩ : num_t))

/-- Whether `nSums` counts column `col` in row `row`: the cell is 1 and, when
`liveOnly` is set, the column is live. -/
def countedCol (fr : fr_t) (row : Nat) (liveOnly : Bool) (col : Nat) : Bool :=
  (!liveOnly || colLive fr col) && decide (cell fr row col = 1)

/-- The columns of row `row` that hold a 1, in ascending order. -/
def trueCols (fr : fr_t) (row : Nat) : List Nat :=
  (List.range fr.nCols).filter (countedCol fr row false)

/-- The live columns of row `row` that hold a 1, in ascending order. -/
def liveTrueCols (fr : fr_t) (row : Nat) : List Nat :=
  (List.range fr.nCols).filter (countedCol fr row true)

/-- The live rows that hold a 1 in column `col`, in ascending order. -/
def liveTrueRows (fr : fr_t) (col : Nat) : List Nat :=
  (List.range fr.nRows).filter (fun row => rowLive fr row && decide (cell fr row col = 1))

/-- What the body of the inner loop of `mkMatrix` looks up for the divisor candidate
`a = 2 + j` of `product`: the column of the sum `a + product / a`, when `a` divides
`product` and that sum is in the sums header. -/
def divisorCol (fr : fr_t) (product : Int) (j : Nat) : Option Nat :=
  if product.tmod (2 + (j : Int)) ≠ 0 then none
  else bsearch ⟨2 + (j : Int) + product.tdiv (2 + (j : Int)), false⟩ fr.cols 0 fr.nCols

/-- The body of the loop of `rmSumsWithMultipleProducts` for the column `col`. -/
def rmSumsWithMultipleProductsStep (fr : fr_t) (col : Nat) : fr_t :=
  if !colLive fr col then fr
  else if (nLiveProducts fr col).1 = 1 then fr
  else { fr with cols := kill fr.cols col }

/-- Phase 3 with the columns visited in the order given by the list `order`. -/
def rmSumsWithMultipleProductsIn (fr : fr_t) (order : List Nat) : fr_t :=
  order.foldl rmSumsWithMultipleProductsStep fr

/-- Whether `printAnswers` prints a line for row `row`: the row is live and exactly
one live column holds a 1 in it. -/
def isAnswerRow (fr : fr_t) (row : Nat) : Bool :=
  rowLive fr row && decide ((liveTrueCols fr row).length = 1)

/-- The line that `printAnswers` prints for the row `row` and its column `col`. -/
def answerLine (fr : fr_t) (row col : Nat) : Int × Int × Int × Int :=
  ((fr.rows.getD row num_t.zero).num, (fr.cols.getD col num_t.zero).num,
    (getXY fr (fr.rows.getD row num_t.zero).num (fr.cols.getD col num_t.zero).num).1,
    (getXY fr (fr.rows.getD row num_t.zero).num (fr.cols.getD col num_t.zero).num).2)

/-- The cells `(row, col)` for which `printAnswers` prints a line, in printing order:
the answer rows in ascending order, each with its single live column holding a 1. -/
def answerCells (fr : fr_t) : List (Nat × Nat) :=
  ((List.range fr.nRows).filter (isAnswerRow fr)).map
    (fun row => (row, (liveTrueCols fr row).headD 0))

/-- The states `fr1` and `fr` hold the same values everywhere: the same matrix, counts
and bounds, and the same `num` in every entry of both headers. Only `live` flags may
differ. -/
def sameValues (fr1 fr : fr_t) : Prop :=
  fr1.matrix = fr.matrix ∧ fr1.nRows = fr.nRows ∧ fr1.nCols = fr.nCols ∧
  fr1.minInt = fr.minInt ∧ fr1.maxInt = fr.maxInt ∧
  fr1.minSum = fr.minSum ∧ fr1.maxSum = fr.maxSum ∧
  fr1.cols.map (fun e => e.num) = fr.cols.map (fun e => e.num) ∧
  fr1.rows.map (fun e => e.num) = fr.rows.map (fun e => e.num)

/-! ## The analytic solver (`afreudenthal.c`) -/

namespace Analytic

/-- The loop of `isPrime` with `k` iterations left, `i` being the next divisor tried. -/
def isPrimeLoop (n : Int) : Nat → Int → Int
  | 0, _ => 1
  | k + 1, i => if n.tmod i = 0 then 0 else isPrimeLoop n k (i + 1)

/-- The function `isPrime` of the analytic solver. -/
def isPrime (n : Int) : Int :=
  if n ≤ 3 then 1
  else if n.tmod 2 = 0 then 0
  else isPrimeLoop n (sqroot n - 1).toNat 2

/-- The loop of `sumPassesS1` with `k` iterations left, `a` being the next term tried. -/
def sumPassesS1Loop (sum : Int) : Nat → Int → Int
  | 0, _ => 1
  | k + 1, a =>
    if isPrime a ≠ 0 ∧ isPrime (sum - a) ≠ 0 then 0
    else sumPassesS1Loop sum k (a + 1)

/-- The function `sumPassesS1`; `half = sum / 2` is the truncating division of C. -/
def sumPassesS1 (sum : Int) : Int :=
  sumPassesS1Loop sum (sum.tdiv 2 - 1).toNat 2

/-- The loop of `prodPassesP1` with `k` iterations left, `a` being the next divisor
tried. -/
def prodPassesP1Loop (product : Int) : Nat → Int → Int
  | 0, _ => 1
  | k + 1, a =>
    if product.tmod a = 0 then
      if isPrime a ≠ 0 ∧ isPrime (product.tdiv a) ≠ 0 then 0
      else prodPassesP1Loop product k (a + 1)
    else prodPassesP1Loop product k (a + 1)

/-- The function `prodPassesP1`. -/
def prodPassesP1 (product : Int) : Int :=
  prodPassesP1Loop product (sqroot product - 1).toNat 2

/-- The loop of `prodPassesP2` with `k` iterations left, `a` being the next divisor
tried and `cnt` the running count. -/
def prodPassesP2Loop (product minint maxint : Int) : Nat → Int → Int → Int
  | 0, _, cnt => cnt
  | k + 1, a, cnt =>
    if product.tmod a = 0 then
      if product.tdiv a < minint ∨ product.tdiv a > maxint then
        prodPassesP2Loop product minint maxint k (a + 1) cnt
      else if sumPassesS1 (a + product.tdiv a) ≠ 0 then
        if cnt > 0 then 0
        else prodPassesP2Loop product minint maxint k (a + 1) 1
      else prodPassesP2Loop product minint maxint k (a + 1) cnt
    else prodPassesP2Loop product minint maxint k (a + 1) cnt

/-- The function `prodPassesP2`. -/
def prodPassesP2 (product minint maxint : Int) : Int :=
  prodPassesP2Loop product minint maxint (sqroot product - 1).toNat 2 0

end Analytic

/-! ## A fast evaluation path for `main`

The definitions of this section compute the answers of `main` without random access
into long arrays: the products header is handled as a list with run lengths and the
relation matrix as one set of products per column, each set a bit mask. Along the way
the path checks the conditions under which it agrees with the program and gives `none`
when one of them fails (see `main_eq_of_fastMain`). -/

/-- The value `f x`, computed so that `x` is evaluated before `f` is entered. -/
def force {α : Type} (x : Nat) (f : Nat → α) : α :=
  match x with
  | 0 => f 0
  | n + 1 => f (n + 1)

/-- The entries that the inner loop of `mkProducts` writes for the outer value `a`,
in order, with `n` iterations left and `b` the next second factor. -/
def prodRun (a maxSum : Int) : Nat → Int → List num_t
  | 0, _ => []
  | n + 1, b =>
    if a + b > maxSum then prodRun a maxSum n (b + 1)
    else ⟨a * b, true⟩ :: prodRun a maxSum n (b + 1)

/-- The entries that `mkProducts` writes, in order, with `n` outer iterations left
and `a` the next first factor. -/
def prodRuns (maxInt maxSum : Int) : Nat → Int → List num_t
  | 0, _ => []
  | n + 1, a =>
    prodRun a maxSum (maxInt - a).toNat (a + 1) ++ prodRuns maxInt maxSum n (a + 1)

/-- All the entries that `mkProducts` writes for the bounds `minInt`, `maxSum`. -/
def prodList (minInt maxSum : Int) : List num_t :=
  prodRuns (maxSum - minInt) maxSum (maxSum - minInt - minInt + 1).toNat minInt

/-- The order `a <= b` of the integers, by cases on the signs. -/
def intLe : Int → Int → Bool
  | Int.ofNat a, Int.ofNat b => Nat.ble a b
  | Int.ofNat _, Int.negSucc _ => false
  | Int.negSucc _, Int.ofNat _ => true
  | Int.negSucc a, Int.negSucc b => Nat.ble b a

/-- The order of `cmpNums`, computed by `intLe`. -/
def numLe (x y : num_t) : Bool := intLe x.num y.num

/-- Whether a list of entries is in ascending `num` order. -/
def isAscending : List num_t → Bool
  | [] => true
  | [_] => true
  | x :: y :: r => numLe x y && isAscending (y :: r)

/-- The number of leading entries of a list whose `num` is `key`. -/
def leadCount (key : Int) : List num_t → Nat
  | [] => 0
  | x :: r => if x.num = key then leadCount key r + 1 else 0

/-- The probes of `bsearch` in a sub-array of which exactly the first `k` entries
match and the others are greater: the interval `[0, u)` is halved until the probe
falls among the first `k` entries. -/
def halveFind (k : Nat) : Nat → Nat → Option Nat
  | 0, _ => none
  | fuel + 1, u =>
    if 0 < u then
      if u / 2 < k then some (u / 2) else halveFind k fuel (u / 2)
    else none

/-- The `while ( 1 )` loop of `rmDupProducts` on an ascending array, by run lengths.
The array is `D ++ x :: (vs ++ e copies of M) ++ t copies of M`, the first `nRows`
entries ending with the `e` copies; `nv` is the length of `vs`. The result is `none`
when `memmove` would read more than the `t` entries after the first `nRows`. -/
def fastInner (M : num_t) (key : Int) :
    Nat → num_t → List num_t → Nat → Nat → Nat → Option (num_t × List num_t × Nat × Nat × Nat)
  | 0, x, vs, nv, e, t => if nv + e = 0 then some (x, vs, nv, e, t) else none
  | fuel + 1, x, vs, nv, e, t =>
    force (if leadCount key vs = nv ∧ M.num = key then leadCount key vs + e
        else leadCount key vs) (fun k =>
      if k = 0 then some (x, vs, nv, e, t)
      else
        match halveFind k (nv + e) (nv + e) with
        | none => none
        | some idx =>
          if t < idx then none
          else
            fastInner M key fuel (if idx < nv then vs.getD idx M else M) (vs.drop (idx + 1))
              (nv - (idx + 1)) (e - (idx + 1 - nv) + idx) (t + 1))

/-- The `for` loop of `rmDupProducts` on an ascending array, by run lengths: the
entries kept, in order (`acc` holds those already passed, last first), and the number
of stale entries after them. -/
def fastOuter (M : num_t) :
    Nat → num_t → List num_t → Nat → Nat → Nat → List num_t → Option (List num_t × Nat)
  | 0, _, _, _, _, _, _ => none
  | fuel + 1, x, vs, nv, e, t, acc =>
    match fastInner M x.num (nv + e) x vs nv e t with
    | none => none
    | some (x1, vs1, nv1, e1, t1) =>
      match vs1 with
      | y :: vs2 => fastOuter M fuel y vs2 (nv1 - 1) e1 t1 (x1 :: acc)
      | [] =>
        if e1 = 0 then some ((x1 :: acc).reverse, t1)
        else fastOuter M fuel M [] 0 (e1 - 1) t1 (x1 :: acc)

/-- The function `rmDupProducts` on an array that `qsort` has put in ascending order:
the entries kept and the number of stale entries after them; `none` when the order
check fails or `memmove` would read past the allocation. -/
def fastDedup (s : List num_t) : Option (List num_t × Nat) :=
  match s with
  | [] => some ([], 0)
  | x :: vs =>
    if isAscending (x :: vs) then
      fastOuter ((x :: vs).getLastD x) (vs.length + 1) x vs vs.length 0 0 []
    else none

/-- The `while ( 1 )` loop of `rmDupProducts` on an ascending array, on lists: the
array is `D ++ x :: v ++ t copies of M`, of which `D ++ x :: v` are the first `nRows`
entries. The result is `none` when `memmove` would read more than the `t` entries
after the first `nRows`. -/
def absInner (M : num_t) (key : Int) :
    Nat → num_t → List num_t → Nat → Option (num_t × List num_t × Nat)
  | 0, x, v, t => if v.length = 0 then some (x, v, t) else none
  | fuel + 1, x, v, t =>
    if leadCount key v = 0 then some (x, v, t)
    else
      match halveFind (leadCount key v) v.length v.length with
      | none => none
      | some idx =>
        if t < idx then none
        else
          absInner M key fuel (v.getD idx M) (v.drop (idx + 1) ++ List.replicate idx M) (t + 1)

/-- The `for` loop of `rmDupProducts` on an ascending array, on lists. -/
def absOuter (M : num_t) :
    Nat → num_t → List num_t → Nat → List num_t → Option (List num_t × Nat)
  | 0, _, _, _, _ => none
  | fuel + 1, x, v, t, acc =>
    match absInner M x.num v.length x v t with
    | none => none
    | some (x1, v1, t1) =>
      match v1 with
      | y :: v2 => absOuter M fuel y v2 t1 (x1 :: acc)
      | [] => some ((x1 :: acc).reverse, t1)

/-- The entries `v` after the current one in `rmDupProducts`: in ascending order,
between `key` and the `num` of `M`, and ending with `M`. -/
def ascTo (M : num_t) (key : Int) (v : List num_t) : Prop :=
  v.Pairwise (fun a b => a.num ≤ b.num) ∧ (∀ a ∈ v, key ≤ a.num ∧ a.num ≤ M.num) ∧
    (v ≠ [] → v.getLast? = some M)

/-- The set, as a bit mask, of the numbers `a * (s - a)` for `a = 2, ..., 2 + j - 1`. -/
def pairMaskLoop (s : Nat) : Nat → Nat
  | 0 => 0
  | j + 1 => pairMaskLoop s j ||| (1 <<< ((2 + j) * (s - (2 + j))))

/-- The set, as a bit mask, of the products `a * b` with `2 <= a <= b` and `a + b = s`. -/
def pairMask (s : Nat) : Nat := pairMaskLoop s (s / 2 - 1)

/-- The set `acc`, as a bit mask, extended by the `num` values of the entries of a list. -/
def numMaskAcc : List num_t → Nat → Nat
  | [], acc => acc
  | e :: r, acc => force (acc ||| (1 <<< e.num.toNat)) (fun a => numMaskAcc r a)

/-- The set, as a bit mask, of the `num` values of the entries of a list. -/
def numMask (l : List num_t) : Nat := numMaskAcc l 0

/-- For every column `c0, c0 + 1, ...` (`n` of them), the column with the set of the
products of the header `dmask` that have a 1 in it. -/
def colSets (minSum dmask : Nat) : Nat → Nat → List (Nat × Nat)
  | 0, _ => []
  | n + 1, c =>
    force (pairMask (minSum + c) &&& dmask) (fun r => (c, r) :: colSets minSum dmask n (c + 1))

/-- For a list of sets and two sets `o`, `t`: `o` extended by the elements that lie in
at least one set of the list, and `t` extended by those that lie in two sets of the
list or in `o` and in one set of the list. -/
def onceTwiceAcc : List (Nat × Nat) → Nat → Nat → Nat × Nat
  | [], o, t => (o, t)
  | r :: rest, o, t =>
    force (t ||| (o &&& r.2)) (fun t1 => force (o ||| r.2) (fun o1 => onceTwiceAcc rest o1 t1))

/-- The elements that lie in exactly one set of the list. -/
def exactlyOnce (l : List (Nat × Nat)) : Nat :=
  (onceTwiceAcc l 0 0).1 ^^^ (onceTwiceAcc l 0 0).2

/-- Whether the entries of a list are live and have positive, strictly ascending `num`
values. -/
def isCleanHeader : List num_t → Bool
  | [] => true
  | [x] => x.live && decide (0 < x.num)
  | x :: y :: r => x.live && decide (0 < x.num) && decide (x.num < y.num) && isCleanHeader (y :: r)

/-- The first entry of a list whose `num` lies in the set `x`. -/
def firstIn (x : Nat) : List num_t → Option num_t
  | [] => none
  | e :: r => if x.testBit e.num.toNat then some e else firstIn x r

/-- Whether the set `x` of `num` values of the list `d` has exactly one element:
`some true` when it has, `some false` when it is empty or has two elements, `none`
when the check is inconclusive. -/
def isSingleton (d : List num_t) (x : Nat) : Option Bool :=
  if x = 0 then some false
  else
    match firstIn x d with
    | none => none
    | some e => some (decide (x = 1 <<< e.num.toNat))

/-- Phase 3 on the sets: the columns of `sets` whose set has exactly one element in
`live2`; `none` when a check is inconclusive. -/
def keepSingle (d : List num_t) (live2 : Nat) : List (Nat × Nat) → Option (List (Nat × Nat))
  | [] => some []
  | cr :: rest =>
    match isSingleton d (cr.2 &&& live2) with
    | none => none
    | some b =>
      match keepSingle d live2 rest with
      | none => none
      | some l => some (if b then cr :: l else l)

/-- Answer extraction on the sets for the header entry `e`: the line that is printed
for it, if any. The list `sets3` holds, for every column that is live after Phase 3,
its index and the set of the products with a 1 in it; `live2` is the set of the
products that are live after Phase 2. -/
def maskAnswer (minInt minSum : Int) (sets3 : List (Nat × Nat)) (live2 : Nat) (e : num_t) :
    Option (Int × Int × Int × Int) :=
  if live2.testBit e.num.toNat then
    match sets3.filter (fun cr => cr.2.testBit e.num.toNat) with
    | [cr] =>
      let sum := minSum + (cr.1 : Int)
      let xy := getXYLoop e.num sum (sum.tdiv 2 - minInt + 1).toNat minInt
      some (e.num, sum, xy.1, xy.2)
    | _ => none
  else none

/-- Answer extraction on the sets: the lines for the entries of the header, in order. -/
def maskAnswers (minInt minSum : Int) (sets3 : List (Nat × Nat)) (live2 : Nat)
    (d : List num_t) : List (Int × Int × Int × Int) :=
  d.filterMap (maskAnswer minInt minSum sets3 live2)

/-- The three phases and the answer extraction on the header `d`. -/
def fastAnswers (minInt minSum : Int) (nCols : Nat) (d : List num_t) :
    Option (List (Int × Int × Int × Int)) :=
  if isCleanHeader d then
    force (numMask d) (fun dmask =>
      let sets := colSets minSum.toNat dmask nCols 0
      force (exactlyOnce sets) (fun unique =>
        let sets1 := sets.filter (fun cr => cr.2 &&& unique == 0)
        force (exactlyOnce sets1) (fun live2 =>
          match keepSingle d live2 sets1 with
          | none => none
          | some sets3 => some (maskAnswers minInt minSum sets3 live2 d))))
  else none

/-- The answers of `main`, computed on the fast path; `none` when `init` fails or
when one of the checks of the fast path fails. -/
def fastMain (minInt maxSum : Int) : Option (List (Int × Int × Int × Int)) :=
  if minInt ≤ 0 then none
  else if maxSum ≤ minInt + minInt then none
  else
    match fastDedup (sortRuns numLe (prodList minInt maxSum)) with
    | none => none
    | some (d, _) =>
      fastAnswers minInt (minInt + minInt) (maxSum - (minInt + minInt) + 1).toNat d

/-- The state `fr` seen through bit masks: the first `nRows` entries of `rows` are the
header `d`, whose entries are live and have different `num` values; column `c` is
live and has the sum `minSum + c`; and `cs c` is the set of the products with a 1 in
column `c`. -/
structure maskedBy (fr : fr_t) (d : List num_t) (minSum : Int) (cs : Nat → Nat) : Prop where
  nRows_eq : fr.nRows = d.length
  rows_eq : ∀ r, r < d.length → fr.rows.getD r num_t.zero = d.getD r num_t.zero
  cols_eq : ∀ c, c < fr.nCols → fr.cols.getD c num_t.zero = ⟨minSum + (c : Int), true⟩
  live : ∀ e ∈ d, e.live = true
  nodup : (d.map (fun e => e.num.toNat)).Nodup
  sub : ∀ c p, (cs c).testBit p = true → ∃ e ∈ d, e.num.toNat = p
  cell_iff : ∀ r c, r < fr.nRows → c < fr.nCols →
    (cell fr r c = 1 ↔ (cs c).testBit (d.getD r num_t.zero).num.toNat = true)

/-- The columns `0, ..., n - 1`, each with its set. -/
def setsOf (cs : Nat → Nat) (n : Nat) : List (Nat × Nat) :=
  (List.range n).map (fun c => (c, cs c))

/-- The columns that are live after Phase 1, each with its set: those whose set holds
no product that lies in exactly one set. -/
def sets1Of (cs : Nat → Nat) (n : Nat) : List (Nat × Nat) :=
  (setsOf cs n).filter (fun cr => cr.2 &&& exactlyOnce (setsOf cs n) == 0)

/-- The set of the products that are live after Phase 2: those that lie in the set of
exactly one column that is live after Phase 1. -/
def live2Of (cs : Nat → Nat) (n : Nat) : Nat := exactlyOnce (sets1Of cs n)

/-- Whether exactly one entry of the header `d` lies in the set `x` and in `live2`. -/
def oneLive (d : List num_t) (live2 x : Nat) : Bool :=
  decide ((d.filter (fun e => (x &&& live2).testBit e.num.toNat)).length = 1)

namespace Analytic

/-- The loop of `sumPassesS2` with `k` iterations left, `a` being the next term tried
and `cnt` the running count. -/
def sumPassesS2Loop (sum minint maxint : Int) : Nat → Int → Int → Int
  | 0, _, cnt => cnt
  | k + 1, a, cnt =>
    if prodPassesP2 (a * (sum - a)) minint maxint ≠ 0 then
      if cnt > 0 then 0
      else sumPassesS2Loop sum minint maxint k (a + 1) 1
    else sumPassesS2Loop sum minint maxint k (a + 1) cnt

/-- The function `sumPassesS2`; `half = sum / 2` is the truncating division of C. -/
def sumPassesS2 (sum minint maxint : Int) : Int :=
  sumPassesS2Loop sum minint maxint (sum.tdiv 2 - 1).toNat 2 0

/-- A row of the table of the analytic solver: `typedef struct { ... } fr_t` of
`afreudenthal.c`, with the four flags that the checks set. -/
structure fr_t where
  x : Int
  y : Int
  sum : Int
  prod : Int
  prodpp1 : Int
  sumps1 : Int
  prodpp2 : Int
  sumps2 : Int
deriving DecidableEq

/-- The rows that the inner loop of `mkPairs` writes for the outer value `x`, in
order, with `k` iterations left and `y` the next second number. The flags are the
zero bytes of `calloc`. -/
def mkPairsInner (x sumubound : Int) : Nat → Int → List fr_t
  | 0, _ => []
  | k + 1, y =>
    if x + y ≤ sumubound then
      ⟨x, y, x + y, x * y, 0, 0, 0, 0⟩ :: mkPairsInner x sumubound k (y + 1)
    else mkPairsInner x sumubound k (y + 1)

/-- The rows that `mkPairs` writes, in order, with `k` outer iterations left and `x`
the next first number. -/
def mkPairsOuter (sumubound : Int) : Nat → Int → List fr_t
  | 0, _ => []
  | k + 1, x =>
    mkPairsInner x sumubound (sumubound - x).toNat (x + 1) ++
      mkPairsOuter sumubound k (x + 1)

/-- The function `mkPairs`: the rows it writes when `fr` is not NULL; their number is
the count `n` that it returns in both calls. -/
def mkPairs (minint sumubound : Int) : List fr_t :=
  mkPairsOuter sumubound (sumubound - minint + 1).toNat minint

/-- The function `init` after argument parsing: the table, or `none` for the NULL
result when there is no pair. -/
def init (minint sumubound : Int) : Option (List fr_t) :=
  if (mkPairs minint sumubound).length = 0 then none
  else some (mkPairs minint sumubound)

/-- The loop of `checkP1` on every row. -/
def checkP1 (fr : List fr_t) : List fr_t :=
  fr.map (fun r => { r with prodpp1 := prodPassesP1 r.prod })

/-- The loop of `checkS1`: rows that did not pass P1 are skipped. -/
def checkS1 (fr : List fr_t) : List fr_t :=
  fr.map (fun r => if r.prodpp1 = 0 then r else { r with sumps1 := sumPassesS1 r.sum })

/-- The loop of `checkP2`: rows that did not pass P1 and S1 are skipped. -/
def checkP2 (fr : List fr_t) (minint maxint : Int) : List fr_t :=
  fr.map (fun r =>
    if r.prodpp1 = 0 ∨ r.sumps1 = 0 then r
    else { r with prodpp2 := prodPassesP2 r.prod minint maxint })

/-- The loop of `checkS2`: rows that did not pass P1, S1 and P2 are skipped. -/
def checkS2 (fr : List fr_t) (minint maxint : Int) : List fr_t :=
  fr.map (fun r =>
    if r.prodpp1 = 0 ∨ r.sumps1 = 0 ∨ r.prodpp2 = 0 then r
    else { r with sumps2 := sumPassesS2 r.sum minint maxint })

/-- The function `main` of the analytic solver after argument parsing: the rows
printed between `[Begin Sums That Pass S2:` and `:end Sums That Pass S2]`, as the
pairs `(x, y)`; `none` when `init` fails. -/
def main (minint sumubound : Int) : Option (List (Int × Int)) :=
  (init minint sumubound).map (fun fr =>
    ((checkS2 (checkP2 (checkS1 (checkP1 fr)) minint (sumubound - minint)) minint
        (sumubound - minint)).filter (fun r => decide (r.sumps2 ≠ 0))).map
      (fun r => (r.x, r.y)))

end Analytic

namespace Analytic

/-! ### A fast evaluation path for the checks

The checks call each other many times on the same arguments. The definitions of this
section compute the same values with the answers of `isPrime`, `sumPassesS1` and of
the sum part of the four checks kept in bit masks. -/

/-- The set `acc`, as a bit mask, extended by the numbers `i < n` with `f i`. -/
def memoLoop (f : Int → Bool) : Nat → Nat → Nat
  | 0, acc => acc
  | n + 1, acc => force (if f (n : Int) then acc ||| (1 <<< n) else acc) (fun a => memoLoop f n a)

/-- The set, as a bit mask, of the numbers `i < n` with `f i`. -/
def memo (f : Int → Bool) (n : Nat) : Nat := memoLoop f n 0

/-- The value `f s`, read from the mask `mask` of the numbers below `n` when `s` is
one of them. -/
def lookup (f : Int → Bool) (mask n : Nat) (s : Int) : Bool :=
  match s with
  | Int.ofNat k => if k < n then mask.testBit k else f s
  | Int.negSucc _ => f s

/-- The loop of `sumPassesS1` with the answers of `isPrime` given by `prime`. -/
def sumPassesS1LoopWith (prime : Int → Bool) (sum : Int) : Nat → Int → Int
  | 0, _ => 1
  | k + 1, a =>
    if (prime a && prime (sum - a)) = true then 0
    else sumPassesS1LoopWith prime sum k (a + 1)

/-- The function `sumPassesS1` with the answers of `isPrime` given by `prime`. -/
def sumPassesS1With (prime : Int → Bool) (sum : Int) : Int :=
  sumPassesS1LoopWith prime sum (sum.tdiv 2 - 1).toNat 2

/-- The loop of `prodPassesP2` with the answers of `sumPassesS1` given by `s1`. -/
def prodPassesP2LoopWith (s1 : Int → Bool) (product minint maxint : Int) :
    Nat → Int → Int → Int
  | 0, _, cnt => cnt
  | k + 1, a, cnt =>
    if product.tmod a = 0 then
      if product.tdiv a < minint ∨ product.tdiv a > maxint then
        prodPassesP2LoopWith s1 product minint maxint k (a + 1) cnt
      else if s1 (a + product.tdiv a) = true then
        if cnt > 0 then 0
        else prodPassesP2LoopWith s1 product minint maxint k (a + 1) 1
      else prodPassesP2LoopWith s1 product minint maxint k (a + 1) cnt
    else prodPassesP2LoopWith s1 product minint maxint k (a + 1) cnt

/-- The function `prodPassesP2` with the answers of `sumPassesS1` given by `s1`. -/
def prodPassesP2With (s1 : Int → Bool) (product minint maxint : Int) : Int :=
  prodPassesP2LoopWith s1 product minint maxint (sqroot product - 1).toNat 2 0

/-- The loop of `sumPassesS2` with the answers of `prodPassesP2` given by `p2`. -/
def sumPassesS2LoopWith (p2 : Int → Bool) (sum : Int) : Nat → Int → Int → Int
  | 0, _, cnt => cnt
  | k + 1, a, cnt =>
    if p2 (a * (sum - a)) = true then
      if cnt > 0 then 0
      else sumPassesS2LoopWith p2 sum k (a + 1) 1
    else sumPassesS2LoopWith p2 sum k (a + 1) cnt

/-- The function `sumPassesS2` with the answers of `prodPassesP2` given by `p2`. -/
def sumPassesS2With (p2 : Int → Bool) (sum : Int) : Int :=
  sumPassesS2LoopWith p2 sum (sum.tdiv 2 - 1).toNat 2 0

/-- Whether `isPrime( n )` is non-zero. -/
def primeB (n : Int) : Bool := decide (isPrime n ≠ 0)

/-- Whether the sum `s` passes S1 and S2: both functions return 1. -/
def sumB (minint maxint : Int) (s : Int) : Bool :=
  decide (sumPassesS1 s = 1) && decide (sumPassesS2 s minint maxint = 1)

/-- The function `sumB` on the fast path, the masks of `isPrime` and of `sumPassesS1`
reaching to `n1`. -/
def sumBWith (pm sm n1 : Nat) (minint maxint : Int) (s : Int) : Bool :=
  decide (sumPassesS1With (lookup primeB pm n1) s = 1) &&
    decide (sumPassesS2With
      (fun p => decide (prodPassesP2With
        (lookup (fun t => decide (sumPassesS1With (lookup primeB pm n1) t ≠ 0)) sm n1)
        p minint maxint ≠ 0)) s = 1)

/-- The set, as a bit mask, of the sums below `n2` that pass S1 and S2. -/
def sumMask (n1 n2 : Nat) (minint maxint : Int) : Nat :=
  force (memo primeB n1) (fun pm =>
    force (memo (fun t => decide (sumPassesS1With (lookup primeB pm n1) t ≠ 0)) n1) (fun sm =>
      memo (sumBWith pm sm n1 minint maxint) n2))

/-- The rows of `mkPairs` that pass the four checks, on the fast path. -/
def fastRows (minint sumubound : Int) : List fr_t :=
  force (sumMask 200 100 minint (sumubound - minint)) (fun m =>
    (mkPairs minint sumubound).filter (fun r =>
      lookup (sumB minint (sumubound - minint)) m 100 r.sum &&
        (decide (prodPassesP2 r.prod minint (sumubound - minint) = 1) &&
          decide (prodPassesP1 r.prod = 1))))

end Analytic

/-! ## Frame lemmas -/

theorem length_kill (arr : List num_t) (i : Nat) : (kill arr i).length = arr.length := by
  simp [kill]

theorem getD_kill (arr : List num_t) (i j : Nat) :
    (kill arr i).getD j num_t.zero =
      if i = j then { arr.getD j num_t.zero with live := false } else arr.getD j num_t.zero := by
  unfold kill
  rw [List.getD_eq_getElem?_getD, List.getElem?_set]
  by_cases h : i = j
  · subst h
    by_cases hl : i < arr.length
    · simp [hl]
    · have : arr.length ≤ i := Nat.le_of_not_lt hl
      simp [hl, List.getD_eq_getElem?_getD, List.getElem?_eq_none this, num_t.zero]
  · simp [h, List.getD_eq_getElem?_getD]

theorem length_mkSumsLoop (fr : fr_t) (k : Nat) : (mkSumsLoop fr k).length = fr.cols.length := by
  induction k with
  | zero => rfl
  | succ k ih => simp [mkSumsLoop, ih]

theorem getElem?_mkSumsLoop (fr : fr_t) (k i : Nat) :
    (mkSumsLoop fr k)[i]? =
      if i < k ∧ i < fr.cols.length then some ⟨fr.minSum + i, true⟩ else fr.cols[i]? := by
  induction k with
  | zero => simp [mkSumsLoop]
  | succ k ih =>
    simp only [mkSumsLoop, List.getElem?_set, length_mkSumsLoop, ih]
    by_cases h : k = i
    · subst h
      by_cases hl : k < fr.cols.length
      · simp [hl]
      · have : fr.cols.length ≤ k := Nat.le_of_not_lt hl
        simp [hl, List.getElem?_eq_none this]
    · have : (i < k + 1) ↔ i < k := by omega
      simp [h, this]


@[simp] theorem mkMatrix_cols (fr : fr_t) : (mkMatrix fr).cols = fr.cols := rfl
@[simp] theorem mkMatrix_rows (fr : fr_t) : (mkMatrix fr).rows = fr.rows := rfl
@[simp] theorem mkMatrix_nCols (fr : fr_t) : (mkMatrix fr).nCols = fr.nCols := rfl
@[simp] theorem mkMatrix_nRows (fr : fr_t) : (mkMatrix fr).nRows = fr.nRows := rfl
@[simp] theorem mkMatrix_minInt (fr : fr_t) : (mkMatrix fr).minInt = fr.minInt := rfl
@[simp] theorem rmDupProducts_cols (fr : fr_t) (heap : Nat → num_t) :
    (rmDupProducts fr heap).cols = fr.cols := rfl
@[simp] theorem rmDupProducts_nCols (fr : fr_t) (heap : Nat → num_t) :
    (rmDupProducts fr heap).nCols = fr.nCols := rfl
@[simp] theorem rmDupProducts_minInt (fr : fr_t) (heap : Nat → num_t) :
    (rmDupProducts fr heap).minInt = fr.minInt := rfl
@[simp] theorem mkProducts_cols (fr : fr_t) (b : Bool) : (mkProducts fr b).1.cols = fr.cols := rfl
@[simp] theorem mkProducts_nCols (fr : fr_t) (b : Bool) : (mkProducts fr b).1.nCols = fr.nCols := rfl
@[simp] theorem mkProducts_minInt (fr : fr_t) (b : Bool) :
    (mkProducts fr b).1.minInt = fr.minInt := rfl
@[simp] theorem mkSums_nCols (fr : fr_t) : (mkSums fr).nCols = fr.nCols := rfl
@[simp] theorem mkSums_minInt (fr : fr_t) : (mkSums fr).minInt = fr.minInt := rfl
@[simp] theorem mkSums_maxInt (fr : fr_t) : (mkSums fr).maxInt = fr.maxInt := rfl
@[simp] theorem mkSums_maxSum (fr : fr_t) : (mkSums fr).maxSum = fr.maxSum := rfl
@[simp] theorem mkSums_minSum (fr : fr_t) : (mkSums fr).minSum = fr.minSum := rfl

theorem wrapInt_le (x : Int) (h : 0 ≤ x) : wrapInt x ≤ x := by
  unfold wrapInt
  omega

theorem wrapInt_range (x : Int) : -2147483648 ≤ wrapInt x ∧ wrapInt x ≤ 2147483647 := by
  unfold wrapInt
  omega

theorem mkSums_cols_replicate (a b c d : Int) (n r : Nat) (rows : List num_t) (m : List Int)
    (hn : n = (d - c + 1).toNat) :
    (mkSums ⟨a, b, c, d, n, r, List.replicate n num_t.zero, rows, m⟩).cols =
      (List.range n).map (fun (i : Nat) => (⟨c + (i : Int), true⟩ : num_t)) := by
  apply List.ext_getElem?
  intro i
  simp only [mkSums, getElem?_mkSumsLoop, ← hn, List.length_replicate, and_self]
  by_cases h : i < n
  · rw [if_pos h, List.getElem?_map, List.getElem?_range h]
    rfl
  · have h' : n ≤ i := Nat.le_of_not_lt h
    rw [if_neg h, List.getElem?_eq_none (by simpa using h'),
      List.getElem?_eq_none (by simpa using h')]

theorem init_cols (minInt maxSum : Int) (heap : Nat → num_t) (fr : fr_t)
    (h : init minInt maxSum heap = some fr) :
    fr.cols = initCols minInt maxSum ∧ fr.nCols = (maxSum - (minInt + minInt) + 1).toNat ∧
      fr.minInt = minInt := by
  unfold init at h
  by_cases h1 : minInt ≤ 0
  · simp [h1] at h
  · by_cases h2 : maxSum ≤ wrapInt (minInt + minInt)
    · simp [h1, h2] at h
    · simp only [h1, h2, if_false, Option.some.injEq] at h
      subst h
      refine ⟨?_, rfl, rfl⟩
      simp only [mkMatrix_cols, rmDupProducts_cols, mkProducts_cols]
      exact mkSums_cols_replicate _ _ _ _ _ _ _ _ rfl


/-! ## Initialisation: bounds check and the sums header -/

theorem getD_initCols (minInt maxSum : Int) (i : Nat)
    (h : i < (maxSum - (minInt + minInt) + 1).toNat) :
    (initCols minInt maxSum).getD i num_t.zero = ⟨minInt + minInt + (i : Int), true⟩ := by
  unfold initCols
  rw [List.getD_eq_getElem?_getD, List.getElem?_map, List.getElem?_range h]
  rfl

theorem nSumsLoop_eq (fr : fr_t) (row : Nat) (liveOnly : Bool) (k : Nat) :
    nSumsLoop fr row liveOnly k =
      (((List.range k).filter (countedCol fr row liveOnly)).length,
        ((List.range k).filter (countedCol fr row liveOnly)).getLast?) := by
  induction k with
  | zero => rfl
  | succ k ih =>
    rw [nSumsLoop, ih, List.range_succ, List.filter_append]
    by_cases h1 : (liveOnly && !colLive fr k) = true
    · have hc : countedCol fr row liveOnly k = false := by
        simp only [Bool.and_eq_true, Bool.not_eq_true'] at h1
        simp [countedCol, h1.1, h1.2]
      simp [h1, hc]
    · by_cases h2 : cell fr row k ≠ 1
      · have hc : countedCol fr row liveOnly k = false := by
          simp [countedCol, h2]
        simp [h1, h2, hc]
      · have h2' : cell fr row k = 1 := not_not.1 h2
        have hc : countedCol fr row liveOnly k = true := by
          cases hl : liveOnly
          · simp [countedCol, h2']
          · cases hv : colLive fr k
            · simp [hl, hv] at h1
            · simp [countedCol, h2', hv]
        simp [h1, h2', hc]

theorem nSums_eq (fr : fr_t) (row : Nat) (liveOnly : Bool) :
    nSums fr row liveOnly =
      (((List.range fr.nCols).filter (countedCol fr row liveOnly)).length,
        ((List.range fr.nCols).filter (countedCol fr row liveOnly)).getLast?) :=
  nSumsLoop_eq fr row liveOnly fr.nCols

theorem nLiveProductsLoop_eq (fr : fr_t) (col : Nat) (k : Nat) :
    nLiveProductsLoop fr col k =
      (((List.range k).filter
          (fun row => rowLive fr row && decide (cell fr row col = 1))).length,
        ((List.range k).filter
          (fun row => rowLive fr row && decide (cell fr row col = 1))).getLast?) := by
  induction k with
  | zero => rfl
  | succ k ih =>
    rw [nLiveProductsLoop, ih, List.range_succ, List.filter_append]
    by_cases h1 : (!rowLive fr k) = true
    · simp only [Bool.not_eq_true'] at h1
      simp [h1]
    · by_cases h2 : cell fr k col ≠ 1
      · simp [h1, h2]
      · have h2' : cell fr k col = 1 := not_not.1 h2
        simp only [Bool.not_eq_true', Bool.not_eq_false] at h1
        simp [h1, h2']

theorem nLiveProducts_eq (fr : fr_t) (col : Nat) :
    nLiveProducts fr col = ((liveTrueRows fr col).length, (liveTrueRows fr col).getLast?) :=
  nLiveProductsLoop_eq fr col fr.nRows

/-- A list has one element and that element is last exactly when it is a singleton. -/
theorem length_one_getLast_iff {α : Type} (l : List α) (c : α) :
    (l.length = 1 ∧ l.getLast? = some c) ↔ l = [c] := by
  constructor
  · rintro ⟨h1, h2⟩
    match l, h1, h2 with
    | [x], _, h2 =>
      simp at h2
      rw [h2]
  · rintro rfl
    simp

theorem length_one_getLast_isSome {α : Type} (l : List α) (h : l.length = 1) :
    ∃ c, l.getLast? = some c ∧ l = [c] := by
  match l, h with
  | [x], _ => exact ⟨x, rfl, rfl⟩

/-! ## The three phases: what they change and what they keep -/

theorem map_num_kill (arr : List num_t) (i : Nat) :
    (kill arr i).map (fun e => e.num) = arr.map (fun e => e.num) := by
  apply List.ext_getElem?
  intro j
  simp only [List.getElem?_map, kill, List.getElem?_set]
  by_cases h : i = j
  · subst h
    by_cases hl : i < arr.length
    · simp [hl, List.getD_eq_getElem?_getD, List.getElem?_eq_getElem hl]
    · simp [hl, List.getElem?_eq_none (Nat.le_of_not_lt hl)]
  · simp [h]

theorem live_getD_kill (arr : List num_t) (i j : Nat) :
    ((kill arr i).getD j num_t.zero).live = (decide (i ≠ j) && (arr.getD j num_t.zero).live) := by
  rw [getD_kill]
  by_cases h : i = j <;> simp [h]

theorem countedCol_false_congr (fr fr1 : fr_t) (hm : fr1.matrix = fr.matrix)
    (hn : fr1.nCols = fr.nCols) (row col : Nat) :
    countedCol fr1 row false col = countedCol fr row false col := by
  simp [countedCol, cell, hm, hn]

theorem countedCol_true_congr (fr fr1 : fr_t) (hm : fr1.matrix = fr.matrix)
    (hn : fr1.nCols = fr.nCols) (hc : fr1.cols = fr.cols) (row col : Nat) :
    countedCol fr1 row true col = countedCol fr row true col := by
  simp [countedCol, cell, colLive, hm, hn, hc]

theorem nSums_false_eq_trueCols (fr : fr_t) (row : Nat) :
    nSums fr row false = ((trueCols fr row).length, (trueCols fr row).getLast?) :=
  nSums_eq fr row false

theorem nSums_true_eq_liveTrueCols (fr : fr_t) (row : Nat) :
    nSums fr row true = ((liveTrueCols fr row).length, (liveTrueCols fr row).getLast?) :=
  nSums_eq fr row true

theorem trueCols_congr (fr fr1 : fr_t) (hm : fr1.matrix = fr.matrix)
    (hn : fr1.nCols = fr.nCols) (row : Nat) : trueCols fr1 row = trueCols fr row := by
  unfold trueCols
  rw [hn]
  congr 1
  funext c
  exact countedCol_false_congr fr fr1 hm hn row c

theorem liveTrueCols_congr (fr fr1 : fr_t) (hm : fr1.matrix = fr.matrix)
    (hn : fr1.nCols = fr.nCols) (hc : fr1.cols = fr.cols) (row : Nat) :
    liveTrueCols fr1 row = liveTrueCols fr row := by
  unfold liveTrueCols
  rw [hn]
  congr 1
  funext c
  exact countedCol_true_congr fr fr1 hm hn hc row c

theorem liveTrueRows_congr (fr fr1 : fr_t) (hm : fr1.matrix = fr.matrix)
    (hn : fr1.nCols = fr.nCols) (hr : fr1.rows = fr.rows) (hnr : fr1.nRows = fr.nRows)
    (col : Nat) : liveTrueRows fr1 col = liveTrueRows fr col := by
  unfold liveTrueRows
  rw [hnr]
  congr 1
  funext r
  simp [rowLive, cell, hm, hn, hr]

/-- Phase 1 after `k` rows: only `cols` has changed, no `num` has, and a column is
live exactly when it was live and none of the first `k` rows has its single 1 there. -/
theorem rmSumsWithUniqueProductLoop_spec (fr : fr_t) (k : Nat) :
    ∃ cols1, rmSumsWithUniqueProductLoop fr k = { fr with cols := cols1 } ∧
      cols1.map (fun e => e.num) = fr.cols.map (fun e => e.num) ∧
      ∀ c, ((cols1.getD c num_t.zero).live = true ↔
        (colLive fr c = true ∧ ¬ ∃ row, row < k ∧ trueCols fr row = [c])) := by
  induction k with
  | zero =>
    refine ⟨fr.cols, rfl, rfl, ?_⟩
    intro c
    simp [colLive]
  | succ k ih =>
    obtain ⟨cols1, h1, h2, h3⟩ := ih
    rw [rmSumsWithUniqueProductLoop, h1]
    have htc : trueCols { fr with cols := cols1 } k = trueCols fr k :=
      trueCols_congr fr _ rfl rfl k
    simp only [nSums_false_eq_trueCols, htc]
    by_cases hlen : (trueCols fr k).length = 1
    · obtain ⟨c0, hlast, hsingle⟩ := length_one_getLast_isSome _ hlen
      simp only [hlen, ne_eq, not_true_eq_false, if_false, hlast]
      refine ⟨kill cols1 c0, rfl, ?_, ?_⟩
      · rw [map_num_kill, h2]
      · intro c
        rw [live_getD_kill]
        simp only [Bool.and_eq_true, decide_eq_true_eq, h3]
        constructor
        · rintro ⟨hne, hl, hno⟩
          refine ⟨hl, ?_⟩
          rintro ⟨row, hrow, hr⟩
          rcases Nat.lt_succ_iff_lt_or_eq.1 hrow with h | h
          · exact hno ⟨row, h, hr⟩
          · subst h
            rw [hsingle] at hr
            exact hne (by simpa using hr)
        · rintro ⟨hl, hno⟩
          refine ⟨?_, hl, ?_⟩
          · intro he
            subst he
            exact hno ⟨k, Nat.lt_succ_self k, hsingle⟩
          · rintro ⟨row, hrow, hr⟩
            exact hno ⟨row, Nat.lt_succ_of_lt hrow, hr⟩
    · simp only [ne_eq, hlen, not_false_eq_true, if_true]
      refine ⟨cols1, rfl, h2, ?_⟩
      intro c
      rw [h3]
      constructor
      · rintro ⟨hl, hno⟩
        refine ⟨hl, ?_⟩
        rintro ⟨row, hrow, hr⟩
        rcases Nat.lt_succ_iff_lt_or_eq.1 hrow with h | h
        · exact hno ⟨row, h, hr⟩
        · subst h
          rw [hr] at hlen
          exact hlen rfl
      · rintro ⟨hl, hno⟩
        refine ⟨hl, ?_⟩
        rintro ⟨row, hrow, hr⟩
        exact hno ⟨row, Nat.lt_succ_of_lt hrow, hr⟩

/-- Phase 2 after `k` rows: only `rows` has changed, no `num` has, and a row is live
exactly when it was live and, if it is among the first `k`, has exactly one live
column holding a 1. -/
theorem rmProductsWithMultipleSumsLoop_spec (fr : fr_t) (k : Nat) :
    ∃ rows1, rmProductsWithMultipleSumsLoop fr k = { fr with rows := rows1 } ∧
      rows1.map (fun e => e.num) = fr.rows.map (fun e => e.num) ∧
      ∀ r, ((rows1.getD r num_t.zero).live = true ↔
        (rowLive fr r = true ∧ (r < k → (liveTrueCols fr r).length = 1))) := by
  induction k with
  | zero =>
    refine ⟨fr.rows, rfl, rfl, ?_⟩
    intro r
    simp [rowLive]
  | succ k ih =>
    obtain ⟨rows1, h1, h2, h3⟩ := ih
    rw [rmProductsWithMultipleSumsLoop, h1]
    have htc : liveTrueCols { fr with rows := rows1 } k = liveTrueCols fr k :=
      liveTrueCols_congr fr _ rfl rfl rfl k
    simp only [nSums_true_eq_liveTrueCols, htc]
    by_cases hlen : (liveTrueCols fr k).length = 1
    · simp only [hlen, if_true]
      refine ⟨rows1, rfl, h2, ?_⟩
      intro r
      rw [h3]
      constructor
      · rintro ⟨hl, hk⟩
        refine ⟨hl, fun hr => ?_⟩
        rcases Nat.lt_succ_iff_lt_or_eq.1 hr with h | h
        · exact hk h
        · subst h
          exact hlen
      · rintro ⟨hl, hk⟩
        exact ⟨hl, fun hr => hk (Nat.lt_succ_of_lt hr)⟩
    · simp only [hlen, if_false]
      refine ⟨kill rows1 k, rfl, ?_, ?_⟩
      · rw [map_num_kill, h2]
      · intro r
        rw [live_getD_kill]
        simp only [Bool.and_eq_true, decide_eq_true_eq, h3]
        constructor
        · rintro ⟨hne, hl, hk⟩
          refine ⟨hl, fun hr => ?_⟩
          rcases Nat.lt_succ_iff_lt_or_eq.1 hr with h | h
          · exact hk h
          · exact absurd h.symm hne
        · rintro ⟨hl, hk⟩
          refine ⟨?_, hl, fun hr => hk (Nat.lt_succ_of_lt hr)⟩
          intro he
          subst he
          exact hlen (hk (Nat.lt_succ_self k))

/-- Phase 3 after `k` columns: only `cols` has changed, no `num` has, and a column is
live exactly when it was live and, if it is among the first `k`, has exactly one live
row holding a 1. -/
theorem rmSumsWithMultipleProductsLoop_spec (fr : fr_t) (k : Nat) :
    ∃ cols1, rmSumsWithMultipleProductsLoop fr k = { fr with cols := cols1 } ∧
      cols1.map (fun e => e.num) = fr.cols.map (fun e => e.num) ∧
      ∀ c, ((cols1.getD c num_t.zero).live = true ↔
        (colLive fr c = true ∧ (c < k → (liveTrueRows fr c).length = 1))) := by
  induction k with
  | zero =>
    refine ⟨fr.cols, rfl, rfl, ?_⟩
    intro c
    simp [colLive]
  | succ k ih =>
    obtain ⟨cols1, h1, h2, h3⟩ := ih
    rw [rmSumsWithMultipleProductsLoop, h1]
    have htc : liveTrueRows { fr with cols := cols1 } k = liveTrueRows fr k :=
      liveTrueRows_congr fr _ rfl rfl rfl rfl k
    have hlive : colLive { fr with cols := cols1 } k = colLive fr k := by
      have := h3 k
      simp only [Nat.lt_irrefl, false_implies, and_true] at this
      simp only [colLive]
      cases hh : (cols1.getD k num_t.zero).live
      · cases hh2 : colLive fr k
        · exact hh2.symm ▸ rfl
        · rw [hh] at this
          exact absurd (this.2 hh2) (by simp)
      · exact (this.1 hh).symm
    simp only [nLiveProducts_eq, htc, hlive]
    have step : ∀ (keep : Bool) (cols2 : List num_t),
        (∀ c, ((cols2.getD c num_t.zero).live = true ↔
          ((cols1.getD c num_t.zero).live = true ∧ (c = k → keep = true)))) →
        (keep = true ↔ (colLive fr k = true → (liveTrueRows fr k).length = 1)) →
        ∀ c, ((cols2.getD c num_t.zero).live = true ↔
          (colLive fr c = true ∧ (c < k + 1 → (liveTrueRows fr c).length = 1))) := by
      intro keep cols2 hc2 hkeep c
      rw [hc2, h3]
      constructor
      · rintro ⟨⟨hl, hk⟩, he⟩
        refine ⟨hl, fun hr => ?_⟩
        rcases Nat.lt_succ_iff_lt_or_eq.1 hr with h | h
        · exact hk h
        · subst h
          exact hkeep.1 (he rfl) hl
      · rintro ⟨hl, hk⟩
        refine ⟨⟨hl, fun hr => hk (Nat.lt_succ_of_lt hr)⟩, fun he => ?_⟩
        subst he
        exact hkeep.2 (fun _ => hk (Nat.lt_succ_self c))
    by_cases hl : colLive fr k = true
    · by_cases hlen : (liveTrueRows fr k).length = 1
      · simp only [hl, Bool.not_true, Bool.false_eq_true, if_false, hlen, if_true]
        refine ⟨cols1, rfl, h2, step true cols1 (fun c => by simp) (by simp [hlen])⟩
      · simp only [hl, Bool.not_true, Bool.false_eq_true, if_false, hlen]
        refine ⟨kill cols1 k, rfl, by rw [map_num_kill, h2], step false (kill cols1 k) ?_ ?_⟩
        · intro c
          rw [live_getD_kill]
          simp only [Bool.and_eq_true, decide_eq_true_eq]
          constructor
          · rintro ⟨hne, h⟩
            exact ⟨h, fun he => absurd he.symm hne⟩
          · rintro ⟨h, he⟩
            refine ⟨fun hk => ?_, h⟩
            have := he hk.symm
            simp at this
        · simp [hl, hlen]
    · have hl' : colLive fr k = false := by simpa using hl
      simp only [hl', Bool.not_false, if_true]
      refine ⟨cols1, rfl, h2, step true cols1 (fun c => by simp) (by simp [hl'])⟩

theorem trueCols_eq_singleton_iff (fr : fr_t) (row c : Nat) :
    trueCols fr row = [c] ↔
      ((trueCols fr row).length = 1 ∧ c < fr.nCols ∧ cell fr row c = 1) := by
  constructor
  · intro h
    have hm : c ∈ trueCols fr row := by rw [h]; exact List.mem_singleton_self c
    rw [trueCols, List.mem_filter, List.mem_range] at hm
    refine ⟨by rw [h]; rfl, hm.1, ?_⟩
    simpa [countedCol] using hm.2
  · rintro ⟨hlen, hc, hcell⟩
    obtain ⟨c0, _, hs⟩ := length_one_getLast_isSome _ hlen
    have hm : c ∈ trueCols fr row := by
      rw [trueCols, List.mem_filter, List.mem_range]
      exact ⟨hc, by simp [countedCol, hcell]⟩
    rw [hs] at hm ⊢
    rw [List.mem_singleton] at hm
    rw [hm]

/-- C9: Phase 1 on any state. A column is live afterwards exactly when it was live
before and no row, live or not, has exactly one cell equal to 1 over all columns
(column liveness ignored) with that cell in this column. -/
theorem rmSumsWithUniqueProduct_col_live_iff (fr : fr_t) (c : Nat) :
    colLive (rmSumsWithUniqueProduct fr) c = true ↔
      (colLive fr c = true ∧
        ¬ ∃ row, row < fr.nRows ∧ (trueCols fr row).length = 1 ∧
          c < fr.nCols ∧ cell fr row c = 1) := by
  obtain ⟨cols1, h1, _, h3⟩ := rmSumsWithUniqueProductLoop_spec fr fr.nRows
  unfold rmSumsWithUniqueProduct
  rw [h1]
  simp only [colLive, h3]
  constructor
  · rintro ⟨hl, hno⟩
    refine ⟨hl, ?_⟩
    rintro ⟨row, hrow, hr⟩
    exact hno ⟨row, hrow, (trueCols_eq_singleton_iff fr row c).2 hr⟩
  · rintro ⟨hl, hno⟩
    refine ⟨hl, ?_⟩
    rintro ⟨row, hrow, hr⟩
    exact hno ⟨row, hrow, (trueCols_eq_singleton_iff fr row c).1 hr⟩

/-- C10: Phase 2 on any state. A row of the products header is live afterwards
exactly when it was live before and the number of currently live columns holding a 1
in that row is exactly 1; with no such column, or with two or more, it is eliminated.
An entry past `nRows` is not touched. -/
theorem rmProductsWithMultipleSums_row_live_iff (fr : fr_t) (r : Nat) :
    (rowLive (rmProductsWithMultipleSums fr) r = true ↔
      (rowLive fr r = true ∧ (r < fr.nRows → (liveTrueCols fr r).length = 1))) ∧
    (liveTrueCols fr r =
      (List.range fr.nCols).filter
        (fun c => colLive fr c && decide (cell fr r c = 1))) := by
  obtain ⟨rows1, h1, _, h3⟩ := rmProductsWithMultipleSumsLoop_spec fr fr.nRows
  refine ⟨?_, ?_⟩
  · unfold rmProductsWithMultipleSums
    rw [h1]
    simp only [rowLive, h3]
  · unfold liveTrueCols
    congr 1

/-! ## Binary search -/

theorem cmpNums_neg_iff (a b : num_t) : cmpNums a b < 0 ↔ a.num < b.num := by
  unfold cmpNums
  split_ifs <;> simp_all

theorem cmpNums_pos_iff (a b : num_t) : 0 < cmpNums a b ↔ b.num < a.num := by
  unfold cmpNums
  split_ifs with h1 h2
  · simp; omega
  · simp; omega
  · simp; omega

theorem cmpNums_le_iff (a b : num_t) : cmpNums a b ≤ 0 ↔ a.num ≤ b.num := by
  unfold cmpNums
  split_ifs with h1 h2
  · simp; omega
  · simp; omega
  · simp; omega

/-- A match reported by `bsearch` lies in the searched interval and has the key's `num`. -/
theorem bsearchLoop_some (key : num_t) (arr : List num_t) (base : Nat) :
    ∀ (fuel l u i : Nat), bsearchLoop key arr base fuel l u = some i →
      ∃ idx, l ≤ idx ∧ idx < u ∧ i = base + idx ∧
        (arr.getD (base + idx) num_t.zero).num = key.num := by
  intro fuel
  induction fuel with
  | zero => intro l u i h; simp [bsearchLoop] at h
  | succ fuel ih =>
    intro l u i h
    rw [bsearchLoop] at h
    by_cases hlu : l < u
    · simp only [hlu, if_true] at h
      by_cases hc1 : cmpNums key (arr.getD (base + (l + u) / 2) num_t.zero) < 0
      · simp only [hc1, if_true] at h
        obtain ⟨idx, h1, h2, h3, h4⟩ := ih _ _ _ h
        exact ⟨idx, h1, by omega, h3, h4⟩
      · simp only [hc1, if_false] at h
        by_cases hc2 : 0 < cmpNums key (arr.getD (base + (l + u) / 2) num_t.zero)
        · simp only [hc2, if_true] at h
          obtain ⟨idx, h1, h2, h3, h4⟩ := ih _ _ _ h
          exact ⟨idx, by omega, h2, h3, h4⟩
        · simp only [hc2, if_false, Option.some.injEq] at h
          refine ⟨(l + u) / 2, by omega, by omega, h.symm, ?_⟩
          rw [cmpNums_neg_iff] at hc1
          rw [cmpNums_pos_iff] at hc2
          omega
    · simp [hlu] at h

/-- On a sub-array in ascending order `bsearch` finds a match whenever there is one. -/
theorem bsearchLoop_complete (key : num_t) (arr : List num_t) (base n : Nat)
    (hs : ∀ i j, i ≤ j → j < n →
      (arr.getD (base + i) num_t.zero).num ≤ (arr.getD (base + j) num_t.zero).num) :
    ∀ (fuel l u : Nat), u - l ≤ fuel → u ≤ n →
      (∃ idx, l ≤ idx ∧ idx < u ∧ (arr.getD (base + idx) num_t.zero).num = key.num) →
      ∃ i, bsearchLoop key arr base fuel l u = some i := by
  intro fuel
  induction fuel with
  | zero =>
    intro l u hf _ ⟨idx, h1, h2, _⟩
    omega
  | succ fuel ih =>
    intro l u hf hun ⟨idx, h1, h2, h3⟩
    rw [bsearchLoop]
    have hlu : l < u := by omega
    simp only [hlu, if_true]
    by_cases hc1 : cmpNums key (arr.getD (base + (l + u) / 2) num_t.zero) < 0
    · simp only [hc1, if_true]
      apply ih _ _ (by omega) (by omega)
      refine ⟨idx, h1, ?_, h3⟩
      rw [cmpNums_neg_iff] at hc1
      by_contra hcon
      have := hs ((l + u) / 2) idx (by omega) (by omega)
      omega
    · simp only [hc1, if_false]
      by_cases hc2 : 0 < cmpNums key (arr.getD (base + (l + u) / 2) num_t.zero)
      · simp only [hc2, if_true]
        apply ih _ _ (by omega) hun
        refine ⟨idx, ?_, h2, h3⟩
        rw [cmpNums_pos_iff] at hc2
        by_contra hcon
        have := hs idx ((l + u) / 2) (by omega) (by omega)
        omega
      · simp only [hc2, if_false]
        exact ⟨_, rfl⟩

/-- In the sums header built by `init`, `bsearch` finds the sum `s` at column `c`
exactly when `c` is a column and `2 * minInt + c = s`. -/
theorem bsearch_initCols (minInt maxSum s : Int) (live : Bool) (c : Nat) :
    bsearch ⟨s, live⟩ (initCols minInt maxSum) 0 (maxSum - (minInt + minInt) + 1).toNat = some c ↔
      (c < (maxSum - (minInt + minInt) + 1).toNat ∧ minInt + minInt + (c : Int) = s) := by
  have hget : ∀ i, i < (maxSum - (minInt + minInt) + 1).toNat →
      ((initCols minInt maxSum).getD (0 + i) num_t.zero).num = minInt + minInt + (i : Int) := by
    intro i hi
    rw [Nat.zero_add, getD_initCols _ _ _ hi]
  constructor
  · intro h
    obtain ⟨idx, _, h2, h3, h4⟩ := bsearchLoop_some _ _ _ _ _ _ _ h
    rw [Nat.zero_add] at h3
    subst h3
    rw [hget _ h2] at h4
    exact ⟨h2, h4⟩
  · rintro ⟨hc, hs⟩
    have hex := bsearchLoop_complete ⟨s, live⟩ (initCols minInt maxSum) 0
      (maxSum - (minInt + minInt) + 1).toNat
      (by
        intro i j hij hj
        rw [hget i (by omega), hget j hj]
        omega)
      (maxSum - (minInt + minInt) + 1).toNat 0 (maxSum - (minInt + minInt) + 1).toNat
      (by omega) (le_refl _) ⟨c, Nat.zero_le _, hc, by rw [hget c hc]; exact hs⟩
    obtain ⟨i, hi⟩ := hex
    obtain ⟨idx, _, h2, h3, h4⟩ := bsearchLoop_some _ _ _ _ _ _ _ hi
    rw [Nat.zero_add] at h3
    subst h3
    rw [hget _ h2] at h4
    have : i = c := by
      have h5 : (minInt + minInt + (i : Int)) = minInt + minInt + (c : Int) := by
        rw [h4, hs]
      omega
    subst this
    exact hi

/-! ## The relation matrix -/

theorem getD_set_int (l : List Int) (i q : Nat) (v d : Int) :
    (l.set i v).getD q d = if i = q ∧ i < l.length then v else l.getD q d := by
  rw [List.getD_eq_getElem?_getD, List.getElem?_set, List.getD_eq_getElem?_getD]
  by_cases h : i = q
  · subst h
    by_cases hl : i < l.length
    · simp [hl]
    · simp [hl, List.getElem?_eq_none (Nat.le_of_not_lt hl)]
  · simp [h]

theorem mkMatrixInner_succ (fr : fr_t) (row : Nat) (product : Int) (m : List Int) (j : Nat) :
    mkMatrixInner fr row product m (j + 1) =
      match divisorCol fr product j with
      | none => mkMatrixInner fr row product m j
      | some col => (mkMatrixInner fr row product m j).set (row * fr.nCols + col) 1 := by
  rw [mkMatrixInner]
  unfold divisorCol
  by_cases h : product.tmod (2 + (j : Int)) ≠ 0
  · rw [if_pos h, if_pos h]
  · rw [if_neg h, if_neg h]

theorem length_mkMatrixInner (fr : fr_t) (row : Nat) (product : Int) (m : List Int) (j : Nat) :
    (mkMatrixInner fr row product m j).length = m.length := by
  induction j with
  | zero => rfl
  | succ j ih =>
    rw [mkMatrixInner_succ]
    cases divisorCol fr product j with
    | none => exact ih
    | some col => simp [ih]

theorem length_mkMatrixOuter (fr : fr_t) (k : Nat) :
    (mkMatrixOuter fr k).length = fr.matrix.length := by
  induction k with
  | zero => rfl
  | succ k ih => rw [mkMatrixOuter, length_mkMatrixInner, ih]

theorem getD_mkMatrixInner (fr : fr_t) (row : Nat) (product : Int) (m : List Int) (j q : Nat) :
    (mkMatrixInner fr row product m j).getD q 0 = 1 ↔
      (m.getD q 0 = 1 ∨ (q < m.length ∧ ∃ j1, j1 < j ∧ ∃ col,
        divisorCol fr product j1 = some col ∧ q = row * fr.nCols + col)) := by
  induction j with
  | zero => simp [mkMatrixInner]
  | succ j ih =>
    rw [mkMatrixInner_succ]
    cases hd : divisorCol fr product j with
    | none =>
      simp only []
      rw [ih]
      constructor
      · rintro (h | ⟨hq, j1, hj1, col, hc, he⟩)
        · exact Or.inl h
        · exact Or.inr ⟨hq, j1, Nat.lt_succ_of_lt hj1, col, hc, he⟩
      · rintro (h | ⟨hq, j1, hj1, col, hc, he⟩)
        · exact Or.inl h
        · rcases Nat.lt_succ_iff_lt_or_eq.1 hj1 with h | h
          · exact Or.inr ⟨hq, j1, h, col, hc, he⟩
          · subst h
            rw [hd] at hc
            exact absurd hc (by simp)
    | some col0 =>
      simp only []
      rw [getD_set_int, length_mkMatrixInner]
      by_cases hq : row * fr.nCols + col0 = q ∧ row * fr.nCols + col0 < m.length
      · rw [if_pos hq]
        simp only [true_iff]
        exact Or.inr ⟨hq.1 ▸ hq.2, j, Nat.lt_succ_self j, col0, hd, hq.1.symm⟩
      · rw [if_neg hq, ih]
        constructor
        · rintro (h | ⟨hq1, j1, hj1, col, hc, he⟩)
          · exact Or.inl h
          · exact Or.inr ⟨hq1, j1, Nat.lt_succ_of_lt hj1, col, hc, he⟩
        · rintro (h | ⟨hq1, j1, hj1, col, hc, he⟩)
          · exact Or.inl h
          · rcases Nat.lt_succ_iff_lt_or_eq.1 hj1 with h | h
            · exact Or.inr ⟨hq1, j1, h, col, hc, he⟩
            · subst h
              rw [hd] at hc
              have hcc : col0 = col := by simpa using hc
              subst hcc
              exact absurd ⟨he.symm, he ▸ hq1⟩ hq

theorem isqrtLoop_spec (n : Nat) : ∀ (fuel a : Nat), a * a ≤ n → n ≤ a + fuel →
    isqrtLoop n fuel a * isqrtLoop n fuel a ≤ n ∧
      n < (isqrtLoop n fuel a + 1) * (isqrtLoop n fuel a + 1) := by
  intro fuel
  induction fuel with
  | zero =>
    intro a h1 h2
    simp only [isqrtLoop]
    refine ⟨h1, ?_⟩
    nlinarith
  | succ fuel ih =>
    intro a h1 h2
    rw [isqrtLoop]
    by_cases h : (a + 1) * (a + 1) ≤ n
    · rw [if_pos h]
      exact ih (a + 1) h (by omega)
    · rw [if_neg h]
      exact ⟨h1, by omega⟩

theorem isqrt_eq_sqrt (n : Nat) : isqrt n = Nat.sqrt n := by
  rw [Nat.eq_sqrt]
  exact isqrtLoop_spec n n 0 (by simp) (by simp)

theorem sqroot_eq_sqrt (p : Int) : sqroot p = Int.sqrt p := by
  simp [sqroot, Int.sqrt, isqrt_eq_sqrt]

theorem getD_mkMatrixOuter (fr : fr_t) (k q : Nat) :
    (mkMatrixOuter fr k).getD q 0 = 1 ↔
      (fr.matrix.getD q 0 = 1 ∨ (q < fr.matrix.length ∧ ∃ r, r < k ∧ ∃ j1,
        j1 < (Int.sqrt (fr.rows.getD r num_t.zero).num - 1).toNat ∧ ∃ col,
        divisorCol fr (fr.rows.getD r num_t.zero).num j1 = some col ∧
          q = r * fr.nCols + col)) := by
  induction k with
  | zero => simp [mkMatrixOuter]
  | succ k ih =>
    rw [mkMatrixOuter, getD_mkMatrixInner, ih, length_mkMatrixOuter, sqroot_eq_sqrt]
    constructor
    · rintro ((h | ⟨hq, r, hr, rest⟩) | ⟨hq, rest⟩)
      · exact Or.inl h
      · exact Or.inr ⟨hq, r, Nat.lt_succ_of_lt hr, rest⟩
      · exact Or.inr ⟨hq, k, Nat.lt_succ_self k, rest⟩
    · rintro (h | ⟨hq, r, hr, rest⟩)
      · exact Or.inl (Or.inl h)
      · rcases Nat.lt_succ_iff_lt_or_eq.1 hr with h | h
        · exact Or.inl (Or.inr ⟨hq, r, h, rest⟩)
        · subst h
          exact Or.inr ⟨hq, rest⟩

theorem divisorCol_lt (fr : fr_t) (product : Int) (j col : Nat)
    (h : divisorCol fr product j = some col) : col < fr.nCols := by
  unfold divisorCol at h
  by_cases hd : product.tmod (2 + (j : Int)) ≠ 0
  · simp [hd] at h
  · simp only [hd, if_false] at h
    obtain ⟨idx, _, h2, h3, _⟩ := bsearchLoop_some _ _ _ _ _ _ _ h
    omega

theorem index_inj (n r c r1 c1 : Nat) (hc : c < n) (hc1 : c1 < n)
    (h : r * n + c = r1 * n + c1) : r = r1 ∧ c = c1 := by
  have h1 : (r * n + c) / n = r := by
    rw [Nat.mul_comm, Nat.mul_add_div (by omega), Nat.div_eq_of_lt hc, Nat.add_zero]
  have h2 : (r1 * n + c1) / n = r1 := by
    rw [Nat.mul_comm, Nat.mul_add_div (by omega), Nat.div_eq_of_lt hc1, Nat.add_zero]
  have hr : r = r1 := by rw [← h1, ← h2, h]
  subst hr
  exact ⟨rfl, by omega⟩

/-- The cells that `mkMatrix` sets in a zeroed matrix of `nRows * nCols` cells: cell
`(r, c)` is 1 exactly when some iteration of the inner loop for row `r` looks up
column `c`. -/
theorem cell_mkMatrix (fr : fr_t) (hz : ∀ q, fr.matrix.getD q 0 ≠ 1)
    (hlen : fr.matrix.length = fr.nCols * fr.nRows) (r c : Nat) (hr : r < fr.nRows)
    (hc : c < fr.nCols) :
    cell (mkMatrix fr) r c = 1 ↔
      ∃ j1, j1 < (Int.sqrt (fr.rows.getD r num_t.zero).num - 1).toNat ∧
        divisorCol fr (fr.rows.getD r num_t.zero).num j1 = some c := by
  unfold cell mkMatrix
  simp only []
  rw [getD_mkMatrixOuter]
  constructor
  · rintro (h | ⟨_, r1, _, j1, hj1, col, hd, he⟩)
    · exact absurd h (hz _)
    · obtain ⟨h1, h2⟩ := index_inj fr.nCols r c r1 col hc (divisorCol_lt _ _ _ _ hd) he
      subst h1
      subst h2
      exact ⟨j1, hj1, hd⟩
  · rintro ⟨j1, hj1, hd⟩
    refine Or.inr ⟨?_, r, hr, j1, hj1, c, hd, rfl⟩
    rw [hlen]
    calc r * fr.nCols + c < r * fr.nCols + fr.nCols := by omega
      _ = fr.nCols * (r + 1) := by ring
      _ ≤ fr.nCols * fr.nRows := Nat.mul_le_mul_left _ hr

theorem mkProducts_matrix (fr : fr_t) (b : Bool) : (mkProducts fr b).1.matrix = fr.matrix := rfl

/-- The shape of the state that `init` returns: `mkMatrix` applied to a state whose
matrix is zeroed and has `nCols * nRows` cells, with the sums header of `initCols`. -/
theorem init_some_form (minInt maxSum : Int) (heap : Nat → num_t) (fr : fr_t)
    (h : init minInt maxSum heap = some fr) :
    ∃ fr5 : fr_t, fr = mkMatrix fr5 ∧
      fr5.matrix = List.replicate (fr5.nCols * fr5.nRows) 0 ∧
      fr5.cols = initCols minInt maxSum ∧
      fr5.nCols = (maxSum - (minInt + minInt) + 1).toNat ∧
      fr5.minInt = minInt ∧ 0 < minInt ∧ wrapInt (minInt + minInt) < maxSum := by
  unfold init at h
  by_cases h1 : minInt ≤ 0
  · simp [h1] at h
  · by_cases h2 : maxSum ≤ wrapInt (minInt + minInt)
    · simp [h1, h2] at h
    · simp only [h1, h2, if_false, Option.some.injEq] at h
      refine ⟨_, h.symm, rfl, ?_, rfl, rfl, by omega, by omega⟩
      simp only [rmDupProducts_cols, mkProducts_cols]
      exact mkSums_cols_replicate _ _ _ _ _ _ _ _ rfl

theorem getD_replicate_zero_ne_one (n q : Nat) : (List.replicate n (0 : Int)).getD q 0 ≠ 1 := by
  rw [List.getD_eq_getElem?_getD]
  by_cases h : q < n
  · simp [List.getElem?_replicate, h]
  · simp [List.getElem?_replicate, h]

theorem int_sqrt_pos_imp (p : Int) (h : 1 ≤ Int.sqrt p) : 0 < p := by
  by_contra hp
  have h0 : p.toNat = 0 := by omega
  simp [Int.sqrt, h0] at h

theorem tmod_tdiv_of_pos (p a : Int) (hp : 0 < p) (ha : 0 < a) :
    (p.tmod a = 0 ↔ a ∣ p) ∧ p.tdiv a = p / a := by
  rw [Int.tmod_eq_emod (le_of_lt hp) (le_of_lt ha), Int.tdiv_eq_ediv (le_of_lt hp) (le_of_lt ha)]
  exact ⟨⟨Int.dvd_of_emod_eq_zero, Int.emod_eq_zero_of_dvd⟩, rfl⟩

/-- The inner loop of `mkMatrix` on the state prepared by `init` looks up column `c`
for `a = 2 + j` exactly when `a` divides the product and `a + product / a` is the
value of column `c`. -/
theorem divisorCol_init (fr5 : fr_t) (minInt maxSum : Int)
    (hcols : fr5.cols = initCols minInt maxSum)
    (hn : fr5.nCols = (maxSum - (minInt + minInt) + 1).toNat) (p : Int) (j c : Nat) :
    divisorCol fr5 p j = some c ↔
      (p.tmod (2 + (j : Int)) = 0 ∧ c < fr5.nCols ∧
        (fr5.cols.getD c num_t.zero).num = 2 + (j : Int) + p.tdiv (2 + (j : Int))) := by
  unfold divisorCol
  by_cases hd : p.tmod (2 + (j : Int)) ≠ 0
  · simp [hd]
  · have hd' : p.tmod (2 + (j : Int)) = 0 := not_not.1 hd
    rw [if_neg hd, hcols, hn, bsearch_initCols]
    constructor
    · rintro ⟨h1, h2⟩
      refine ⟨hd', h1, ?_⟩
      rw [getD_initCols _ _ _ h1]
      exact h2
    · rintro ⟨_, h1, h2⟩
      refine ⟨h1, ?_⟩
      rw [getD_initCols _ _ _ h1] at h2
      exact h2

/-- The relation matrix of a state returned by `init`: cell `(r, c)` is 1 exactly when
the product of row `r` has a divisor `a` with `2 <= a <= floor(sqrt(product))` whose
pair `a, product / a` sums to the value of column `c`. -/
theorem cell_init_iff (minInt maxSum : Int) (heap : Nat → num_t) (fr : fr_t)
    (h : init minInt maxSum heap = some fr) (r c : Nat) (hr : r < fr.nRows)
    (hc : c < fr.nCols) :
    cell fr r c = 1 ↔
      ∃ a : Int, 2 ≤ a ∧ a ≤ Int.sqrt (fr.rows.getD r num_t.zero).num ∧
        a ∣ (fr.rows.getD r num_t.zero).num ∧
        a + (fr.rows.getD r num_t.zero).num / a = (fr.cols.getD c num_t.zero).num := by
  obtain ⟨fr5, hfr, hm, hcols, hn, _, _, _⟩ := init_some_form _ _ _ _ h
  subst hfr
  simp only [mkMatrix_nRows, mkMatrix_nCols] at hr hc
  rw [cell_mkMatrix fr5 (by rw [hm]; exact getD_replicate_zero_ne_one _) (by simp [hm]) r c hr hc]
  simp only [mkMatrix_rows, mkMatrix_cols]
  constructor
  · rintro ⟨j, hj, hd⟩
    rw [divisorCol_init fr5 minInt maxSum hcols hn] at hd
    obtain ⟨h1, _, h3⟩ := hd
    have hp : 0 < (fr5.rows.getD r num_t.zero).num := int_sqrt_pos_imp _ (by omega)
    obtain ⟨hdv, hdiv⟩ := tmod_tdiv_of_pos _ (2 + (j : Int)) hp (by omega)
    refine ⟨2 + (j : Int), by omega, by omega, hdv.1 h1, ?_⟩
    rw [h3, hdiv]
  · rintro ⟨a, ha2, hasq, hdv, hsum⟩
    have hp : 0 < (fr5.rows.getD r num_t.zero).num := int_sqrt_pos_imp _ (by omega)
    have haj : a = 2 + ((a - 2).toNat : Int) := by omega
    obtain ⟨hdv', hdiv⟩ := tmod_tdiv_of_pos _ (2 + ((a - 2).toNat : Int)) hp (by omega)
    refine ⟨(a - 2).toNat, by omega, ?_⟩
    rw [divisorCol_init fr5 minInt maxSum hcols hn]
    rw [← haj] at hdv' hdiv ⊢
    exact ⟨hdv'.2 hdv, hc, by rw [← hsum, hdiv]⟩

theorem int_le_sqrt_iff (a p : Int) (ha : 1 ≤ a) : a ≤ Int.sqrt p ↔ a * a ≤ p := by
  by_cases hp : 0 ≤ p
  · obtain ⟨n, rfl⟩ := Int.eq_ofNat_of_zero_le hp
    obtain ⟨k, rfl⟩ := Int.eq_ofNat_of_zero_le (by omega : 0 ≤ a)
    simp only [Int.sqrt, Int.toNat_ofNat]
    rw [Int.ofNat_le, Nat.le_sqrt]
    exact_mod_cast Iff.rfl
  · have h0 : p.toNat = 0 := by omega
    have h1 : 0 < a * a := by positivity
    simp only [Int.sqrt, h0, Nat.sqrt_zero]
    constructor
    · intro h
      exact absurd h (by simp; omega)
    · intro h
      omega

/-- The divisor description of a cell, restated with both factors. -/
theorem divisor_pair_iff (p s : Int) :
    (∃ a : Int, 2 ≤ a ∧ a ≤ Int.sqrt p ∧ a ∣ p ∧ a + p / a = s) ↔
      ∃ a b : Int, 2 ≤ a ∧ a ≤ b ∧ a * b = p ∧ a + b = s := by
  constructor
  · rintro ⟨a, ha, hsq, hdv, hs⟩
    have hmul : a * (p / a) = p := Int.mul_ediv_cancel' hdv
    have haa : a * a ≤ p := (int_le_sqrt_iff a p (by omega)).1 hsq
    refine ⟨a, p / a, ha, ?_, hmul, hs⟩
    by_contra hcon
    have hlt : p / a < a := by omega
    have : a * (p / a) < a * a := Int.mul_lt_mul_of_pos_left hlt (by omega)
    omega
  · rintro ⟨a, b, ha, hab, hmul, hs⟩
    have hdiv : p / a = b := by
      rw [← hmul]
      exact Int.mul_ediv_cancel_left b (by omega)
    refine ⟨a, ha, ?_, ⟨b, hmul.symm⟩, by rw [hdiv]; exact hs⟩
    rw [int_le_sqrt_iff a p (by omega), ← hmul]
    exact Int.mul_le_mul_of_nonneg_left hab (by omega)

/-- Two headers with the same `num` values and the same `live` flags are equal. -/
theorem eq_of_num_eq_of_live_eq (l1 l2 : List num_t)
    (hn : l1.map (fun e => e.num) = l2.map (fun e => e.num))
    (hl : ∀ i, (l1.getD i num_t.zero).live = (l2.getD i num_t.zero).live) : l1 = l2 := by
  have hlen : l1.length = l2.length := by
    have := congrArg List.length hn
    simpa using this
  apply List.ext_getElem hlen
  intro i h1 h2
  have hnum : (l1[i]).num = (l2[i]).num := by
    have := congrArg (fun l => l[i]?) hn
    simpa [List.getElem?_map, List.getElem?_eq_getElem h1, List.getElem?_eq_getElem h2] using this
  have hlive : (l1[i]).live = (l2[i]).live := by
    have := hl i
    simpa [List.getD_eq_getElem?_getD, List.getElem?_eq_getElem h1,
      List.getElem?_eq_getElem h2] using this
  cases h3 : l1[i] with
  | mk n1 v1 =>
    cases h4 : l2[i] with
    | mk n2 v2 =>
      rw [h3, h4] at hnum hlive
      simp only at hnum hlive
      rw [hnum, hlive]

theorem rmSumsWithMultipleProductsLoop_succ (fr : fr_t) (col : Nat) :
    rmSumsWithMultipleProductsLoop fr (col + 1) =
      rmSumsWithMultipleProductsStep (rmSumsWithMultipleProductsLoop fr col) col := rfl

/-- Phase 3 with the columns visited in any order, repetitions allowed: only `cols`
changes, no `num` does, and a column is live exactly when it was live and, if it was
visited, has exactly one live row holding a 1. -/
theorem rmSumsWithMultipleProductsIn_spec (fr : fr_t) (order : List Nat) :
    ∃ cols1, rmSumsWithMultipleProductsIn fr order = { fr with cols := cols1 } ∧
      cols1.map (fun e => e.num) = fr.cols.map (fun e => e.num) ∧
      ∀ c, ((cols1.getD c num_t.zero).live = true ↔
        (colLive fr c = true ∧ (c ∈ order → (liveTrueRows fr c).length = 1))) := by
  induction order using List.reverseRecOn with
  | nil =>
    refine ⟨fr.cols, rfl, rfl, ?_⟩
    intro c
    simp [colLive]
  | append_singleton order k ih =>
    obtain ⟨cols1, h1, h2, h3⟩ := ih
    unfold rmSumsWithMultipleProductsIn at h1 ⊢
    rw [List.foldl_append, h1]
    simp only [List.foldl_cons, List.foldl_nil]
    unfold rmSumsWithMultipleProductsStep
    have htc : liveTrueRows { fr with cols := cols1 } k = liveTrueRows fr k :=
      liveTrueRows_congr fr _ rfl rfl rfl rfl k
    simp only [nLiveProducts_eq, htc]
    have hlive : colLive { fr with cols := cols1 } k = (cols1.getD k num_t.zero).live := rfl
    by_cases hl : (cols1.getD k num_t.zero).live = true
    · by_cases hlen : (liveTrueRows fr k).length = 1
      · simp only [hlive, hl, Bool.not_true, Bool.false_eq_true, if_false, hlen, if_true]
        refine ⟨cols1, rfl, h2, ?_⟩
        intro c
        rw [h3]
        constructor
        · rintro ⟨h, hk⟩
          refine ⟨h, fun hm => ?_⟩
          rcases List.mem_append.1 hm with hm | hm
          · exact hk hm
          · rw [List.mem_singleton] at hm
            subst hm
            exact hlen
        · rintro ⟨h, hk⟩
          exact ⟨h, fun hm => hk (List.mem_append_left _ hm)⟩
      · simp only [hlive, hl, Bool.not_true, Bool.false_eq_true, if_false, hlen]
        refine ⟨kill cols1 k, rfl, by rw [map_num_kill, h2], ?_⟩
        intro c
        rw [live_getD_kill]
        simp only [Bool.and_eq_true, decide_eq_true_eq, h3]
        constructor
        · rintro ⟨hne, h, hk⟩
          refine ⟨h, fun hm => ?_⟩
          rcases List.mem_append.1 hm with hm | hm
          · exact hk hm
          · rw [List.mem_singleton] at hm
            exact absurd hm.symm hne
        · rintro ⟨h, hk⟩
          refine ⟨?_, h, fun hm => hk (List.mem_append_left _ hm)⟩
          intro he
          subst he
          exact hlen (hk (List.mem_append_right _ (List.mem_singleton_self k)))
    · have hl' : (cols1.getD k num_t.zero).live = false := by simpa using hl
      simp only [hlive, hl', Bool.not_false, if_true]
      refine ⟨cols1, rfl, h2, ?_⟩
      intro c
      rw [h3]
      constructor
      · rintro ⟨h, hk⟩
        refine ⟨h, fun hm => ?_⟩
        rcases List.mem_append.1 hm with hm | hm
        · exact hk hm
        · rw [List.mem_singleton] at hm
          subst hm
          have := (h3 c).2 ⟨h, hk⟩
          rw [hl'] at this
          exact absurd this (by simp)
      · rintro ⟨h, hk⟩
        exact ⟨h, fun hm => hk (List.mem_append_left _ hm)⟩

/-- The state after Phase 1 is the input state with a new sums header. -/
theorem rmSumsWithUniqueProduct_spec (fr : fr_t) :
    ∃ cols1, rmSumsWithUniqueProduct fr = { fr with cols := cols1 } ∧
      cols1.map (fun e => e.num) = fr.cols.map (fun e => e.num) ∧
      ∀ c, ((cols1.getD c num_t.zero).live = true ↔
        (colLive fr c = true ∧ ¬ ∃ row, row < fr.nRows ∧ trueCols fr row = [c])) :=
  rmSumsWithUniqueProductLoop_spec fr fr.nRows

/-- The state after Phase 2 is the input state with a new products header. -/
theorem rmProductsWithMultipleSums_spec (fr : fr_t) :
    ∃ rows1, rmProductsWithMultipleSums fr = { fr with rows := rows1 } ∧
      rows1.map (fun e => e.num) = fr.rows.map (fun e => e.num) ∧
      ∀ r, ((rows1.getD r num_t.zero).live = true ↔
        (rowLive fr r = true ∧ (r < fr.nRows → (liveTrueCols fr r).length = 1))) :=
  rmProductsWithMultipleSumsLoop_spec fr fr.nRows

/-- The state after Phase 3 is the input state with a new sums header. -/
theorem rmSumsWithMultipleProducts_spec (fr : fr_t) :
    ∃ cols1, rmSumsWithMultipleProducts fr = { fr with cols := cols1 } ∧
      cols1.map (fun e => e.num) = fr.cols.map (fun e => e.num) ∧
      ∀ c, ((cols1.getD c num_t.zero).live = true ↔
        (colLive fr c = true ∧ (c < fr.nCols → (liveTrueRows fr c).length = 1))) :=
  rmSumsWithMultipleProductsLoop_spec fr fr.nCols

/-- C11: Phase 3 on any state. A column is live afterwards exactly when it was live
before and the number of currently live rows holding a 1 in it is exactly 1 (an entry
past `nCols` is not touched); and visiting the columns in any other order, given as a
permutation of `0, ..., nCols - 1`, leaves the same state. -/
theorem rmSumsWithMultipleProducts_col_live_iff (fr : fr_t) (c : Nat) :
    (colLive (rmSumsWithMultipleProducts fr) c = true ↔
      (colLive fr c = true ∧ (c < fr.nCols → (liveTrueRows fr c).length = 1))) ∧
    (liveTrueRows fr c =
      (List.range fr.nRows).filter (fun row => rowLive fr row && decide (cell fr row c = 1))) ∧
    (∀ order : List Nat, order.Perm (List.range fr.nCols) →
      rmSumsWithMultipleProductsIn fr order = rmSumsWithMultipleProducts fr) := by
  obtain ⟨cols1, h1, h2, h3⟩ := rmSumsWithMultipleProducts_spec fr
  refine ⟨?_, rfl, ?_⟩
  · rw [h1]
    simp only [colLive, h3]
  · intro order hp
    obtain ⟨cols2, g1, g2, g3⟩ := rmSumsWithMultipleProductsIn_spec fr order
    rw [g1, h1]
    have : cols2 = cols1 := by
      apply eq_of_num_eq_of_live_eq
      · rw [g2, h2]
      · intro i
        have hm : i ∈ order ↔ i < fr.nCols := by
          rw [hp.mem_iff, List.mem_range]
        have e1 := g3 i
        have e2 := h3 i
        rw [hm] at e1
        cases hh : (cols2.getD i num_t.zero).live
        · cases hh2 : (cols1.getD i num_t.zero).live
          · rfl
          · rw [hh] at e1
            exact absurd (e1.2 (e2.1 hh2)) (by simp)
        · exact (e2.2 (e1.1 hh)).symm
    rw [this]

/-- C12: liveness is monotone. After each of the three phases, and after the three in
sequence, every column flag and every row flag that is set was set before: no entry
returns from eliminated to live. -/
theorem liveness_monotone (fr : fr_t) (i : Nat) :
    (colLive (rmSumsWithUniqueProduct fr) i = true → colLive fr i = true) ∧
    (rowLive (rmSumsWithUniqueProduct fr) i = true → rowLive fr i = true) ∧
    (colLive (rmProductsWithMultipleSums fr) i = true → colLive fr i = true) ∧
    (rowLive (rmProductsWithMultipleSums fr) i = true → rowLive fr i = true) ∧
    (colLive (rmSumsWithMultipleProducts fr) i = true → colLive fr i = true) ∧
    (rowLive (rmSumsWithMultipleProducts fr) i = true → rowLive fr i = true) ∧
    (colLive (eliminate fr) i = true → colLive fr i = true) ∧
    (rowLive (eliminate fr) i = true → rowLive fr i = true) := by
  have p1 : ∀ f : fr_t, (colLive (rmSumsWithUniqueProduct f) i = true → colLive f i = true) ∧
      (rowLive (rmSumsWithUniqueProduct f) i = true → rowLive f i = true) := by
    intro f
    obtain ⟨cols1, h1, _, h3⟩ := rmSumsWithUniqueProduct_spec f
    rw [h1]
    exact ⟨fun h => ((h3 i).1 h).1, fun h => h⟩
  have p2 : ∀ f : fr_t, (colLive (rmProductsWithMultipleSums f) i = true → colLive f i = true) ∧
      (rowLive (rmProductsWithMultipleSums f) i = true → rowLive f i = true) := by
    intro f
    obtain ⟨rows1, h1, _, h3⟩ := rmProductsWithMultipleSums_spec f
    rw [h1]
    exact ⟨fun h => h, fun h => ((h3 i).1 h).1⟩
  have p3 : ∀ f : fr_t, (colLive (rmSumsWithMultipleProducts f) i = true → colLive f i = true) ∧
      (rowLive (rmSumsWithMultipleProducts f) i = true → rowLive f i = true) := by
    intro f
    obtain ⟨cols1, h1, _, h3⟩ := rmSumsWithMultipleProducts_spec f
    rw [h1]
    exact ⟨fun h => ((h3 i).1 h).1, fun h => h⟩
  refine ⟨(p1 fr).1, (p1 fr).2, (p2 fr).1, (p2 fr).2, (p3 fr).1, (p3 fr).2, ?_, ?_⟩
  · intro h
    exact (p1 fr).1 ((p2 _).1 ((p3 _).1 h))
  · intro h
    exact (p1 fr).2 ((p2 _).2 ((p3 _).2 h))

/-- C13: Phase 3 is idempotent. Applying `rmSumsWithMultipleProducts` to its own output
gives that output again, so no row or column liveness flag changes. -/
theorem rmSumsWithMultipleProducts_idempotent (fr : fr_t) :
    rmSumsWithMultipleProducts (rmSumsWithMultipleProducts fr) =
      rmSumsWithMultipleProducts fr ∧
    (∀ i, colLive (rmSumsWithMultipleProducts (rmSumsWithMultipleProducts fr)) i =
      colLive (rmSumsWithMultipleProducts fr) i) ∧
    (∀ i, rowLive (rmSumsWithMultipleProducts (rmSumsWithMultipleProducts fr)) i =
      rowLive (rmSumsWithMultipleProducts fr) i) := by
  have key : rmSumsWithMultipleProducts (rmSumsWithMultipleProducts fr) =
      rmSumsWithMultipleProducts fr := by
    obtain ⟨cols1, h1, h2, h3⟩ := rmSumsWithMultipleProducts_spec fr
    obtain ⟨cols2, g1, g2, g3⟩ := rmSumsWithMultipleProducts_spec (rmSumsWithMultipleProducts fr)
    rw [g1, h1]
    rw [h1] at g2 g3
    simp only at g2 g3 ⊢
    have : cols2 = cols1 := by
      apply eq_of_num_eq_of_live_eq _ _ g2
      intro i
      have e := g3 i
      have htc : liveTrueRows { fr with cols := cols1 } i = liveTrueRows fr i :=
        liveTrueRows_congr fr _ rfl rfl rfl rfl i
      rw [htc] at e
      simp only [colLive] at e
      cases hh : (cols2.getD i num_t.zero).live
      · cases hh2 : (cols1.getD i num_t.zero).live
        · rfl
        · rw [hh] at e
          exact absurd (e.2 ⟨hh2, ((h3 i).1 hh2).2⟩) (by simp)
      · exact (e.1 hh).1.symm
    rw [this]
  exact ⟨key, fun i => by rw [key], fun i => by rw [key]⟩

/-- C14: frame. Each of the three phases leaves every matrix cell, every sum value,
every product value, `nRows`, `nCols` and the bounds unchanged; moreover Phases 1 and 3
leave the products header, with its flags, unchanged, and Phase 2 leaves the sums
header, with its flags, unchanged. -/
theorem phases_frame (fr : fr_t) :
    (sameValues (rmSumsWithUniqueProduct fr) fr ∧ (rmSumsWithUniqueProduct fr).rows = fr.rows) ∧
    (sameValues (rmProductsWithMultipleSums fr) fr ∧
      (rmProductsWithMultipleSums fr).cols = fr.cols) ∧
    (sameValues (rmSumsWithMultipleProducts fr) fr ∧
      (rmSumsWithMultipleProducts fr).rows = fr.rows) ∧
    (∀ row col, cell (rmSumsWithUniqueProduct fr) row col = cell fr row col ∧
      cell (rmProductsWithMultipleSums fr) row col = cell fr row col ∧
      cell (rmSumsWithMultipleProducts fr) row col = cell fr row col) := by
  obtain ⟨c1, h1, h2, _⟩ := rmSumsWithUniqueProduct_spec fr
  obtain ⟨r2, g1, g2, _⟩ := rmProductsWithMultipleSums_spec fr
  obtain ⟨c3, k1, k2, _⟩ := rmSumsWithMultipleProducts_spec fr
  refine ⟨?_, ?_, ?_, ?_⟩
  · rw [h1]
    exact ⟨⟨rfl, rfl, rfl, rfl, rfl, rfl, rfl, h2, rfl⟩, rfl⟩
  · rw [g1]
    exact ⟨⟨rfl, rfl, rfl, rfl, rfl, rfl, rfl, rfl, g2⟩, rfl⟩
  · rw [k1]
    exact ⟨⟨rfl, rfl, rfl, rfl, rfl, rfl, rfl, k2, rfl⟩, rfl⟩
  · intro row col
    rw [h1, g1, k1]
    exact ⟨rfl, rfl, rfl⟩

/-! ## Answer extraction -/

theorem printAnswersLoop_eq (fr : fr_t) (k : Nat) :
    printAnswersLoop fr k =
      ((List.range k).filter (isAnswerRow fr)).map
        (fun row => answerLine fr row ((liveTrueCols fr row).headD 0)) := by
  induction k with
  | zero => rfl
  | succ k ih =>
    rw [printAnswersLoop, ih, List.range_succ, List.filter_append, List.map_append]
    simp only [nSums_true_eq_liveTrueCols]
    by_cases hl : rowLive fr k = true
    · by_cases hlen : (liveTrueCols fr k).length = 1
      · obtain ⟨c0, hlast, hsingle⟩ := length_one_getLast_isSome _ hlen
        have ha : isAnswerRow fr k = true := by simp [isAnswerRow, hl, hlen]
        simp only [hl, Bool.not_true, Bool.false_eq_true, if_false, hlen, ne_eq,
          not_true_eq_false, hlast]
        rw [List.filter_cons_of_pos ha]
        simp [answerLine, hsingle]
      · have ha : isAnswerRow fr k = false := by simp [isAnswerRow, hlen]
        simp only [hl, Bool.not_true, Bool.false_eq_true, if_false, hlen, ne_eq,
          not_false_eq_true, if_true]
        rw [List.filter_cons_of_neg (by simp [ha])]
        simp
    · have hl' : rowLive fr k = false := by simpa using hl
      have ha : isAnswerRow fr k = false := by simp [isAnswerRow, hl']
      simp only [hl', Bool.not_false, if_true]
      rw [List.filter_cons_of_neg (by simp [ha])]
      simp

theorem printAnswers_eq (fr : fr_t) :
    printAnswers fr = (answerCells fr).map (fun rc => answerLine fr rc.1 rc.2) := by
  unfold printAnswers answerCells
  rw [printAnswersLoop_eq, List.map_map]
  rfl

theorem mem_answerCells (fr : fr_t) (r c : Nat) :
    (r, c) ∈ answerCells fr ↔
      (r < fr.nRows ∧ rowLive fr r = true ∧ liveTrueCols fr r = [c]) := by
  unfold answerCells
  rw [List.mem_map]
  constructor
  · rintro ⟨row, hrow, he⟩
    rw [List.mem_filter, List.mem_range] at hrow
    obtain ⟨h1, h2⟩ := hrow
    simp only [isAnswerRow, Bool.and_eq_true, decide_eq_true_eq] at h2
    obtain ⟨c0, _, hs⟩ := length_one_getLast_isSome _ h2.2
    simp only [Prod.mk.injEq] at he
    obtain ⟨e1, e2⟩ := he
    subst e1
    rw [hs] at e2 ⊢
    simp only [List.headD_cons] at e2
    subst e2
    exact ⟨h1, h2.1, rfl⟩
  · rintro ⟨h1, h2, h3⟩
    refine ⟨r, ?_, ?_⟩
    · rw [List.mem_filter, List.mem_range]
      exact ⟨h1, by simp [isAnswerRow, h2, h3]⟩
    · simp [h3]

/-- C15: answer extraction on any state. `printAnswers` prints, in ascending row order,
exactly one line for each row below `nRows` that is live and has exactly one live
column holding a 1, and none for any other row; the product of the line is the value
of the row, its sum is the value of that single column, and `x`, `y` come from
`getXY`. -/
theorem printAnswers_lines (fr : fr_t) :
    printAnswers fr =
      ((List.range fr.nRows).filter
          (fun row => rowLive fr row && decide ((liveTrueCols fr row).length = 1))).map
        (fun row => answerLine fr row ((liveTrueCols fr row).headD 0)) ∧
    (∀ row, (rowLive fr row = true ∧ (liveTrueCols fr row).length = 1) →
      liveTrueCols fr row = [(liveTrueCols fr row).headD 0]) ∧
    (∀ row col, answerLine fr row col =
      ((fr.rows.getD row num_t.zero).num, (fr.cols.getD col num_t.zero).num,
        (getXY fr (fr.rows.getD row num_t.zero).num (fr.cols.getD col num_t.zero).num).1,
        (getXY fr (fr.rows.getD row num_t.zero).num (fr.cols.getD col num_t.zero).num).2)) := by
  refine ⟨printAnswersLoop_eq fr fr.nRows, ?_, fun _ _ => rfl⟩
  rintro row ⟨_, hlen⟩
  obtain ⟨c0, _, hs⟩ := length_one_getLast_isSome _ hlen
  rw [hs]
  rfl

theorem mem_liveTrueCols (fr : fr_t) (r c : Nat) :
    c ∈ liveTrueCols fr r ↔ (c < fr.nCols ∧ colLive fr c = true ∧ cell fr r c = 1) := by
  unfold liveTrueCols
  rw [List.mem_filter, List.mem_range]
  simp [countedCol]

theorem mem_liveTrueRows (fr : fr_t) (r c : Nat) :
    r ∈ liveTrueRows fr c ↔ (r < fr.nRows ∧ rowLive fr r = true ∧ cell fr r c = 1) := by
  unfold liveTrueRows
  rw [List.mem_filter, List.mem_range]
  simp

theorem nodup_liveTrueCols (fr : fr_t) (r : Nat) : (liveTrueCols fr r).Nodup :=
  (List.nodup_range _).filter _

theorem eq_singleton_of_nodup_of_mem {l : List Nat} (hn : l.Nodup) (c : Nat) (hc : c ∈ l)
    (hall : ∀ x ∈ l, x = c) : l = [c] := by
  match l, hn, hc, hall with
  | [x], _, hc, _ =>
    rw [List.mem_singleton] at hc
    rw [hc]
  | x :: y :: r, hn, _, hall =>
    have hx : x = c := hall x (List.mem_cons_self _ _)
    have hy : y = c := hall y (List.mem_cons_of_mem _ (List.mem_cons_self _ _))
    rw [List.nodup_cons] at hn
    exact absurd (hx.trans hy.symm ▸ List.mem_cons_self y r) hn.1

/-- C19: for any matrix and any starting liveness, after Phase 2 and then Phase 3 the
printed answers correspond one to one with the columns still live: a column below
`nCols` is live exactly when it is the column of an answer, no two answers share a
column, and the row of an answer is the only live row holding a 1 in its column (as
its column is the only live column holding a 1 in that row). -/
theorem answers_match_live_columns (fr : fr_t) :
    (∀ c, (c < fr.nCols ∧
        colLive (rmSumsWithMultipleProducts (rmProductsWithMultipleSums fr)) c = true) ↔
      c ∈ (answerCells (rmSumsWithMultipleProducts (rmProductsWithMultipleSums fr))).map
        Prod.snd) ∧
    ((answerCells (rmSumsWithMultipleProducts (rmProductsWithMultipleSums fr))).map
      Prod.snd).Nodup ∧
    (∀ rc, rc ∈ answerCells (rmSumsWithMultipleProducts (rmProductsWithMultipleSums fr)) →
      liveTrueRows (rmSumsWithMultipleProducts (rmProductsWithMultipleSums fr)) rc.2 = [rc.1] ∧
      liveTrueCols (rmSumsWithMultipleProducts (rmProductsWithMultipleSums fr)) rc.1 = [rc.2]) ∧
    printAnswers (rmSumsWithMultipleProducts (rmProductsWithMultipleSums fr)) =
      (answerCells (rmSumsWithMultipleProducts (rmProductsWithMultipleSums fr))).map
        (fun rc =>
          answerLine (rmSumsWithMultipleProducts (rmProductsWithMultipleSums fr)) rc.1 rc.2) := by
  obtain ⟨rows2, h2, _, hr2⟩ := rmProductsWithMultipleSums_spec fr
  obtain ⟨cols3, h3, _, hc3⟩ := rmSumsWithMultipleProducts_spec (rmProductsWithMultipleSums fr)
  set fr2 := rmProductsWithMultipleSums fr with hfr2
  set fr3 := rmSumsWithMultipleProducts fr2 with hfr3
  have hnC : fr3.nCols = fr.nCols := by rw [h3, h2]
  have hnR : fr3.nRows = fr.nRows := by rw [h3, h2]
  have hnC2 : fr2.nCols = fr.nCols := by rw [h2]
  have hnR2 : fr2.nRows = fr.nRows := by rw [h2]
  have hcell3 : ∀ r c, cell fr3 r c = cell fr r c := by
    intro r c
    rw [h3, h2]
    rfl
  have hcell2 : ∀ r c, cell fr2 r c = cell fr r c := by
    intro r c
    rw [h2]
    rfl
  have hrow3 : ∀ r, rowLive fr3 r = rowLive fr2 r := by
    intro r
    rw [h3]
    rfl
  have hcol2 : ∀ c, colLive fr2 c = colLive fr c := by
    intro c
    rw [h2]
    rfl
  have hrows : liveTrueRows fr3 = liveTrueRows fr2 := by
    funext c
    exact liveTrueRows_congr fr2 fr3 (by rw [h3]) (by rw [h3]) (by rw [h3]) (by rw [h3]) c
  -- a live column after Phase 3 has exactly one live row
  have hcolspec : ∀ c, colLive fr3 c = true ↔
      (colLive fr2 c = true ∧ (c < fr2.nCols → (liveTrueRows fr2 c).length = 1)) := by
    intro c
    rw [h3]
    exact hc3 c
  -- a live row after Phase 2 has exactly one live column
  have hrowspec : ∀ r, rowLive fr2 r = true ↔
      (rowLive fr r = true ∧ (r < fr.nRows → (liveTrueCols fr r).length = 1)) := by
    intro r
    rw [h2]
    exact hr2 r
  -- the key step: the single live row of a live column is an answer row for it
  have key : ∀ c r, c < fr.nCols → colLive fr3 c = true → liveTrueRows fr2 c = [r] →
      liveTrueCols fr3 r = [c] := by
    intro c r hc hlive hsingle
    have hr : r ∈ liveTrueRows fr2 c := by rw [hsingle]; exact List.mem_singleton_self r
    rw [mem_liveTrueRows] at hr
    obtain ⟨hr1, hr2', hr3⟩ := hr
    have hlen := ((hrowspec r).1 hr2').2 (by rw [← hnR2]; exact hr1)
    obtain ⟨c0, _, hs⟩ := length_one_getLast_isSome _ hlen
    have hcin : c ∈ liveTrueCols fr r := by
      rw [mem_liveTrueCols]
      refine ⟨hc, ?_, ?_⟩
      · rw [← hcol2]
        exact ((hcolspec c).1 hlive).1
      · rw [← hcell2]
        exact hr3
    rw [hs, List.mem_singleton] at hcin
    subst hcin
    apply eq_singleton_of_nodup_of_mem (nodup_liveTrueCols fr3 r) c
    · rw [mem_liveTrueCols]
      exact ⟨by rw [hnC]; exact hc, hlive, by rw [hcell3, ← hcell2]; exact hr3⟩
    · intro x hx
      rw [mem_liveTrueCols] at hx
      have hx' : x ∈ liveTrueCols fr r := by
        rw [mem_liveTrueCols]
        refine ⟨by rw [← hnC]; exact hx.1, ?_, by rw [← hcell3]; exact hx.2.2⟩
        rw [← hcol2]
        exact ((hcolspec x).1 hx.2.1).1
      rw [hs, List.mem_singleton] at hx'
      exact hx'
  have hans : ∀ r c, (r, c) ∈ answerCells fr3 →
      liveTrueRows fr3 c = [r] ∧ liveTrueCols fr3 r = [c] := by
    intro r c hm
    rw [mem_answerCells] at hm
    obtain ⟨hr1, hr2', hr3⟩ := hm
    refine ⟨?_, hr3⟩
    have hcin : c ∈ liveTrueCols fr3 r := by rw [hr3]; exact List.mem_singleton_self c
    rw [mem_liveTrueCols] at hcin
    obtain ⟨hc1, hc2, hc4⟩ := hcin
    have hlen := ((hcolspec c).1 hc2).2 (by rw [hnC2, ← hnC]; exact hc1)
    obtain ⟨r0, _, hs⟩ := length_one_getLast_isSome _ hlen
    have hrin : r ∈ liveTrueRows fr3 c := by
      rw [mem_liveTrueRows]
      exact ⟨hr1, hr2', hc4⟩
    rw [hrows, hs, List.mem_singleton] at hrin
    rw [hrows, hs, hrin]
  refine ⟨?_, ?_, ?_, printAnswers_eq fr3⟩
  · intro c
    rw [List.mem_map]
    constructor
    · rintro ⟨hc, hlive⟩
      have hlen := ((hcolspec c).1 hlive).2 (by rw [hnC2]; exact hc)
      obtain ⟨r, _, hs⟩ := length_one_getLast_isSome _ hlen
      refine ⟨(r, c), ?_, rfl⟩
      rw [mem_answerCells]
      have hr : r ∈ liveTrueRows fr2 c := by rw [hs]; exact List.mem_singleton_self r
      rw [mem_liveTrueRows] at hr
      exact ⟨by rw [hnR, ← hnR2]; exact hr.1, by rw [hrow3]; exact hr.2.1, key c r hc hlive hs⟩
    · rintro ⟨⟨r, c'⟩, hm, he⟩
      simp only at he
      subst he
      have hcin : c' ∈ liveTrueCols fr3 r := by
        rw [(hans r c' hm).2]
        exact List.mem_singleton_self c'
      rw [mem_liveTrueCols] at hcin
      exact ⟨by rw [← hnC]; exact hcin.1, hcin.2.1⟩
  · unfold answerCells
    rw [List.map_map]
    apply List.Nodup.map_on
    · intro r1 h1 r2 h2 he
      simp only [Function.comp_apply] at he
      have m1 : (r1, (liveTrueCols fr3 r1).headD 0) ∈ answerCells fr3 :=
        List.mem_map.2 ⟨r1, h1, rfl⟩
      have m2 : (r2, (liveTrueCols fr3 r2).headD 0) ∈ answerCells fr3 :=
        List.mem_map.2 ⟨r2, h2, rfl⟩
      have e1 := (hans _ _ m1).1
      have e2 := (hans _ _ m2).1
      rw [he, e2] at e1
      simpa using e1.symm
    · exact (List.nodup_range _).filter _
  · rintro ⟨r, c⟩ hm
    exact hans r c hm

/-! ## Recovering the pair -/

namespace Analytic

theorem isPrimeLoop_eq_zero_iff (n : Int) : ∀ (k : Nat) (i : Int),
    isPrimeLoop n k i = 0 ↔ ∃ j : Nat, j < k ∧ n.tmod (i + j) = 0 := by
  intro k
  induction k with
  | zero => intro i; simp [isPrimeLoop]
  | succ k ih =>
    intro i
    rw [isPrimeLoop]
    by_cases h : n.tmod i = 0
    · simp only [h, if_true, true_iff]
      exact ⟨0, Nat.succ_pos k, by simpa using h⟩
    · simp only [h, if_false]
      rw [ih]
      constructor
      · rintro ⟨j, hj, he⟩
        exact ⟨j + 1, by omega, by push_cast; rw [← he]; congr 1; ring⟩
      · rintro ⟨j, hj, he⟩
        cases j with
        | zero => exact absurd (by simpa using he) h
        | succ j =>
          exact ⟨j, by omega, by push_cast at he; rw [← he]; congr 1; ring⟩

theorem isPrimeLoop_zero_or_one (n : Int) : ∀ (k : Nat) (i : Int),
    isPrimeLoop n k i = 0 ∨ isPrimeLoop n k i = 1 := by
  intro k
  induction k with
  | zero => intro i; exact Or.inr rfl
  | succ k ih =>
    intro i
    rw [isPrimeLoop]
    by_cases h : n.tmod i = 0
    · simp [h]
    · simp only [h, if_false]
      exact ih _

/-- For an argument of at least 2, `isPrime` returns 1 on the primes and 0 elsewhere. -/
theorem isPrime_eq (N : Nat) (hN : 2 ≤ N) :
    isPrime (N : Int) = if N.Prime then 1 else 0 := by
  unfold isPrime
  by_cases h3 : (N : Int) ≤ 3
  · have hp : N.Prime := by
      have : N = 2 ∨ N = 3 := by omega
      rcases this with rfl | rfl
      · exact Nat.prime_two
      · exact Nat.prime_three
    simp [h3, hp]
  · simp only [h3, if_false]
    have h4 : 4 ≤ N := by omega
    by_cases h2 : (N : Int).tmod 2 = 0
    · have hnp : ¬ N.Prime := by
        intro hp
        rw [Int.tmod_eq_emod (by omega) (by decide)] at h2
        have hd : (2 : Nat) ∣ N := by omega
        rcases (Nat.dvd_prime hp).1 hd with h | h <;> omega
      simp [h2, hnp]
    · simp only [h2, if_false]
      by_cases hp : N.Prime
      · simp only [hp, if_true]
        rcases isPrimeLoop_zero_or_one (N : Int) (sqroot (N : Int) - 1).toNat 2 with h | h
        · rw [isPrimeLoop_eq_zero_iff] at h
          obtain ⟨j, hj, he⟩ := h
          rw [sqroot_eq_sqrt] at hj
          have hsq : (2 + j : Nat) ≤ Nat.sqrt N := by
            have : Int.sqrt (N : Int) = (Nat.sqrt N : Int) := by simp [Int.sqrt]
            omega
          have hpos : (0 : Int) ≤ 2 + (j : Int) := by omega
          rw [Int.tmod_eq_emod (by omega) hpos] at he
          have hd : (2 + j : Nat) ∣ N := by
            have : ((2 + j : Nat) : Int) ∣ (N : Int) := by
              push_cast
              exact Int.dvd_of_emod_eq_zero he
            exact Int.natCast_dvd_natCast.1 this
          have := (Nat.prime_def_le_sqrt.1 hp).2 (2 + j) (by omega) hsq
          exact absurd hd this
        · exact h
      · simp only [hp, if_false]
        rw [isPrimeLoop_eq_zero_iff]
        rw [Nat.prime_def_le_sqrt] at hp
        push_neg at hp
        obtain ⟨m, hm2, hms, hmd⟩ := hp (by omega)
        refine ⟨m - 2, ?_, ?_⟩
        · rw [sqroot_eq_sqrt]
          have : Int.sqrt (N : Int) = (Nat.sqrt N : Int) := by simp [Int.sqrt]
          omega
        · have e : (2 : Int) + ((m - 2 : Nat) : Int) = (m : Int) := by omega
          rw [e, Int.tmod_eq_emod (by omega) (by omega)]
          exact Int.emod_eq_zero_of_dvd (Int.natCast_dvd_natCast.2 hmd)

theorem isPrime_ne_zero_iff (N : Nat) (hN : 2 ≤ N) : isPrime (N : Int) ≠ 0 ↔ N.Prime := by
  rw [isPrime_eq N hN]
  by_cases hp : N.Prime <;> simp [hp]

theorem prodPassesP1Loop_zero_or_one (p : Int) : ∀ (k : Nat) (a : Int),
    prodPassesP1Loop p k a = 0 ∨ prodPassesP1Loop p k a = 1 := by
  intro k
  induction k with
  | zero => intro a; exact Or.inr rfl
  | succ k ih =>
    intro a
    rw [prodPassesP1Loop]
    split_ifs
    · exact Or.inl rfl
    · exact ih _
    · exact ih _

theorem prodPassesP1Loop_eq_zero_iff (p : Int) : ∀ (k : Nat) (a : Int),
    prodPassesP1Loop p k a = 0 ↔
      ∃ j : Nat, j < k ∧ p.tmod (a + j) = 0 ∧ isPrime (a + j) ≠ 0 ∧
        isPrime (p.tdiv (a + j)) ≠ 0 := by
  intro k
  induction k with
  | zero => intro a; simp [prodPassesP1Loop]
  | succ k ih =>
    intro a
    rw [prodPassesP1Loop]
    have shift : (∃ j : Nat, j < k ∧ p.tmod (a + 1 + j) = 0 ∧ isPrime (a + 1 + j) ≠ 0 ∧
        isPrime (p.tdiv (a + 1 + j)) ≠ 0) ↔
        ∃ j : Nat, 0 < j ∧ j < k + 1 ∧ p.tmod (a + j) = 0 ∧ isPrime (a + j) ≠ 0 ∧
          isPrime (p.tdiv (a + j)) ≠ 0 := by
      constructor
      · rintro ⟨j, hj, h1, h2, h3⟩
        have e : a + ((j + 1 : Nat) : Int) = a + 1 + j := by push_cast; ring
        exact ⟨j + 1, by omega, by omega, by rw [e]; exact h1, by rw [e]; exact h2,
          by rw [e]; exact h3⟩
      · rintro ⟨j, hj0, hj, h1, h2, h3⟩
        have e : a + 1 + ((j - 1 : Nat) : Int) = a + j := by omega
        exact ⟨j - 1, by omega, by rw [e]; exact h1, by rw [e]; exact h2,
          by rw [e]; exact h3⟩
    by_cases hd : p.tmod a = 0
    · by_cases hpr : isPrime a ≠ 0 ∧ isPrime (p.tdiv a) ≠ 0
      · simp only [hd, if_true, hpr, ne_eq, not_false_eq_true, and_self, true_iff]
        exact ⟨0, Nat.succ_pos k, by simpa using hd, by simpa using hpr.1, by simpa using hpr.2⟩
      · simp only [hd, if_true, hpr, if_false]
        rw [ih, shift]
        constructor
        · rintro ⟨j, _, hj, h⟩
          exact ⟨j, hj, h⟩
        · rintro ⟨j, hj, h1, h2, h3⟩
          refine ⟨j, ?_, hj, h1, h2, h3⟩
          rcases Nat.eq_zero_or_pos j with h0 | h0
          · subst h0
            simp only [Nat.cast_zero, add_zero] at h2 h3
            exact absurd ⟨h2, h3⟩ hpr
          · exact h0
    · simp only [hd, if_false]
      rw [ih, shift]
      constructor
      · rintro ⟨j, _, hj, h⟩
        exact ⟨j, hj, h⟩
      · rintro ⟨j, hj, h1, h2, h3⟩
        refine ⟨j, ?_, hj, h1, h2, h3⟩
        rcases Nat.eq_zero_or_pos j with h0 | h0
        · subst h0
          simp only [Nat.cast_zero, add_zero] at h1
          exact absurd h1 hd
        · exact h0

end Analytic

/-- C18: in the analytic solver, for every product `p >= 1`, `prodPassesP1( p )`
returns 0 exactly when `p = a * b` for two prime numbers `a` and `b`, possibly equal,
and returns 1 otherwise. -/
theorem prodPassesP1_zero_iff_two_primes (p : Int) (hp : 1 ≤ p) :
    (Analytic.prodPassesP1 p = 0 ↔ ∃ a b : Nat, a.Prime ∧ b.Prime ∧ (a : Int) * (b : Int) = p) ∧
    (Analytic.prodPassesP1 p = 0 ∨ Analytic.prodPassesP1 p = 1) := by
  refine ⟨?_, Analytic.prodPassesP1Loop_zero_or_one p _ _⟩
  unfold Analytic.prodPassesP1
  rw [Analytic.prodPassesP1Loop_eq_zero_iff, sqroot_eq_sqrt]
  obtain ⟨P, rfl⟩ := Int.eq_ofNat_of_zero_le (by omega : 0 ≤ p)
  constructor
  · rintro ⟨j, hj, hd, h1, h2⟩
    have hsq : (2 + (j : Int)) ≤ Int.sqrt (P : Int) := by omega
    have haa := (int_le_sqrt_iff (2 + (j : Int)) (P : Int) (by omega)).1 hsq
    obtain ⟨hdv, hdiv⟩ := tmod_tdiv_of_pos (P : Int) (2 + (j : Int)) (by omega) (by omega)
    have hdvd : (2 + (j : Int)) ∣ (P : Int) := hdv.1 hd
    have hmul : (2 + (j : Int)) * ((P : Int) / (2 + (j : Int))) = (P : Int) :=
      Int.mul_ediv_cancel' hdvd
    rw [hdiv] at h2
    have hq2 : (2 : Int) ≤ (P : Int) / (2 + (j : Int)) := by
      by_contra hcon
      have hlt : (P : Int) / (2 + (j : Int)) < 2 + (j : Int) := by omega
      have : (2 + (j : Int)) * ((P : Int) / (2 + (j : Int))) < (2 + (j : Int)) * (2 + (j : Int)) :=
        Int.mul_lt_mul_of_pos_left hlt (by omega)
      omega
    obtain ⟨Q, hQ⟩ := Int.eq_ofNat_of_zero_le (by omega : 0 ≤ (P : Int) / (2 + (j : Int)))
    rw [hQ] at h2 hmul hq2
    have e : (2 : Int) + (j : Int) = ((2 + j : Nat) : Int) := by push_cast; rfl
    rw [e] at h1 hmul
    refine ⟨2 + j, Q, (Analytic.isPrime_ne_zero_iff (2 + j) (by omega)).1 h1,
      (Analytic.isPrime_ne_zero_iff Q (by omega)).1 h2, hmul⟩
  · rintro ⟨a, b, ha, hb, hab⟩
    wlog hle : a ≤ b generalizing a b
    · exact this b a hb ha (by rw [← hab]; ring) (by omega)
    have ha2 := ha.two_le
    have hb2 := hb.two_le
    have haa : (a : Int) * (a : Int) ≤ (P : Int) := by
      rw [← hab]
      exact Int.mul_le_mul_of_nonneg_left (by exact_mod_cast hle) (by omega)
    have hsq := (int_le_sqrt_iff (a : Int) (P : Int) (by omega)).2 haa
    have e : (2 : Int) + ((a - 2 : Nat) : Int) = (a : Int) := by omega
    obtain ⟨hdv, hdiv⟩ := tmod_tdiv_of_pos (P : Int) (a : Int) (by omega) (by omega)
    have hquot : (P : Int) / (a : Int) = (b : Int) := by
      rw [← hab]
      exact Int.mul_ediv_cancel_left _ (by omega)
    refine ⟨a - 2, by omega, ?_, ?_, ?_⟩
    · rw [e]
      exact hdv.2 ⟨b, hab.symm⟩
    · rw [e]
      exact (Analytic.isPrime_ne_zero_iff a ha2).2 ha
    · rw [e, hdiv, hquot]
      exact (Analytic.isPrime_ne_zero_iff b hb2).2 hb

/-- C18 at the product 52: it is not the product of two primes, so it passes P1. -/
theorem prodPassesP1_zero_iff_two_primes_witness :
    (Analytic.prodPassesP1 52 = 0 ↔
      ∃ a b : Nat, a.Prime ∧ b.Prime ∧ (a : Int) * (b : Int) = 52) ∧
    (Analytic.prodPassesP1 52 = 0 ∨ Analytic.prodPassesP1 52 = 1) :=
  prodPassesP1_zero_iff_two_primes 52 (by decide)

/-- C17 fails on the code: `prodPassesP2( 18, 3, 100 )` returns 1, although the only
pair `a <= b` with `a * b = 18`, `3 <= a` and `b <= 100` is `3 * 6`, whose sum 9 does
not pass S1. The loop starts at `a = 2` and checks only `b` against the bounds, so it
counts the pair `2 * 9`, whose sum 11 passes S1. -/
theorem prodPassesP2_counts_factor_below_minint :
    Analytic.prodPassesP2 18 3 100 = 1 ∧
    (¬ ∃ a b : Int, a ≤ b ∧ a * b = 18 ∧ 3 ≤ a ∧ b ≤ 100 ∧
      Analytic.sumPassesS1 (a + b) = 1) ∧
    Analytic.sumPassesS1 (2 + 9) = 1 ∧ Analytic.sumPassesS1 (3 + 6) = 0 := by
  refine ⟨by decide, ?_, by decide, by decide⟩
  rintro ⟨a, b, hab, hmul, ha, _, hs⟩
  have h4 : a ≤ 4 := by
    by_contra hcon
    have h5 : 5 ≤ a := by omega
    have : 5 * 5 ≤ a * b := by nlinarith
    omega
  have h3 : a = 3 ∨ a = 4 := by omega
  rcases h3 with rfl | rfl
  · have hb : b = 6 := by omega
    subst hb
    exact absurd hs (by decide)
  · omega

/-! ## Deduplication of the products header -/

set_option maxRecDepth 100000 in
/-- The products header that `init` leaves for the bounds 9 and 29 when the memory
past the array holds zero bytes: the first `nRows = 35` entries. -/
theorem init_9_29_rows :
    (init 9 29 zeroHeap).map
        (fun fr => (fr.nRows, (fr.rows.take fr.nRows).map (fun e => e.num))) =
      some (35, [90, 99, 108, 110, 117, 120, 126, 130, 132, 135, 140, 143, 144, 150, 153,
        154, 156, 160, 162, 165, 168, 170, 171, 176, 180, 182, 187, 190, 192, 195, 198,
        204, 208, 210, 0]) := by
  decide!

set_option maxRecDepth 100000 in
/-- The last row of the products header that `init` leaves for the bounds 9 and 29
when the memory past the array holds zero bytes: it is row 34 of 35, its product is
0, it is not live, and no column holds a 1 in it. -/
theorem init_9_29_last_row :
    (init 9 29 zeroHeap).map
        (fun fr => (fr.nRows, fr.rows.getD 34 num_t.zero, trueCols fr 34)) =
      some (35, ⟨0, false⟩, []) := by
  decide!

/-- C5 fails on the code: for the bounds 9 and 29 (180 = 9 * 20 = 10 * 18 = 12 * 15 is
the first repeated product) `rmDupProducts` copies from the duplicate that `bsearch`
finds, which is not the next entry, and so reads one entry past the array; with zero
bytes there the first `nRows` entries end `..., 208, 210, 0` and are not ascending. -/
theorem products_header_not_ascending :
    ∃ fr, init 9 29 zeroHeap = some fr ∧
      ¬ List.Pairwise (fun a b => a < b) ((fr.rows.take fr.nRows).map (fun e => e.num)) := by
  obtain ⟨fr, hfr, he⟩ := Option.map_eq_some'.1 init_9_29_rows
  refine ⟨fr, hfr, ?_⟩
  have h2 := congrArg Prod.snd he
  simp only at h2
  rw [h2]
  decide

/-- C6 fails on the code: for the bounds 9 and 29, with zero bytes past the array, the
products header holds the value 0, which is the product of no candidate pair. -/
theorem products_header_holds_non_product :
    ∃ fr, init 9 29 zeroHeap = some fr ∧
      ∃ v, v ∈ (fr.rows.take fr.nRows).map (fun e => e.num) ∧
        ¬ ∃ a b : Int, 9 ≤ a ∧ a < b ∧ b ≤ 29 - 9 ∧ a + b ≤ 29 ∧ v = a * b := by
  obtain ⟨fr, hfr, he⟩ := Option.map_eq_some'.1 init_9_29_rows
  refine ⟨fr, hfr, 0, ?_, ?_⟩
  · have h2 := congrArg Prod.snd he
    simp only at h2
    rw [h2]
    decide
  · rintro ⟨a, b, ha, hab, _, _, h0⟩
    have : 0 < a * b := by nlinarith
    omega

/-- C20 fails on the code: for the bounds 9 and 29, with zero bytes past the array, row
34 of the 35 rows holds the value 0 read from there, and no column holds a 1 in it. -/
theorem row_without_true_cell :
    ∃ fr, init 9 29 zeroHeap = some fr ∧
      ∃ r, r < fr.nRows ∧ (fr.rows.getD r num_t.zero).num = 0 ∧
        ∀ c, c < fr.nCols → cell fr r c ≠ 1 := by
  obtain ⟨fr, hfr, he⟩ := Option.map_eq_some'.1 init_9_29_last_row
  simp only [Prod.mk.injEq] at he
  obtain ⟨h1, h2, h3⟩ := he
  refine ⟨fr, hfr, 34, by omega, by rw [h2], ?_⟩
  intro c hc hcell
  have : c ∈ trueCols fr 34 := by
    unfold trueCols
    rw [List.mem_filter, List.mem_range]
    exact ⟨hc, by simp [countedCol, hcell]⟩
  rw [h3] at this
  exact absurd this (List.not_mem_nil c)

/-! ## The fast evaluation path agrees with the program -/

theorem force_eq {α : Type} (x : Nat) (f : Nat → α) : force x f = f x := by
  cases x <;> rfl

theorem intLe_eq (a b : Int) : intLe a b = decide (a ≤ b) := by
  cases a with
  | ofNat a =>
    cases b with
    | ofNat b =>
      show Nat.ble a b = decide ((a : Int) ≤ (b : Int))
      rw [Bool.eq_iff_iff]
      simp [Nat.ble_eq]
    | negSucc b =>
      show false = decide ((a : Int) ≤ Int.negSucc b)
      have : ¬ ((a : Int) ≤ Int.negSucc b) := by
        have := Int.negSucc_lt_zero b
        omega
      simp [this]
  | negSucc a =>
    cases b with
    | ofNat b =>
      show true = decide (Int.negSucc a ≤ (b : Int))
      have : Int.negSucc a ≤ (b : Int) := by
        have := Int.negSucc_lt_zero a
        omega
      simp [this]
    | negSucc b =>
      show Nat.ble b a = decide (Int.negSucc a ≤ Int.negSucc b)
      rw [Bool.eq_iff_iff]
      simp only [Nat.ble_eq, decide_eq_true_eq, Int.negSucc_eq]
      omega

theorem numLe_iff (x y : num_t) : numLe x y = true ↔ x.num ≤ y.num := by
  simp [numLe, intLe_eq]

theorem cmpLe_eq_numLe : cmpLe = numLe := by
  funext x y
  rw [Bool.eq_iff_iff, numLe_iff]
  simp [cmpLe, cmpNums_le_iff]

theorem isAscending_pairwise : ∀ (l : List num_t), isAscending l = true →
    l.Pairwise (fun a b => a.num ≤ b.num) := by
  intro l
  induction l with
  | nil => intro _; exact List.Pairwise.nil
  | cons x r ih =>
    intro h
    cases r with
    | nil => simp
    | cons y r2 =>
      simp only [isAscending, Bool.and_eq_true, numLe_iff] at h
      have hp := ih h.2
      rw [List.pairwise_cons]
      refine ⟨?_, hp⟩
      intro b hb
      rcases List.mem_cons.1 hb with rfl | hb
      · exact h.1
      · have := (List.pairwise_cons.1 hp).1 b hb
        omega

theorem leadCount_le (key : Int) : ∀ (l : List num_t), leadCount key l ≤ l.length := by
  intro l
  induction l with
  | nil => simp [leadCount]
  | cons x r ih =>
    simp only [leadCount, List.length_cons]
    split_ifs <;> omega

/-- In an ascending list whose entries are at least `key`, the entries that match
`key` are exactly the first `leadCount` ones. -/
theorem leadCount_spec (key : Int) : ∀ (l : List num_t),
    l.Pairwise (fun a b => a.num ≤ b.num) → (∀ v ∈ l, key ≤ v.num) →
    ∀ i, i < l.length → ((l.getD i num_t.zero).num = key ↔ i < leadCount key l) := by
  intro l
  induction l with
  | nil => intro _ _ i hi; simp at hi
  | cons x r ih =>
    intro hp hk i hi
    rw [List.pairwise_cons] at hp
    cases i with
    | zero =>
      simp only [List.getD_cons_zero, leadCount]
      split_ifs with hx
      · simp [hx]
      · simp [hx]
    | succ j =>
      simp only [List.getD_cons_succ, leadCount]
      have hj : j < r.length := by simpa using hi
      have hmem : r.getD j num_t.zero ∈ r := by
        rw [List.getD_eq_getElem _ _ hj]
        exact List.getElem_mem hj
      split_ifs with hx
      · rw [ih hp.2 (fun v hv => hk v (List.mem_cons_of_mem _ hv)) j hj]
        omega
      · have h1 := hp.1 _ hmem
        have h2 := hk x (List.mem_cons_self _ _)
        constructor
        · intro h; omega
        · intro h; omega

theorem leadCount_append_replicate (key : Int) (M : num_t) (e : Nat) : ∀ (vs : List num_t),
    leadCount key (vs ++ List.replicate e M) =
      if leadCount key vs = vs.length ∧ M.num = key then leadCount key vs + e
      else leadCount key vs := by
  intro vs
  induction vs with
  | nil =>
    simp only [List.nil_append, leadCount, List.length_nil, true_and, Nat.zero_add]
    induction e with
    | zero => simp [leadCount]
    | succ e ihe =>
      simp only [List.replicate_succ, leadCount]
      split_ifs with h
      · rw [ihe, if_pos h]
      · rfl
  | cons x r ih =>
    rw [List.cons_append]
    simp only [leadCount, List.length_cons]
    by_cases hx : x.num = key
    · rw [if_pos hx, if_pos hx, ih]
      by_cases h1 : leadCount key r = r.length ∧ M.num = key
      · rw [if_pos h1, if_pos ⟨by omega, h1.2⟩]; omega
      · rw [if_neg h1, if_neg]
        intro h2
        exact h1 ⟨by omega, h2.2⟩
    · rw [if_neg hx, if_neg hx, if_neg]
      intro h2
      omega

theorem halveFind_zero : ∀ (fuel u : Nat), halveFind 0 fuel u = none := by
  intro fuel
  induction fuel with
  | zero => intro u; rfl
  | succ fuel ih =>
    intro u
    simp only [halveFind, Nat.not_lt_zero, if_false]
    split_ifs
    · exact ih _
    · rfl

theorem halveFind_some (k : Nat) : ∀ (fuel u idx : Nat), halveFind k fuel u = some idx →
    idx < k ∧ idx < u := by
  intro fuel
  induction fuel with
  | zero => intro u idx h; simp [halveFind] at h
  | succ fuel ih =>
    intro u idx h
    simp only [halveFind] at h
    split_ifs at h with h1 h2
    · cases h
      exact ⟨h2, Nat.div_lt_self h1 (by omega)⟩
    · have := ih _ _ h
      exact ⟨this.1, by have := Nat.div_le_self u 2; omega⟩

/-- The probes of `bsearch` in a sub-array of which exactly the first `k` entries match
the key and the others are greater. -/
theorem bsearchLoop_eq_halveFind (key : num_t) (arr : List num_t) (base k n : Nat)
    (h : ∀ i, i < n → key.num ≤ (arr.getD (base + i) num_t.zero).num ∧
      ((arr.getD (base + i) num_t.zero).num = key.num ↔ i < k)) :
    ∀ (fuel u : Nat), u ≤ n →
      bsearchLoop key arr base fuel 0 u = (halveFind k fuel u).map (fun i => base + i) := by
  intro fuel
  induction fuel with
  | zero => intro u _; rfl
  | succ fuel ih =>
    intro u hu
    simp only [bsearchLoop, halveFind, Nat.zero_add]
    split_ifs with h1 h2 h3 h4 h5 h6
    · exfalso
      rw [cmpNums_neg_iff] at h2
      have := (h (u / 2) (by have := Nat.div_lt_self h1 (by omega : 1 < 2); omega)).2.2 h3
      omega
    · exact ih _ (by have := Nat.div_le_self u 2; omega)
    · exfalso
      rw [cmpNums_pos_iff] at h4
      have := (h (u / 2) (by have := Nat.div_lt_self h1 (by omega : 1 < 2); omega)).1
      omega
    · exfalso
      rw [cmpNums_pos_iff] at h4
      have := (h (u / 2) (by have := Nat.div_lt_self h1 (by omega : 1 < 2); omega)).1
      omega
    · rfl
    · exfalso
      rw [cmpNums_neg_iff] at h2
      rw [cmpNums_pos_iff] at h4
      have hh := h (u / 2) (by have := Nat.div_lt_self h1 (by omega : 1 < 2); omega)
      have : (arr.getD (base + u / 2) num_t.zero).num = key.num := by omega
      exact h6 (hh.2.1 this)
    · rfl

theorem range_map_getD_eq_take (d : num_t) : ∀ (l : List num_t) (n : Nat), n ≤ l.length →
    (List.range n).map (fun i => l.getD i d) = l.take n := by
  intro l n hn
  apply List.ext_getElem
  · simp [hn]
  · intro i h1 h2
    simp only [List.length_map, List.length_range] at h1
    simp only [List.getElem_map, List.getElem_range, List.getElem_take]
    rw [List.getD_eq_getElem _ _ (by omega)]

theorem drop_length_cons_of_getLast? (x M : num_t) : ∀ (v : List num_t),
    v.getLast? = some M → (x :: v).drop v.length = [M] := by
  intro v
  induction v generalizing x with
  | nil => intro h; simp at h
  | cons y r ih =>
    intro h
    cases r with
    | nil =>
      simp at h
      simp [h]
    | cons z r2 =>
      rw [List.getLast?_cons_cons] at h
      have := ih y h
      simpa using this

/-- The `memmove` of `rmDupProducts` on an array in ascending order: the entries
after index `row` are replaced by those from the match on, and as many copies of the
last entry `M` as the match lies past index `row + 1` are read after the first
`nRows` entries. -/
theorem memmove_found (heap : Nat → num_t) (D : List num_t) (x M : num_t) (v : List num_t)
    (t idx : Nat) (hidx : idx < v.length) (ht : idx ≤ t) (hlast : v.getLast? = some M) :
    memmove (D ++ x :: (v ++ List.replicate t M)) heap D.length (D.length + 1 + idx) v.length =
      D ++ v.getD idx M ::
        ((v.drop (idx + 1) ++ List.replicate idx M) ++ List.replicate (t + 1) M) := by
  unfold memmove
  have h1 : (D ++ x :: (v ++ List.replicate t M)).take D.length = D := by
    simp
  have h2 : (List.range v.length).map
      (fun i => readPast (D ++ x :: (v ++ List.replicate t M)) heap (D.length + 1 + idx + i)) =
      (List.range v.length).map (fun i => ((v ++ List.replicate t M).drop idx).getD i num_t.zero) := by
    apply List.map_congr_left
    intro i hi
    rw [List.mem_range] at hi
    unfold readPast
    rw [if_pos (by simp; omega)]
    rw [List.getD_append_right _ _ _ _ (by omega)]
    have e1 : D.length + 1 + idx + i - D.length = (idx + i) + 1 := by omega
    rw [e1, List.getD_cons_succ]
    simp only [List.getD_eq_getElem?_getD, List.getElem?_drop]
  have h3 : ((v ++ List.replicate t M).drop idx).take v.length =
      v.getD idx M :: (v.drop (idx + 1) ++ List.replicate idx M) := by
    rw [List.drop_append_of_le_length (by omega)]
    rw [List.take_append_eq_append_take]
    have e2 : (v.drop idx).take v.length = v.drop idx := by
      apply List.take_of_length_le
      simp
    rw [e2]
    have e3 : (List.replicate t M).take (v.length - (v.drop idx).length) = List.replicate idx M := by
      simp only [List.length_drop, List.take_replicate]
      congr 1
      omega
    rw [e3]
    have e4 : v.drop idx = v.getD idx M :: v.drop (idx + 1) := by
      rw [List.getD_eq_getElem _ _ hidx]
      exact List.drop_eq_getElem_cons hidx
    rw [e4]
    rfl
  have h4 : (D ++ x :: (v ++ List.replicate t M)).drop (D.length + v.length) =
      List.replicate (t + 1) M := by
    rw [List.drop_append]
    rw [← List.cons_append, List.drop_append_of_le_length (by simp)]
    rw [drop_length_cons_of_getLast? x M v hlast]
    rfl
  rw [h1, h2, range_map_getD_eq_take _ _ _ (by simp; omega), h3, h4]
  simp

theorem ascTo_nil (M : num_t) (key : Int) : ascTo M key [] :=
  ⟨List.Pairwise.nil, by simp, by simp⟩

theorem ascTo_tail (M : num_t) (key : Int) (y : num_t) (v : List num_t)
    (h : ascTo M key (y :: v)) : ascTo M y.num v := by
  obtain ⟨h1, h2, h3⟩ := h
  rw [List.pairwise_cons] at h1
  refine ⟨h1.2, ?_, ?_⟩
  · intro a ha
    exact ⟨h1.1 a ha, (h2 a (List.mem_cons_of_mem _ ha)).2⟩
  · intro hne
    have := h3 (by simp)
    cases v with
    | nil => exact absurd rfl hne
    | cons z r => rwa [List.getLast?_cons_cons] at this

theorem ascTo_last_mem (M : num_t) (key : Int) (v : List num_t) (h : ascTo M key v)
    (hne : v ≠ []) : M ∈ v := by
  have := h.2.2 hne
  exact List.mem_of_getLast?_eq_some this

theorem ascTo_step (M : num_t) (key : Int) (v : List num_t) (idx : Nat) (h : ascTo M key v)
    (hidx : idx < v.length) : ascTo M key (v.drop (idx + 1) ++ List.replicate idx M) := by
  have hne : v ≠ [] := by
    intro h0; rw [h0] at hidx; simp at hidx
  have hM := ascTo_last_mem M key v h hne
  obtain ⟨h1, h2, h3⟩ := h
  refine ⟨?_, ?_, ?_⟩
  · rw [List.pairwise_append]
    refine ⟨h1.sublist (List.drop_sublist _ _), ?_, ?_⟩
    · rw [List.pairwise_replicate]
      right; exact le_refl _
    · intro a ha b hb
      rw [List.eq_of_mem_replicate hb]
      exact (h2 a (List.mem_of_mem_drop ha)).2
  · intro a ha
    rcases List.mem_append.1 ha with ha | ha
    · exact h2 a (List.mem_of_mem_drop ha)
    · rw [List.eq_of_mem_replicate ha]
      exact h2 M hM
  · intro _
    cases idx with
    | zero =>
      simp only [Nat.zero_add, List.replicate_zero, List.append_nil]
      have hl := h3 hne
      cases v with
      | nil => exact absurd rfl hne
      | cons z r =>
        simp only [List.drop_succ_cons, List.drop_zero]
        cases r with
        | nil => simp_all
        | cons w r2 => rwa [List.getLast?_cons_cons] at hl
    | succ j =>
      rw [List.replicate_succ', ← List.append_assoc, List.getLast?_concat]

/-- The call of `bsearch` in `rmDupProducts`, on an array in ascending order. -/
theorem bsearch_ascTo (M : num_t) (key : Int) (D : List num_t) (x : num_t) (v : List num_t)
    (t : Nat) (h : ascTo M key v) :
    bsearch ⟨key, false⟩ (D ++ x :: (v ++ List.replicate t M)) (D.length + 1)
        (D.length + 1 + v.length - (D.length + 1)) =
      (halveFind (leadCount key v) v.length v.length).map (fun i => D.length + 1 + i) := by
  have e : D.length + 1 + v.length - (D.length + 1) = v.length := by omega
  rw [e]
  unfold bsearch
  apply bsearchLoop_eq_halveFind ⟨key, false⟩ _ _ _ v.length _ _ _ (le_refl _)
  intro i hi
  have hg : (D ++ x :: (v ++ List.replicate t M)).getD (D.length + 1 + i) num_t.zero =
      v.getD i num_t.zero := by
    rw [List.getD_append_right _ _ _ _ (by omega)]
    have e1 : D.length + 1 + i - D.length = i + 1 := by omega
    rw [e1, List.getD_cons_succ, List.getD_append _ _ _ _ hi]
  rw [hg]
  have hmem : v.getD i num_t.zero ∈ v := by
    rw [List.getD_eq_getElem _ _ hi]
    exact List.getElem_mem hi
  exact ⟨(h.2.1 _ hmem).1, leadCount_spec key v h.1 (fun a ha => (h.2.1 a ha).1) i hi⟩

theorem rmDupProductsInner_stop (heap : Nat → num_t) (M : num_t) (key : Int) (D : List num_t)
    (x : num_t) (v : List num_t) (t : Nat) (h : ascTo M key v) (hk : leadCount key v = 0)
    (fuel : Nat) :
    rmDupProductsInner heap D.length ⟨key, false⟩ fuel (D ++ x :: (v ++ List.replicate t M))
        (D.length + 1 + v.length) =
      (D ++ x :: (v ++ List.replicate t M), D.length + 1 + v.length) := by
  cases fuel with
  | zero => rfl
  | succ f =>
    unfold rmDupProductsInner
    rw [bsearch_ascTo M key D x v t h, hk, halveFind_zero]
    rfl

/-- The `while ( 1 )` loop of `rmDupProducts` on an array in ascending order follows
`absInner`. -/
theorem rmDupProductsInner_abs (heap : Nat → num_t) (M : num_t) (key : Int) (D : List num_t) :
    ∀ (fuel : Nat) (x : num_t) (v : List num_t) (t : Nat) (x1 : num_t) (v1 : List num_t)
      (t1 : Nat),
      absInner M key fuel x v t = some (x1, v1, t1) → ascTo M key v →
      ∀ (fuel2 : Nat), v.length ≤ fuel2 →
        rmDupProductsInner heap D.length ⟨key, false⟩ fuel2
            (D ++ x :: (v ++ List.replicate t M)) (D.length + 1 + v.length) =
          (D ++ x1 :: (v1 ++ List.replicate t1 M), D.length + 1 + v1.length) ∧
        ascTo M key v1 ∧ v1.length ≤ v.length := by
  intro fuel
  induction fuel with
  | zero =>
    intro x v t x1 v1 t1 h hv fuel2 _
    simp only [absInner] at h
    split_ifs at h with h0
    simp only [Option.some.injEq, Prod.mk.injEq] at h
    obtain ⟨rfl, rfl, rfl⟩ := h
    have hnil : v = [] := List.length_eq_zero.1 h0
    refine ⟨rmDupProductsInner_stop heap M key D x v t hv ?_ fuel2, hv, le_refl _⟩
    rw [hnil]; rfl
  | succ fuel ih =>
    intro x v t x1 v1 t1 h hv fuel2 hf
    simp only [absInner] at h
    split_ifs at h with hk
    · simp only [Option.some.injEq, Prod.mk.injEq] at h
      obtain ⟨rfl, rfl, rfl⟩ := h
      exact ⟨rmDupProductsInner_stop heap M key D x v t hv hk fuel2, hv, le_refl _⟩
    · cases hh : halveFind (leadCount key v) v.length v.length with
      | none => rw [hh] at h; simp at h
      | some idx =>
        rw [hh] at h
        simp only at h
        split_ifs at h with ht
        have hidx := (halveFind_some _ _ _ _ hh).2
        have hne : v ≠ [] := by
          intro h0; rw [h0] at hidx; simp at hidx
        have hlen : (v.drop (idx + 1) ++ List.replicate idx M).length + 1 = v.length := by
          simp only [List.length_append, List.length_drop, List.length_replicate]
          omega
        cases fuel2 with
        | zero => omega
        | succ f =>
          unfold rmDupProductsInner
          rw [bsearch_ascTo M key D x v t hv, hh]
          simp only [Option.map_some']
          have e : D.length + 1 + v.length - (D.length + 1) = v.length := by omega
          rw [e, memmove_found heap D x M v t idx hidx (by omega) (hv.2.2 hne)]
          have e2 : D.length + 1 + v.length - 1 =
              D.length + 1 + (v.drop (idx + 1) ++ List.replicate idx M).length := by omega
          rw [e2]
          have := ih _ _ _ _ _ _ h (ascTo_step M key v idx hv hidx) f (by omega)
          exact ⟨this.1, this.2.1, by omega⟩

/-- The `for` loop of `rmDupProducts` on an array in ascending order follows
`absOuter`: the entries kept are followed by copies of the last entry. -/
theorem rmDupProductsOuter_abs (heap : Nat → num_t) (M : num_t) :
    ∀ (fuel : Nat) (x : num_t) (v : List num_t) (t : Nat) (D res : List num_t) (tf : Nat),
      absOuter M fuel x v t D.reverse = some (res, tf) → ascTo M x.num v →
      ∀ (fuel2 : Nat), v.length + 1 ≤ fuel2 →
        rmDupProductsOuter heap fuel2 D.length (D ++ x :: (v ++ List.replicate t M))
            (D.length + 1 + v.length) =
          (res ++ List.replicate tf M, res.length) := by
  intro fuel
  induction fuel with
  | zero => intro x v t D res tf h; simp [absOuter] at h
  | succ fuel ih =>
    intro x v t D res tf h hv fuel2 hf
    simp only [absOuter] at h
    cases hi : absInner M x.num v.length x v t with
    | none => rw [hi] at h; simp at h
    | some r =>
      obtain ⟨x1, v1, t1⟩ := r
      rw [hi] at h
      simp only at h
      have hin := rmDupProductsInner_abs heap M x.num D _ _ _ _ _ _ _ hi hv
        (D.length + 1 + v.length) (by omega)
      cases fuel2 with
      | zero => omega
      | succ f =>
        unfold rmDupProductsOuter
        rw [if_pos (by omega)]
        have hkey : ((D ++ x :: (v ++ List.replicate t M)).getD D.length num_t.zero).num =
            x.num := by
          rw [List.getD_append_right _ _ _ _ (le_refl _)]
          simp
        simp only [hkey, hin.1]
        cases v1 with
        | nil =>
          simp only [Option.some.injEq, Prod.mk.injEq] at h
          obtain ⟨rfl, rfl⟩ := h
          have hstop : ∀ (rows : List num_t), rmDupProductsOuter heap f (D.length + 1) rows
              (D.length + 1 + ([] : List num_t).length) =
              (rows, D.length + 1 + ([] : List num_t).length) := by
            intro rows
            cases f with
            | zero => rfl
            | succ g =>
              unfold rmDupProductsOuter
              rw [if_neg (by simp)]
          rw [hstop]
          simp
        | cons y v2 =>
          simp only at h
          have hrev : x1 :: D.reverse = (D ++ [x1]).reverse := by simp
          rw [hrev] at h
          have hlen : v2.length + 1 ≤ v.length := by
            have := hin.2.2
            simpa using this
          have := ih y v2 t1 (D ++ [x1]) res tf h (ascTo_tail M x.num y v2 hin.2.1) f (by omega)
          have e1 : (D ++ [x1]).length = D.length + 1 := by simp
          have e2 : (D ++ [x1]) ++ y :: (v2 ++ List.replicate t1 M) =
              D ++ x1 :: (y :: v2 ++ List.replicate t1 M) := by simp
          have e3 : D.length + 1 + (y :: v2).length = D.length + 1 + 1 + v2.length := by
            simp only [List.length_cons]; omega
          rw [e1, e2] at this
          rw [e3]
          exact this

theorem getD_append_replicate (M : num_t) (vs : List num_t) (e idx : Nat) :
    (vs ++ List.replicate e M).getD idx M = if idx < vs.length then vs.getD idx M else M := by
  split_ifs with h
  · exact List.getD_append _ _ _ _ h
  · rw [List.getD_append_right _ _ _ _ (by omega)]
    rw [List.getD_eq_getElem?_getD, List.getElem?_replicate]
    split_ifs <;> rfl

theorem drop_append_replicate (M : num_t) (vs : List num_t) (e idx n : Nat) :
    (vs ++ List.replicate e M).drop n ++ List.replicate idx M =
      vs.drop n ++ List.replicate (e - (n - vs.length) + idx) M := by
  rw [List.drop_append_eq_append_drop, List.drop_replicate, List.append_assoc,
    List.append_replicate_replicate]

/-- The run-length form of the `while ( 1 )` loop gives the list form. -/
theorem fastInner_abs (M : num_t) (key : Int) :
    ∀ (fuel : Nat) (x : num_t) (vs : List num_t) (nv e t : Nat) (x1 : num_t)
      (vs1 : List num_t) (nv1 e1 t1 : Nat), nv = vs.length →
      fastInner M key fuel x vs nv e t = some (x1, vs1, nv1, e1, t1) →
      absInner M key fuel x (vs ++ List.replicate e M) t =
          some (x1, vs1 ++ List.replicate e1 M, t1) ∧ nv1 = vs1.length := by
  intro fuel
  induction fuel with
  | zero =>
    intro x vs nv e t x1 vs1 nv1 e1 t1 hn h
    simp only [fastInner] at h
    split_ifs at h with h0
    simp only [Option.some.injEq, Prod.mk.injEq] at h
    obtain ⟨rfl, rfl, rfl, rfl, rfl⟩ := h
    simp only [absInner, List.length_append, List.length_replicate]
    rw [if_pos (by omega)]
    exact ⟨rfl, hn⟩
  | succ fuel ih =>
    intro x vs nv e t x1 vs1 nv1 e1 t1 hn h
    simp only [fastInner, force_eq] at h
    simp only [absInner]
    have hl : (vs ++ List.replicate e M).length = nv + e := by simp [hn]
    rw [leadCount_append_replicate, ← hn, hl]
    generalize (if leadCount key vs = nv ∧ M.num = key then leadCount key vs + e
      else leadCount key vs) = k at h ⊢
    by_cases hk : k = 0
    · rw [if_pos hk] at h ⊢
      simp only [Option.some.injEq, Prod.mk.injEq] at h
      obtain ⟨rfl, rfl, rfl, rfl, rfl⟩ := h
      exact ⟨rfl, hn⟩
    · rw [if_neg hk] at h ⊢
      cases hh : halveFind k (nv + e) (nv + e) with
      | none => rw [hh] at h; simp at h
      | some idx =>
        rw [hh] at h
        simp only at h ⊢
        by_cases ht : t < idx
        · rw [if_pos ht] at h; simp at h
        · rw [if_neg ht] at h ⊢
          have := ih _ _ _ _ _ _ _ _ _ _ (by simp [hn]) h
          rw [getD_append_replicate, drop_append_replicate, ← hn]
          exact this

/-- The run-length form of the `for` loop gives the list form. -/
theorem fastOuter_abs (M : num_t) :
    ∀ (fuel : Nat) (x : num_t) (vs : List num_t) (nv e t : Nat) (acc : List num_t)
      (r : List num_t × Nat), nv = vs.length →
      fastOuter M fuel x vs nv e t acc = some r →
      absOuter M fuel x (vs ++ List.replicate e M) t acc = some r := by
  intro fuel
  induction fuel with
  | zero => intro x vs nv e t acc r _ h; simp [fastOuter] at h
  | succ fuel ih =>
    intro x vs nv e t acc r hn h
    simp only [fastOuter] at h
    simp only [absOuter]
    have hl : (vs ++ List.replicate e M).length = nv + e := by simp [hn]
    rw [hl]
    cases hi : fastInner M x.num (nv + e) x vs nv e t with
    | none => rw [hi] at h; simp at h
    | some q =>
      obtain ⟨x1, vs1, nv1, e1, t1⟩ := q
      rw [hi] at h
      simp only at h
      have ha := fastInner_abs M x.num _ _ _ _ _ _ _ _ _ _ _ hn hi
      rw [ha.1]
      cases vs1 with
      | cons y vs2 =>
        simp only at h
        simp only [List.cons_append]
        exact ih _ _ _ _ _ _ _ (by have := ha.2; simp at this; omega) h
      | nil =>
        simp only at h
        split_ifs at h with he
        · rw [he]
          simpa using h
        · obtain ⟨e2, rfl⟩ : ∃ e2, e1 = e2 + 1 := ⟨e1 - 1, by omega⟩
          simp only [List.nil_append, List.replicate_succ]
          have := ih _ _ _ _ _ _ _ (by simp) h
          simpa using this

theorem le_last_of_pairwise (M : num_t) (l : List num_t)
    (hp : l.Pairwise (fun a b => a.num ≤ b.num)) (hl : l.getLast? = some M) :
    ∀ a ∈ l, a.num ≤ M.num := by
  obtain ⟨ys, rfl⟩ := List.getLast?_eq_some_iff.1 hl
  rw [List.pairwise_append] at hp
  intro a ha
  rcases List.mem_append.1 ha with ha | ha
  · exact hp.2.2 a ha M (by simp)
  · simp only [List.mem_singleton] at ha
    rw [ha]

theorem getLast?_eq_getLastD : ∀ (vs : List num_t) (x : num_t), vs ≠ [] →
    vs.getLast? = some (vs.getLastD x) := by
  intro vs
  induction vs with
  | nil => intro x h; exact absurd rfl h
  | cons y r ih =>
    intro x _
    cases r with
    | nil => rfl
    | cons z r2 =>
      rw [List.getLast?_cons_cons]
      exact ih y (by simp)

/-- When `fastDedup` gives a header, the `for` loop of `rmDupProducts` leaves that
header, followed by stale entries, and its length as `nRows`. -/
theorem rmDupProductsOuter_fastDedup (heap : Nat → num_t) (s res : List num_t) (tf : Nat)
    (h : fastDedup s = some (res, tf)) :
    ∃ stale, rmDupProductsOuter heap s.length 0 s s.length = (res ++ stale, res.length) := by
  cases s with
  | nil =>
    simp only [fastDedup, Option.some.injEq, Prod.mk.injEq] at h
    refine ⟨[], ?_⟩
    rw [← h.1]
    rfl
  | cons x vs =>
    simp only [fastDedup] at h
    split_ifs at h with hasc
    have hp := isAscending_pairwise _ hasc
    have hlast : (x :: vs).getLast? = some ((x :: vs).getLastD x) :=
      getLast?_eq_getLastD _ x (by simp)
    have hle := le_last_of_pairwise _ _ hp hlast
    have hv : ascTo ((x :: vs).getLastD x) x.num vs := by
      refine ⟨(List.pairwise_cons.1 hp).2, ?_, ?_⟩
      · intro a ha
        exact ⟨(List.pairwise_cons.1 hp).1 a ha, hle a (List.mem_cons_of_mem _ ha)⟩
      · intro hne
        cases vs with
        | nil => exact absurd rfl hne
        | cons z r => rwa [List.getLast?_cons_cons] at hlast
    have h1 := fastOuter_abs _ _ _ _ _ _ _ _ _ rfl h
    simp only [List.replicate_zero, List.append_nil] at h1
    have h2 := rmDupProductsOuter_abs heap _ _ x vs 0 [] res tf h1 hv (vs.length + 1) (le_refl _)
    refine ⟨List.replicate tf ((x :: vs).getLastD x), ?_⟩
    simpa [Nat.add_comm] using h2

theorem length_mergeRuns (le : num_t → num_t → Bool) : ∀ (xs ys : List num_t),
    (mergeRuns le xs ys).length = xs.length + ys.length := by
  intro xs
  induction xs with
  | nil => intro ys; simp [mergeRuns]
  | cons x xs ih =>
    intro ys
    simp only [mergeRuns]
    induction ys with
    | nil => simp [mergeInto]
    | cons y ys ihy =>
      simp only [mergeInto]
      split_ifs
      · simp only [List.length_cons, ih]
        omega
      · simp only [List.length_cons, ihy]
        omega

theorem flatten_splitRuns (le : num_t → num_t → Bool) : ∀ (l : List num_t),
    (splitRuns le l).flatten = l := by
  intro l
  induction l with
  | nil => rfl
  | cons x r ih =>
    simp only [splitRuns]
    cases hs : splitRuns le r with
    | nil =>
      rw [hs] at ih
      simp only [List.flatten_nil] at ih
      simp [← ih]
    | cons a rest =>
      rw [hs] at ih
      cases a with
      | nil =>
        simp only [List.flatten_cons, List.nil_append] at ih
        simp [ih]
      | cons y ys =>
        simp only
        split_ifs
        · simp only [List.flatten_cons] at ih ⊢
          rw [← ih]; rfl
        · simp only [List.flatten_cons] at ih ⊢
          rw [← ih]; rfl

theorem length_flatten_mergePairs (le : num_t → num_t → Bool) : ∀ (n : Nat)
    (l : List (List num_t)), l.length ≤ n →
    (mergePairs le l).flatten.length = l.flatten.length := by
  intro n
  induction n using Nat.strong_induction_on with
  | _ n ih =>
    intro l hl
    match l, hl with
    | [], _ => rfl
    | [a], _ => rfl
    | a :: b :: rest, hl =>
      simp only [mergePairs, List.flatten_cons, List.length_append, length_mergeRuns]
      simp only [List.length_cons] at hl
      rw [ih rest.length (by omega) rest (le_refl _)]
      omega

theorem length_mergeAll (le : num_t → num_t → Bool) : ∀ (fuel : Nat) (l : List (List num_t)),
    (mergeAll le fuel l).length = l.flatten.length := by
  intro fuel
  induction fuel with
  | zero => intro l; rfl
  | succ fuel ih =>
    intro l
    match l with
    | [] => rfl
    | [a] => simp [mergeAll]
    | a :: b :: rest =>
      simp only [mergeAll]
      rw [ih, length_flatten_mergePairs le _ _ (le_refl _)]

theorem length_sortRuns (le : num_t → num_t → Bool) (l : List num_t) :
    (sortRuns le l).length = l.length := by
  unfold sortRuns
  rw [length_mergeAll, flatten_splitRuns]

theorem prodRun_succ (a maxSum : Int) : ∀ (n : Nat) (b : Int),
    prodRun a maxSum (n + 1) b =
      prodRun a maxSum n b ++
        (if a + (b + (n : Int)) > maxSum then [] else [(⟨a * (b + (n : Int)), true⟩ : num_t)]) := by
  intro n
  induction n with
  | zero =>
    intro b
    simp only [prodRun, Nat.cast_zero, add_zero]
    split_ifs <;> rfl
  | succ n ih =>
    intro b
    rw [prodRun, ih (b + 1)]
    have e : b + 1 + (n : Int) = b + ((n + 1 : Nat) : Int) := by push_cast; ring
    rw [e]
    conv_rhs => rw [prodRun]
    split_ifs <;> simp

theorem prodRuns_succ (maxInt maxSum : Int) : ∀ (n : Nat) (a : Int),
    prodRuns maxInt maxSum (n + 1) a =
      prodRuns maxInt maxSum n a ++
        prodRun (a + (n : Int)) maxSum (maxInt - (a + (n : Int))).toNat (a + (n : Int) + 1) := by
  intro n
  induction n with
  | zero =>
    intro a
    simp [prodRuns]
  | succ n ih =>
    intro a
    rw [prodRuns, ih (a + 1)]
    have e : a + 1 + (n : Int) = a + ((n + 1 : Nat) : Int) := by push_cast; ring
    rw [e]
    conv_rhs => rw [prodRuns]
    rw [List.append_assoc]

/-- The counting call of `mkProducts`: the inner loop adds the number of entries. -/
theorem mkProductsInner_count (fr : fr_t) (a : Int) (st : List num_t × Nat × Nat) :
    ∀ (j : Nat), mkProductsInner fr true a st j =
      (st.1, st.2.1 + (prodRun a fr.maxSum j (a + 1)).length, st.2.2) := by
  intro j
  induction j with
  | zero => rfl
  | succ j ih =>
    rw [mkProductsInner, ih, prodRun_succ]
    simp only []
    split_ifs with h
    · simp
    · simp only [List.length_append, List.length_singleton, if_true]
      rfl

/-- The filling call of `mkProducts`: the inner loop writes the entries one by one. -/
theorem mkProductsInner_fill (fr : fr_t) (a : Int) (st : List num_t × Nat × Nat) :
    ∀ (j : Nat), mkProductsInner fr false a st j =
      (prodRun a fr.maxSum j (a + 1)).foldl
        (fun s e => (s.1.set s.2.2 e, s.2.1, s.2.2 + 1)) st := by
  intro j
  induction j with
  | zero => rfl
  | succ j ih =>
    rw [mkProductsInner, ih, prodRun_succ, List.foldl_append]
    by_cases h : a + (a + 1 + (j : Int)) > fr.maxSum
    · simp only [if_pos h, List.foldl_nil]
    · simp only [if_neg h, List.foldl_cons, List.foldl_nil, Bool.false_eq_true, if_false]

theorem mkProductsOuter_count (fr : fr_t) : ∀ (i : Nat), mkProductsOuter fr true i =
    (fr.rows, (prodRuns fr.maxInt fr.maxSum i fr.minInt).length, 0) := by
  intro i
  induction i with
  | zero => rfl
  | succ i ih =>
    rw [mkProductsOuter]
    rw [mkProductsInner_count, ih, prodRuns_succ, List.length_append]

theorem mkProductsOuter_fill (fr : fr_t) : ∀ (i : Nat), mkProductsOuter fr false i =
    (prodRuns fr.maxInt fr.maxSum i fr.minInt).foldl
      (fun s e => (s.1.set s.2.2 e, s.2.1, s.2.2 + 1)) (fr.rows, 0, 0) := by
  intro i
  induction i with
  | zero => rfl
  | succ i ih =>
    rw [mkProductsOuter]
    rw [mkProductsInner_fill, ih, prodRuns_succ, List.foldl_append]

/-- Writing the entries of `l` one by one from index `pre.length` on. -/
theorem foldl_set_append (u : Nat) : ∀ (l pre rest : List num_t), l.length ≤ rest.length →
    l.foldl (fun (s : List num_t × Nat × Nat) e => (s.1.set s.2.2 e, s.2.1, s.2.2 + 1))
        (pre ++ rest, u, pre.length) =
      (pre ++ l ++ rest.drop l.length, u, pre.length + l.length) := by
  intro l
  induction l with
  | nil => intro pre rest _; simp
  | cons e l ih =>
    intro pre rest hl
    cases rest with
    | nil => simp at hl
    | cons r rest =>
      simp only [List.foldl_cons, List.length_cons] at hl ⊢
      have e1 : (pre ++ r :: rest).set pre.length e = (pre ++ [e]) ++ rest := by
        simp
      have e2 : pre.length + 1 = (pre ++ [e]).length := by simp
      rw [e1, e2, ih (pre ++ [e]) rest (by omega)]
      simp
      omega

/-- The counting call of `mkProducts` gives the length of `prodList`. -/
theorem mkProducts_count (fr : fr_t) (hmax : fr.maxInt = fr.maxSum - fr.minInt) :
    (mkProducts fr true).2 = (prodList fr.minInt fr.maxSum).length := by
  unfold mkProducts prodList
  simp only [if_true]
  rw [mkProductsOuter_count, hmax]

/-- The filling call of `mkProducts` leaves the list `prodList` in `rows` and gives
its length. -/
theorem mkProducts_fill (fr : fr_t) (hmax : fr.maxInt = fr.maxSum - fr.minInt)
    (hrows : fr.rows = List.replicate (prodList fr.minInt fr.maxSum).length num_t.zero) :
    (mkProducts fr false).1.rows = prodList fr.minInt fr.maxSum ∧
      (mkProducts fr false).2 = (prodList fr.minInt fr.maxSum).length := by
  unfold mkProducts
  simp only [Bool.false_eq_true, if_false]
  rw [mkProductsOuter_fill]
  have h2 : prodRuns fr.maxInt fr.maxSum (fr.maxInt - fr.minInt + 1).toNat fr.minInt =
      prodList fr.minInt fr.maxSum := by
    unfold prodList
    rw [hmax]
  rw [h2, hrows]
  have h3 := foldl_set_append 0 (prodList fr.minInt fr.maxSum) []
    (List.replicate (prodList fr.minInt fr.maxSum).length num_t.zero) (by simp)
  simp only [List.nil_append, List.length_nil, Nat.zero_add] at h3
  rw [h3]
  simp

theorem qsort_all (l : List num_t) : qsort l l.length = sortRuns numLe l := by
  unfold qsort
  rw [List.take_length, List.drop_length, List.append_nil, cmpLe_eq_numLe]

/-- When `fastDedup` gives a header for the sorted `prodList`, `init` succeeds and
leaves that header in the first `nRows` entries of `rows`. -/
theorem init_of_fastDedup (minInt maxSum : Int) (heap : Nat → num_t) (d : List num_t)
    (tf : Nat) (hmin : 0 < minInt) (hmax : minInt + minInt < maxSum)
    (h : fastDedup (sortRuns numLe (prodList minInt maxSum)) = some (d, tf)) :
    ∃ fr, init minInt maxSum heap = some fr ∧ fr.nRows = d.length ∧
      ∃ stale, fr.rows = d ++ stale := by
  unfold init
  rw [if_neg (by omega),
    if_neg (by have := wrapInt_le (minInt + minInt) (by omega); omega)]
  refine ⟨_, rfl, ?_⟩
  simp only [mkMatrix_nRows, mkMatrix_rows]
  generalize hfr1 : mkSums ⟨minInt, maxSum - minInt, minInt + minInt, maxSum,
    (maxSum - (minInt + minInt) + 1).toNat, 0,
    List.replicate (maxSum - (minInt + minInt) + 1).toNat num_t.zero, [], []⟩ = fr1
  have f1 : fr1.minInt = minInt := by rw [← hfr1]; rfl
  have f2 : fr1.maxInt = maxSum - minInt := by rw [← hfr1]; rfl
  have f3 : fr1.maxSum = maxSum := by rw [← hfr1]; rfl
  have hc := mkProducts_count fr1 (by rw [f2, f3, f1])
  rw [f1, f3] at hc
  rw [hc]
  generalize hfr2 : (⟨fr1.minInt, fr1.maxInt, fr1.minSum, fr1.maxSum, fr1.nCols,
    (prodList minInt maxSum).length, fr1.cols,
    List.replicate (prodList minInt maxSum).length num_t.zero, fr1.matrix⟩ : fr_t) = fr2
  have g1 : fr2.minInt = minInt := by rw [← hfr2]; exact f1
  have g2 : fr2.maxInt = maxSum - minInt := by rw [← hfr2]; exact f2
  have g3 : fr2.maxSum = maxSum := by rw [← hfr2]; exact f3
  have g4 : fr2.rows = List.replicate (prodList minInt maxSum).length num_t.zero := by
    rw [← hfr2]
  have hf := mkProducts_fill fr2 (by rw [g2, g3, g1]) (by rw [g1, g3]; exact g4)
  rw [g1, g3] at hf
  unfold rmDupProducts
  simp only [hf.1, hf.2, qsort_all]
  obtain ⟨stale, hs⟩ := rmDupProductsOuter_fastDedup heap _ d tf h
  rw [length_sortRuns] at hs
  rw [hs]
  exact ⟨rfl, stale, rfl⟩

/-! ### The bit masks as sets -/

theorem testBit_one_shiftLeft (q p : Nat) : (1 <<< q).testBit p = decide (q = p) := by
  rw [Nat.one_shiftLeft, Nat.testBit_two_pow]

theorem testBit_pairMaskLoop (s p : Nat) : ∀ (j : Nat),
    ((pairMaskLoop s j).testBit p = true ↔ ∃ i, i < j ∧ (2 + i) * (s - (2 + i)) = p) := by
  intro j
  induction j with
  | zero => simp [pairMaskLoop]
  | succ j ih =>
    simp only [pairMaskLoop, Nat.testBit_or, Bool.or_eq_true, ih, testBit_one_shiftLeft,
      decide_eq_true_eq]
    constructor
    · rintro (⟨i, hi, he⟩ | he)
      · exact ⟨i, by omega, he⟩
      · exact ⟨j, by omega, he⟩
    · rintro ⟨i, hi, he⟩
      by_cases hij : i = j
      · right; rw [← hij]; exact he
      · left; exact ⟨i, by omega, he⟩

theorem testBit_pairMask (s p : Nat) :
    ((pairMask s).testBit p = true ↔ ∃ a b : Nat, 2 ≤ a ∧ a ≤ b ∧ a + b = s ∧ a * b = p) := by
  unfold pairMask
  rw [testBit_pairMaskLoop]
  constructor
  · rintro ⟨i, hi, he⟩
    exact ⟨2 + i, s - (2 + i), by omega, by omega, by omega, he⟩
  · rintro ⟨a, b, ha, hab, hs, he⟩
    refine ⟨a - 2, by omega, ?_⟩
    have e1 : 2 + (a - 2) = a := by omega
    have e2 : s - a = b := by omega
    rw [e1, e2]
    exact he

theorem testBit_numMaskAcc (p : Nat) : ∀ (l : List num_t) (acc : Nat),
    ((numMaskAcc l acc).testBit p = true ↔
      (acc.testBit p = true ∨ ∃ e ∈ l, e.num.toNat = p)) := by
  intro l
  induction l with
  | nil => intro acc; simp [numMaskAcc]
  | cons x r ih =>
    intro acc
    simp only [numMaskAcc, force_eq, ih, Nat.testBit_or, Bool.or_eq_true, testBit_one_shiftLeft,
      decide_eq_true_eq, List.mem_cons, exists_eq_or_imp]
    tauto

theorem testBit_numMask (p : Nat) (l : List num_t) :
    ((numMask l).testBit p = true ↔ ∃ e ∈ l, e.num.toNat = p) := by
  unfold numMask
  rw [testBit_numMaskAcc]
  simp

theorem colSets_eq (minSum dmask : Nat) : ∀ (n c : Nat),
    colSets minSum dmask n c =
      (List.range n).map (fun i => (c + i, pairMask (minSum + (c + i)) &&& dmask)) := by
  intro n
  induction n with
  | zero => intro c; rfl
  | succ n ih =>
    intro c
    rw [colSets, force_eq, ih, List.range_succ_eq_map, List.map_cons, List.map_map]
    congr 1
    apply List.map_congr_left
    intro i _
    simp only [Function.comp, Nat.succ_eq_add_one]
    have e : c + 1 + i = c + (i + 1) := by omega
    rw [e]

theorem testBit_onceTwiceAcc (p : Nat) : ∀ (l : List (Nat × Nat)) (o t : Nat),
    (onceTwiceAcc l o t).1.testBit p =
        (o.testBit p || decide (1 ≤ (l.filter (fun cr => cr.2.testBit p)).length)) ∧
      (onceTwiceAcc l o t).2.testBit p =
        (t.testBit p ||
          (o.testBit p && decide (1 ≤ (l.filter (fun cr => cr.2.testBit p)).length)) ||
          decide (2 ≤ (l.filter (fun cr => cr.2.testBit p)).length)) := by
  intro l
  induction l with
  | nil => intro o t; simp [onceTwiceAcc]
  | cons r rest ih =>
    intro o t
    simp only [onceTwiceAcc, force_eq]
    rw [(ih _ _).1, (ih _ _).2]
    simp only [Nat.testBit_or, Nat.testBit_and, List.filter_cons]
    obtain ⟨n, hn⟩ : ∃ n, (rest.filter (fun cr => cr.2.testBit p)).length = n := ⟨_, rfl⟩
    cases hr : r.2.testBit p <;> cases ho : o.testBit p <;> cases ht : t.testBit p <;>
      (simp [hn]; try omega)

/-- The set `exactlyOnce l` holds the elements that lie in exactly one set of `l`. -/
theorem testBit_exactlyOnce (p : Nat) (l : List (Nat × Nat)) :
    ((exactlyOnce l).testBit p = true ↔ (l.filter (fun cr => cr.2.testBit p)).length = 1) := by
  unfold exactlyOnce
  have h1 := (testBit_onceTwiceAcc p l 0 0).1
  have h2 := (testBit_onceTwiceAcc p l 0 0).2
  rw [Nat.testBit_xor, h1, h2]
  simp only [Nat.zero_testBit, Bool.false_or, Bool.false_and]
  generalize (l.filter (fun cr => cr.2.testBit p)).length = n
  by_cases h1 : 1 ≤ n <;> by_cases h2 : 2 ≤ n <;> simp [h1, h2] <;> omega

theorem firstIn_some (x : Nat) : ∀ (d : List num_t) (e : num_t), firstIn x d = some e →
    e ∈ d ∧ x.testBit e.num.toNat = true := by
  intro d
  induction d with
  | nil => intro e h; simp [firstIn] at h
  | cons a r ih =>
    intro e h
    simp only [firstIn] at h
    split_ifs at h with ha
    · simp only [Option.some.injEq] at h
      rw [← h]
      exact ⟨List.mem_cons_self _ _, ha⟩
    · have := ih e h
      exact ⟨List.mem_cons_of_mem _ this.1, this.2⟩

/-- The check `isSingleton`, for a set of `num` values of a header without repeated
values: the answer says whether exactly one entry of the header lies in the set. -/
theorem isSingleton_spec (d : List num_t) (x : Nat) (b : Bool)
    (hnd : (d.map (fun e => e.num.toNat)).Nodup)
    (hsub : ∀ p, x.testBit p = true → ∃ e ∈ d, e.num.toNat = p)
    (h : isSingleton d x = some b) :
    (b = true ↔ (d.filter (fun e => x.testBit e.num.toNat)).length = 1) := by
  unfold isSingleton at h
  split_ifs at h with h0
  · simp only [Option.some.injEq] at h
    rw [← h, h0]
    simp
  · cases hf : firstIn x d with
    | none => rw [hf] at h; simp at h
    | some e =>
      rw [hf] at h
      simp only [Option.some.injEq] at h
      obtain ⟨hmem, hbit⟩ := firstIn_some x d e hf
      rw [← h, decide_eq_true_eq]
      constructor
      · intro hx
        rw [hx]
        have hc : (d.map (fun e => e.num.toNat)).count e.num.toNat = 1 :=
          List.count_eq_one_of_mem hnd (List.mem_map_of_mem _ hmem)
        rw [List.count, List.countP_map, List.countP_eq_length_filter] at hc
        refine Eq.trans ?_ hc
        congr 1
        apply List.filter_congr
        intro a _
        simp only [testBit_one_shiftLeft, Function.comp, beq_iff_eq]
        by_cases he : a.num.toNat = e.num.toNat
        · simp [he]
        · have he2 : ¬ e.num.toNat = a.num.toNat := fun hh => he hh.symm
          simp [he, he2]
      · intro hl
        by_contra hne
        have hex : ∃ q, x.testBit q ≠ (1 <<< e.num.toNat).testBit q := by
          by_contra hall
          push_neg at hall
          exact hne (Nat.eq_of_testBit_eq hall)
        obtain ⟨q, hq⟩ := hex
        rw [testBit_one_shiftLeft] at hq
        have hqe : e.num.toNat ≠ q := by
          intro hh
          rw [← hh, hbit] at hq
          simp at hq
        have hxq : x.testBit q = true := by
          simp only [hqe, decide_False] at hq
          simpa using hq
        obtain ⟨e2, hmem2, he2⟩ := hsub q hxq
        obtain ⟨z, hz⟩ := List.length_eq_one.1 hl
        have m1 : e ∈ d.filter (fun e => x.testBit e.num.toNat) :=
          List.mem_filter.2 ⟨hmem, hbit⟩
        have m2 : e2 ∈ d.filter (fun e => x.testBit e.num.toNat) :=
          List.mem_filter.2 ⟨hmem2, by rw [he2]; exact hxq⟩
        rw [hz, List.mem_singleton] at m1 m2
        rw [m1, ← m2] at hqe
        exact hqe he2

/-- Phase 3 on the sets keeps the columns whose set has exactly one live product. -/
theorem keepSingle_spec (d : List num_t) (live2 : Nat)
    (hnd : (d.map (fun e => e.num.toNat)).Nodup) :
    ∀ (l l3 : List (Nat × Nat)),
      (∀ cr ∈ l, ∀ p, cr.2.testBit p = true → ∃ e ∈ d, e.num.toNat = p) →
      keepSingle d live2 l = some l3 →
      l3 = l.filter (fun cr =>
        decide ((d.filter (fun e => (cr.2 &&& live2).testBit e.num.toNat)).length = 1)) := by
  intro l
  induction l with
  | nil => intro l3 _ h; simp only [keepSingle, Option.some.injEq] at h; rw [← h]; rfl
  | cons cr rest ih =>
    intro l3 hsub h
    simp only [keepSingle] at h
    cases hs : isSingleton d (cr.2 &&& live2) with
    | none => rw [hs] at h; simp at h
    | some b =>
      rw [hs] at h
      simp only at h
      cases hk : keepSingle d live2 rest with
      | none => rw [hk] at h; simp at h
      | some l =>
        rw [hk] at h
        simp only [Option.some.injEq] at h
        have hrest := ih l (fun c hc => hsub c (List.mem_cons_of_mem _ hc)) hk
        have hb := isSingleton_spec d (cr.2 &&& live2) b hnd (by
          intro p hp
          rw [Nat.testBit_and, Bool.and_eq_true] at hp
          exact hsub cr (List.mem_cons_self _ _) p hp.1) hs
        rw [List.filter_cons, ← h, ← hrest]
        cases b with
        | true =>
          have := hb.1 rfl
          rw [if_pos (decide_eq_true this)]
          rfl
        | false =>
          have : ¬ (d.filter (fun e => (cr.2 &&& live2).testBit e.num.toNat)).length = 1 := by
            intro hh
            have := hb.2 hh
            simp at this
          have hd : ¬ decide ((d.filter
              (fun e => (cr.2 &&& live2).testBit e.num.toNat)).length = 1) = true := by
            rw [decide_eq_true_eq]
            exact this
          rw [if_neg hd]
          rfl

/-! ### The phases on the bit masks -/

theorem filter_map_pair (cs : Nat → Nat) (q : Nat → Bool) (l : List Nat) :
    (l.map (fun c => (c, cs c))).filter (fun cr => q cr.2) =
      (l.filter (fun c => q (cs c))).map (fun c => (c, cs c)) := by
  rw [List.filter_map]
  rfl

theorem eq_zero_iff_testBit (x : Nat) : x = 0 ↔ ∀ p, x.testBit p = false := by
  constructor
  · intro h p; rw [h]; exact Nat.zero_testBit p
  · intro h
    apply Nat.eq_of_testBit_eq
    intro i
    rw [h i, Nat.zero_testBit]

theorem map_getD_range (d : List num_t) :
    (List.range d.length).map (fun r => d.getD r num_t.zero) = d := by
  rw [range_map_getD_eq_take _ _ _ (le_refl _), List.take_length]

theorem length_filter_range (d : List num_t) (q : num_t → Bool) :
    ((List.range d.length).filter (fun r => q (d.getD r num_t.zero))).length =
      (d.filter q).length := by
  conv_rhs => rw [← map_getD_range d, List.filter_map, List.length_map]
  rfl

theorem exists_index_of_mem (d : List num_t) (e : num_t) (h : e ∈ d) :
    ∃ r, r < d.length ∧ d.getD r num_t.zero = e := by
  obtain ⟨r, hr, he⟩ := List.getElem_of_mem h
  exact ⟨r, hr, by rw [List.getD_eq_getElem _ _ hr]; exact he⟩

theorem eq_singleton_of_length_of_mem {l : List Nat} (c : Nat) (hl : l.length = 1)
    (hc : c ∈ l) : l = [c] := by
  obtain ⟨z, hz⟩ := List.length_eq_one.1 hl
  rw [hz, List.mem_singleton] at hc
  rw [hz, hc]

theorem trueCols_masked (fr : fr_t) (d : List num_t) (minSum : Int) (cs : Nat → Nat)
    (h : maskedBy fr d minSum cs) (r : Nat) (hr : r < fr.nRows) :
    trueCols fr r =
      (List.range fr.nCols).filter (fun c => (cs c).testBit (d.getD r num_t.zero).num.toNat) := by
  unfold trueCols
  apply List.filter_congr
  intro c hc
  rw [List.mem_range] at hc
  have := h.cell_iff r c hr hc
  unfold countedCol
  rw [Bool.eq_iff_iff]
  simp [this]

theorem length_filter_setsOf (cs : Nat → Nat) (n p : Nat) :
    ((setsOf cs n).filter (fun cr => cr.2.testBit p)).length =
      ((List.range n).filter (fun c => (cs c).testBit p)).length := by
  unfold setsOf
  rw [filter_map_pair cs (fun x => x.testBit p), List.length_map]

/-- Phase 1 on the masks: a column stays live when its set holds no product that
lies in exactly one set. -/
theorem phase1_masked (fr : fr_t) (d : List num_t) (minSum : Int) (cs : Nat → Nat)
    (h : maskedBy fr d minSum cs) (c : Nat) (hc : c < fr.nCols) :
    (colLive (rmSumsWithUniqueProduct fr) c = true ↔
      (cs c &&& exactlyOnce (setsOf cs fr.nCols) == 0) = true) := by
  obtain ⟨cols1, h1, _, hl1⟩ := rmSumsWithUniqueProduct_spec fr
  have hcl : colLive (rmSumsWithUniqueProduct fr) c = (cols1.getD c num_t.zero).live := by
    rw [h1]; rfl
  rw [hcl, hl1 c, beq_iff_eq, eq_zero_iff_testBit]
  have hlv : colLive fr c = true := by
    unfold colLive
    rw [h.cols_eq c hc]
  have huniq : ∀ r, r < fr.nRows →
      ((exactlyOnce (setsOf cs fr.nCols)).testBit (d.getD r num_t.zero).num.toNat = true ↔
        (trueCols fr r).length = 1) := by
    intro r hr
    rw [testBit_exactlyOnce, length_filter_setsOf, trueCols_masked fr d minSum cs h r hr]
  constructor
  · rintro ⟨_, hno⟩ p
    by_contra hp
    rw [Bool.not_eq_false, Nat.testBit_and, Bool.and_eq_true] at hp
    obtain ⟨e, he, hep⟩ := h.sub c p hp.1
    obtain ⟨r, hr, hre⟩ := exists_index_of_mem d e he
    have hr2 : r < fr.nRows := by rw [h.nRows_eq]; exact hr
    rw [← hep, ← hre] at hp
    have hlen := (huniq r hr2).1 hp.2
    have hmem : c ∈ trueCols fr r := by
      rw [trueCols_masked fr d minSum cs h r hr2, List.mem_filter, List.mem_range]
      exact ⟨hc, hp.1⟩
    exact hno ⟨r, hr2, eq_singleton_of_length_of_mem c hlen hmem⟩
  · intro hz
    refine ⟨hlv, ?_⟩
    rintro ⟨r, hr, ht⟩
    have hlen : (trueCols fr r).length = 1 := by rw [ht]; rfl
    have hmem : c ∈ trueCols fr r := by rw [ht]; exact List.mem_singleton_self c
    rw [trueCols_masked fr d minSum cs h r hr, List.mem_filter] at hmem
    have hb := hz (d.getD r num_t.zero).num.toNat
    rw [Nat.testBit_and, hmem.2, (huniq r hr).2 hlen] at hb
    simp at hb

theorem filter_filter_setsOf (cs : Nat → Nat) (n p : Nat) (q : Nat → Bool) :
    ((setsOf cs n).filter (fun cr => q cr.2)).filter (fun cr => cr.2.testBit p) =
      ((List.range n).filter (fun c => (cs c).testBit p && q (cs c))).map
        (fun c => (c, cs c)) := by
  unfold setsOf
  rw [filter_map_pair cs q, filter_map_pair cs (fun x => x.testBit p), List.filter_filter]

theorem rowLive_masked (fr : fr_t) (d : List num_t) (minSum : Int) (cs : Nat → Nat)
    (h : maskedBy fr d minSum cs) (r : Nat) (hr : r < fr.nRows) : rowLive fr r = true := by
  unfold rowLive
  have hr2 : r < d.length := by rw [← h.nRows_eq]; exact hr
  rw [h.rows_eq r hr2]
  apply h.live
  rw [List.getD_eq_getElem _ _ hr2]
  exact List.getElem_mem hr2

/-- Phase 2 on the masks: a product stays live when it lies in the set of exactly one
column that is live after Phase 1. -/
theorem phase2_masked (fr : fr_t) (d : List num_t) (minSum : Int) (cs : Nat → Nat)
    (h : maskedBy fr d minSum cs) (r : Nat) (hr : r < fr.nRows) :
    (rowLive (rmProductsWithMultipleSums (rmSumsWithUniqueProduct fr)) r = true ↔
      (live2Of cs fr.nCols).testBit (d.getD r num_t.zero).num.toNat = true) := by
  have hp1 := phase1_masked fr d minSum cs h
  obtain ⟨cols1, h1, _, _⟩ := rmSumsWithUniqueProduct_spec fr
  obtain ⟨rows2, h2, _, hl2⟩ := rmProductsWithMultipleSums_spec (rmSumsWithUniqueProduct fr)
  have hrl : rowLive (rmProductsWithMultipleSums (rmSumsWithUniqueProduct fr)) r =
      (rows2.getD r num_t.zero).live := by
    rw [h2]; rfl
  rw [hrl, hl2 r]
  have hn : (rmSumsWithUniqueProduct fr).nRows = fr.nRows := by rw [h1]
  have hnc : (rmSumsWithUniqueProduct fr).nCols = fr.nCols := by rw [h1]
  have hm : (rmSumsWithUniqueProduct fr).matrix = fr.matrix := by rw [h1]
  have hrw : rowLive (rmSumsWithUniqueProduct fr) r = rowLive fr r := by rw [h1]; rfl
  rw [hrw, rowLive_masked fr d minSum cs h r hr, hn]
  have hlen : (liveTrueCols (rmSumsWithUniqueProduct fr) r).length =
      ((sets1Of cs fr.nCols).filter
        (fun cr => cr.2.testBit (d.getD r num_t.zero).num.toNat)).length := by
    unfold sets1Of
    rw [filter_filter_setsOf cs fr.nCols _ (fun x => x &&& exactlyOnce (setsOf cs fr.nCols) == 0),
      List.length_map]
    unfold liveTrueCols
    rw [hnc]
    congr 1
    apply List.filter_congr
    intro c hc
    rw [List.mem_range] at hc
    have hcell : cell (rmSumsWithUniqueProduct fr) r c = cell fr r c := by
      unfold cell; rw [hm, hnc]
    unfold countedCol
    rw [hcell, Bool.eq_iff_iff]
    have := h.cell_iff r c hr hc
    have := hp1 c hc
    simp only [Bool.not_true, Bool.false_or, Bool.and_eq_true, decide_eq_true_eq]
    tauto
  unfold live2Of
  rw [testBit_exactlyOnce, ← hlen]
  simp [hr]

/-- Phase 3 on the masks: a column that is live after Phase 1 stays live when its set
holds exactly one product that is live after Phase 2. -/
theorem phase3_masked (fr : fr_t) (d : List num_t) (minSum : Int) (cs : Nat → Nat)
    (h : maskedBy fr d minSum cs) (c : Nat) (hc : c < fr.nCols) :
    (colLive (eliminate fr) c = true ↔
      ((cs c &&& exactlyOnce (setsOf cs fr.nCols) == 0) = true ∧
        oneLive d (live2Of cs fr.nCols) (cs c) = true)) := by
  have hp1 := phase1_masked fr d minSum cs h c hc
  have hp2 := phase2_masked fr d minSum cs h
  obtain ⟨cols1, h1, _, _⟩ := rmSumsWithUniqueProduct_spec fr
  obtain ⟨rows2, h2, _, _⟩ := rmProductsWithMultipleSums_spec (rmSumsWithUniqueProduct fr)
  obtain ⟨cols3, h3, _, hl3⟩ := rmSumsWithMultipleProducts_spec
    (rmProductsWithMultipleSums (rmSumsWithUniqueProduct fr))
  have hcl : colLive (eliminate fr) c = (cols3.getD c num_t.zero).live := by
    unfold eliminate
    rw [h3]; rfl
  have hn : (rmProductsWithMultipleSums (rmSumsWithUniqueProduct fr)).nRows = fr.nRows := by
    rw [h2, h1]
  have hnc : (rmProductsWithMultipleSums (rmSumsWithUniqueProduct fr)).nCols = fr.nCols := by
    rw [h2, h1]
  have hm : (rmProductsWithMultipleSums (rmSumsWithUniqueProduct fr)).matrix = fr.matrix := by
    rw [h2, h1]
  have hcw : colLive (rmProductsWithMultipleSums (rmSumsWithUniqueProduct fr)) c =
      colLive (rmSumsWithUniqueProduct fr) c := by
    rw [h2]; rfl
  rw [hcl, hl3 c, hcw, hp1, hnc]
  have hlen : (liveTrueRows (rmProductsWithMultipleSums (rmSumsWithUniqueProduct fr)) c).length =
      (d.filter (fun e => (cs c &&& live2Of cs fr.nCols).testBit e.num.toNat)).length := by
    rw [← length_filter_range d (fun e => (cs c &&& live2Of cs fr.nCols).testBit e.num.toNat)]
    unfold liveTrueRows
    rw [hn, h.nRows_eq]
    congr 1
    apply List.filter_congr
    intro r hr
    rw [List.mem_range, ← h.nRows_eq] at hr
    have hcell : cell (rmProductsWithMultipleSums (rmSumsWithUniqueProduct fr)) r c =
        cell fr r c := by
      unfold cell; rw [hm, hnc]
    rw [hcell, Bool.eq_iff_iff]
    have := h.cell_iff r c hr hc
    have := hp2 r hr
    simp only [Bool.and_eq_true, decide_eq_true_eq, Nat.testBit_and]
    tauto
  unfold oneLive
  rw [hlen, decide_eq_true_eq]
  simp [hc]

theorem map_filter_eq_filterMap {α β : Type} (P : α → Bool) (L : α → β) : ∀ (l : List α),
    (l.filter P).map L = l.filterMap (fun r => if P r then some (L r) else none) := by
  intro l
  induction l with
  | nil => rfl
  | cons a r ih =>
    rw [List.filter_cons, List.filterMap_cons]
    cases hP : P a
    · simp only [Bool.false_eq_true, if_false]
      exact ih
    · simp only [if_true, List.map_cons]
      rw [ih]

theorem num_getD_of_map_eq (l1 l2 : List num_t)
    (h : l1.map (fun e => e.num) = l2.map (fun e => e.num)) (i : Nat) :
    (l1.getD i num_t.zero).num = (l2.getD i num_t.zero).num := by
  have e1 : (l1.getD i num_t.zero).num = (l1.map (fun e => e.num)).getD i 0 := by
    rw [List.getD_eq_getElem?_getD, List.getD_eq_getElem?_getD, List.getElem?_map]
    cases l1[i]? <;> rfl
  have e2 : (l2.getD i num_t.zero).num = (l2.map (fun e => e.num)).getD i 0 := by
    rw [List.getD_eq_getElem?_getD, List.getD_eq_getElem?_getD, List.getElem?_map]
    cases l2[i]? <;> rfl
  rw [e1, e2, h]

/-- The values of the state after the three phases: the counts, the bound `minInt`,
the matrix and every `num` are those of the state before. -/
theorem eliminate_values (fr : fr_t) :
    (eliminate fr).nRows = fr.nRows ∧ (eliminate fr).nCols = fr.nCols ∧
      (eliminate fr).minInt = fr.minInt ∧ (eliminate fr).matrix = fr.matrix ∧
      (∀ i, ((eliminate fr).rows.getD i num_t.zero).num = (fr.rows.getD i num_t.zero).num) ∧
      (∀ i, ((eliminate fr).cols.getD i num_t.zero).num = (fr.cols.getD i num_t.zero).num) ∧
      (∀ i, rowLive (eliminate fr) i =
        rowLive (rmProductsWithMultipleSums (rmSumsWithUniqueProduct fr)) i) := by
  obtain ⟨cols1, h1, hn1, _⟩ := rmSumsWithUniqueProduct_spec fr
  obtain ⟨rows2, h2, hn2, _⟩ := rmProductsWithMultipleSums_spec (rmSumsWithUniqueProduct fr)
  obtain ⟨cols3, h3, hn3, _⟩ := rmSumsWithMultipleProducts_spec
    (rmProductsWithMultipleSums (rmSumsWithUniqueProduct fr))
  have hr2 : rows2.map (fun e => e.num) = fr.rows.map (fun e => e.num) := by
    rw [hn2, h1]
  have hc3 : cols3.map (fun e => e.num) = fr.cols.map (fun e => e.num) := by
    rw [hn3, h2]
    show List.map (fun e => e.num) (rmSumsWithUniqueProduct fr).cols = _
    rw [h1]
    exact hn1
  unfold eliminate
  refine ⟨by rw [h3, h2, h1], by rw [h3, h2, h1], by rw [h3, h2, h1], by rw [h3, h2, h1],
    ?_, ?_, ?_⟩
  · intro i
    rw [h3]
    show ((rmProductsWithMultipleSums (rmSumsWithUniqueProduct fr)).rows.getD i num_t.zero).num = _
    rw [h2]
    exact num_getD_of_map_eq _ _ hr2 i
  · intro i
    rw [h3]
    exact num_getD_of_map_eq _ _ hc3 i
  · intro i
    rw [h3]
    rfl

theorem liveTrueCols_eliminate_masked (fr : fr_t) (d : List num_t) (minSum : Int)
    (cs : Nat → Nat) (h : maskedBy fr d minSum cs) (r : Nat) (hr : r < fr.nRows) :
    liveTrueCols (eliminate fr) r =
      (List.range fr.nCols).filter (fun c =>
        (cs c).testBit (d.getD r num_t.zero).num.toNat &&
          (oneLive d (live2Of cs fr.nCols) (cs c) &&
            (cs c &&& exactlyOnce (setsOf cs fr.nCols) == 0))) := by
  obtain ⟨_, hnc, _, hm, _, _, _⟩ := eliminate_values fr
  unfold liveTrueCols
  rw [hnc]
  apply List.filter_congr
  intro c hc
  rw [List.mem_range] at hc
  have hcell : cell (eliminate fr) r c = cell fr r c := by
    unfold cell; rw [hm, hnc]
  unfold countedCol
  rw [hcell, Bool.eq_iff_iff]
  have := h.cell_iff r c hr hc
  have := phase3_masked fr d minSum cs h c hc
  simp only [Bool.not_true, Bool.false_or, Bool.and_eq_true, decide_eq_true_eq]
  tauto

theorem mem_setsOf (cs : Nat → Nat) (n : Nat) (cr : Nat × Nat) (h : cr ∈ setsOf cs n) :
    cr.2 = cs cr.1 := by
  unfold setsOf at h
  rw [List.mem_map] at h
  obtain ⟨c, _, he⟩ := h
  rw [← he]

/-- The answer lines after the three phases, read off the masks. -/
theorem printAnswers_masked (fr : fr_t) (d : List num_t) (minInt minSum : Int)
    (cs : Nat → Nat) (h : maskedBy fr d minSum cs) (hmin : fr.minInt = minInt)
    (sets3 : List (Nat × Nat))
    (hk : keepSingle d (live2Of cs fr.nCols) (sets1Of cs fr.nCols) = some sets3) :
    printAnswers (eliminate fr) = maskAnswers minInt minSum sets3 (live2Of cs fr.nCols) d := by
  obtain ⟨hnr, hnc, hmi, _, hrn, hcn, hrl⟩ := eliminate_values fr
  have hs3 := keepSingle_spec d (live2Of cs fr.nCols) h.nodup (sets1Of cs fr.nCols) sets3 (by
    intro cr hcr p hp
    have hmem : cr ∈ setsOf cs fr.nCols := (List.mem_filter.1 hcr).1
    rw [mem_setsOf cs fr.nCols cr hmem] at hp
    exact h.sub cr.1 p hp) hk
  have hs3f : ∀ r, r < fr.nRows →
      sets3.filter (fun cr => cr.2.testBit (d.getD r num_t.zero).num.toNat) =
        (liveTrueCols (eliminate fr) r).map (fun c => (c, cs c)) := by
    intro r hr
    have hs3b : sets3 = (setsOf cs fr.nCols).filter (fun cr =>
        oneLive d (live2Of cs fr.nCols) cr.2 &&
          (cr.2 &&& exactlyOnce (setsOf cs fr.nCols) == 0)) := by
      rw [hs3]
      unfold sets1Of
      rw [List.filter_filter]
      rfl
    rw [liveTrueCols_eliminate_masked fr d minSum cs h r hr, hs3b]
    exact filter_filter_setsOf cs fr.nCols _
      (fun x => oneLive d (live2Of cs fr.nCols) x && (x &&& exactlyOnce (setsOf cs fr.nCols) == 0))
  rw [printAnswers_eq]
  unfold answerCells maskAnswers
  rw [List.map_map, map_filter_eq_filterMap, hnr, h.nRows_eq]
  conv_rhs => rw [← map_getD_range d, List.filterMap_map]
  apply List.filterMap_congr
  intro r hr
  rw [List.mem_range, ← h.nRows_eq] at hr
  have hr2 : r < d.length := by rw [← h.nRows_eq]; exact hr
  simp only [Function.comp]
  unfold maskAnswer isAnswerRow
  rw [hs3f r hr, hrl r]
  have hp2 := phase2_masked fr d minSum cs h r hr
  cases hb : (live2Of cs fr.nCols).testBit (d.getD r num_t.zero).num.toNat with
  | false =>
    have : rowLive (rmProductsWithMultipleSums (rmSumsWithUniqueProduct fr)) r = false := by
      rw [← Bool.not_eq_true]
      intro hh
      rw [hp2.1 hh] at hb
      exact Bool.noConfusion hb
    rw [this]
    simp
  | true =>
    rw [hp2.2 hb]
    simp only [Bool.true_and, decide_eq_true_eq, if_true]
    cases hl : liveTrueCols (eliminate fr) r with
    | nil => simp
    | cons c rest =>
      cases rest with
      | cons c2 rest2 => simp
      | nil =>
        have hc : c < fr.nCols := by
          have : c ∈ liveTrueCols (eliminate fr) r := by rw [hl]; exact List.mem_singleton_self c
          have := (mem_liveTrueCols _ _ _).1 this
          rw [← hnc]
          exact this.1
        simp only [List.length_singleton, if_true, List.map_cons, List.map_nil, List.headD_cons]
        unfold answerLine getXY
        rw [hrn r, hcn c, h.rows_eq r hr2, h.cols_eq c hc, hmi, hmin]

theorem isCleanHeader_spec : ∀ (d : List num_t), isCleanHeader d = true →
    (∀ e ∈ d, e.live = true ∧ 0 < e.num) ∧ d.Pairwise (fun a b => a.num < b.num) := by
  intro d
  induction d with
  | nil => intro _; exact ⟨by simp, List.Pairwise.nil⟩
  | cons x r ih =>
    intro h
    cases r with
    | nil =>
      simp only [isCleanHeader, Bool.and_eq_true, decide_eq_true_eq] at h
      refine ⟨?_, by simp⟩
      intro e he
      rw [List.mem_singleton] at he
      rw [he]
      exact h
    | cons y r2 =>
      simp only [isCleanHeader, Bool.and_eq_true, decide_eq_true_eq] at h
      obtain ⟨⟨⟨h1, h2⟩, h3⟩, h4⟩ := h
      obtain ⟨ha, hp⟩ := ih h4
      refine ⟨?_, ?_⟩
      · intro e he
        rcases List.mem_cons.1 he with rfl | he
        · exact ⟨h1, h2⟩
        · exact ha e he
      · rw [List.pairwise_cons]
        refine ⟨?_, hp⟩
        intro b hb
        rcases List.mem_cons.1 hb with rfl | hb
        · exact h3
        · have := (List.pairwise_cons.1 hp).1 b hb
          omega

theorem nodup_of_isCleanHeader (d : List num_t) (h : isCleanHeader d = true) :
    (d.map (fun e => e.num.toNat)).Nodup := by
  obtain ⟨ha, hp⟩ := isCleanHeader_spec d h
  unfold List.Nodup
  rw [List.pairwise_map]
  apply List.Pairwise.imp_of_mem _ hp
  intro a b hma _ hab
  have := (ha a hma).2
  omega

/-- A bit of the mask of a column: the product is in the header and is `a * b` for
some `2 <= a <= b` with the sum of the column. -/
theorem pair_int_iff_nat (p s : Int) (hp : 0 < p) (hs : 0 ≤ s) :
    (∃ a b : Int, 2 ≤ a ∧ a ≤ b ∧ a * b = p ∧ a + b = s) ↔
      ∃ a b : Nat, 2 ≤ a ∧ a ≤ b ∧ a + b = s.toNat ∧ a * b = p.toNat := by
  constructor
  · rintro ⟨a, b, ha, hab, hm, hsum⟩
    refine ⟨a.toNat, b.toNat, by omega, by omega, by omega, ?_⟩
    have e1 : ((a.toNat * b.toNat : Nat) : Int) = (p.toNat : Int) := by
      rw [Nat.cast_mul, Int.toNat_of_nonneg (by omega), Int.toNat_of_nonneg (by omega),
        Int.toNat_of_nonneg (by omega)]
      exact hm
    exact_mod_cast e1
  · rintro ⟨a, b, ha, hab, hsum, hm⟩
    refine ⟨a, b, by omega, by omega, ?_, by omega⟩
    have e1 : ((a * b : Nat) : Int) = (p.toNat : Int) := by rw [hm]
    rw [Int.toNat_of_nonneg (by omega)] at e1
    rw [← e1]
    push_cast
    rfl

/-- The state that `init` leaves is seen through the masks `pairMask` of the sums,
cut down to the products of the header. -/
theorem maskedBy_init (minInt maxSum : Int) (heap : Nat → num_t) (fr : fr_t)
    (d stale : List num_t) (hinit : init minInt maxSum heap = some fr)
    (hn : fr.nRows = d.length) (hrows : fr.rows = d ++ stale)
    (hclean : isCleanHeader d = true) :
    maskedBy fr d (minInt + minInt)
      (fun c => pairMask ((minInt + minInt).toNat + c) &&& numMask d) := by
  obtain ⟨hcols, hnc, _⟩ := init_cols minInt maxSum heap fr hinit
  obtain ⟨_, _, _, _, _, _, hmin, _⟩ := init_some_form minInt maxSum heap fr hinit
  obtain ⟨ha, _⟩ := isCleanHeader_spec d hclean
  have hrow : ∀ r, r < d.length → fr.rows.getD r num_t.zero = d.getD r num_t.zero := by
    intro r hr
    rw [hrows, List.getD_append _ _ _ _ hr]
  have hcol : ∀ c, c < fr.nCols →
      fr.cols.getD c num_t.zero = ⟨minInt + minInt + (c : Int), true⟩ := by
    intro c hc
    rw [hcols]
    exact getD_initCols minInt maxSum c (by rw [← hnc]; exact hc)
  refine ⟨hn, hrow, hcol, fun e he => (ha e he).1, nodup_of_isCleanHeader d hclean, ?_, ?_⟩
  · intro c p hp
    rw [Nat.testBit_and, Bool.and_eq_true] at hp
    exact (testBit_numMask p d).1 hp.2
  · intro r c hr hc
    have hr2 : r < d.length := by rw [← hn]; exact hr
    have hmem : d.getD r num_t.zero ∈ d := by
      rw [List.getD_eq_getElem _ _ hr2]
      exact List.getElem_mem hr2
    have hpos := (ha _ hmem).2
    rw [cell_init_iff minInt maxSum heap fr hinit r c hr hc, divisor_pair_iff, hrow r hr2,
      hcol c hc, Nat.testBit_and, Bool.and_eq_true, testBit_pairMask, testBit_numMask]
    simp only []
    rw [pair_int_iff_nat _ _ hpos (by omega)]
    have e : (minInt + minInt + (c : Int)).toNat = (minInt + minInt).toNat + c := by omega
    rw [e]
    constructor
    · intro h1
      exact ⟨h1, d.getD r num_t.zero, hmem, rfl⟩
    · intro h1
      exact h1.1

/-- When the fast path gives a list of answers, `main` prints that list, whatever
lies in memory after the `rows` array. -/
theorem main_eq_of_fastMain (minInt maxSum : Int) (l : List (Int × Int × Int × Int))
    (h : fastMain minInt maxSum = some l) (heap : Nat → num_t) :
    main minInt maxSum heap = some l := by
  unfold fastMain at h
  split_ifs at h with h1 h2
  cases hd : fastDedup (sortRuns numLe (prodList minInt maxSum)) with
  | none => rw [hd] at h; simp at h
  | some q =>
    obtain ⟨d, tf⟩ := q
    rw [hd] at h
    simp only at h
    obtain ⟨fr, hinit, hn, stale, hrows⟩ :=
      init_of_fastDedup minInt maxSum heap d tf (by omega) (by omega) hd
    obtain ⟨_, hnc, hmi⟩ := init_cols minInt maxSum heap fr hinit
    unfold fastAnswers at h
    split_ifs at h with hclean
    simp only [force_eq, colSets_eq, Nat.zero_add] at h
    have hm := maskedBy_init minInt maxSum heap fr d stale hinit hn hrows hclean
    rw [← hnc] at h
    cases hk : keepSingle d
        (live2Of (fun c => pairMask ((minInt + minInt).toNat + c) &&& numMask d) fr.nCols)
        (sets1Of (fun c => pairMask ((minInt + minInt).toNat + c) &&& numMask d) fr.nCols) with
    | none =>
      exfalso
      unfold live2Of sets1Of setsOf at hk
      rw [hk] at h
      simp at h
    | some sets3 =>
      have hk2 := hk
      unfold live2Of sets1Of setsOf at hk2
      rw [hk2] at h
      simp only [Option.some.injEq] at h
      unfold main
      rw [hinit, Option.map_some', printAnswers_masked fr d minInt (minInt + minInt) _ hm hmi
        sets3 hk]
      rw [← h]
      rfl

/-! ## The stand-in for `qsort` sorts -/

theorem perm_mergeRuns (le : num_t → num_t → Bool) : ∀ (xs ys : List num_t),
    (mergeRuns le xs ys).Perm (xs ++ ys) := by
  intro xs
  induction xs with
  | nil => intro ys; simp [mergeRuns]
  | cons x xs ih =>
    intro ys
    simp only [mergeRuns]
    induction ys with
    | nil => simp [mergeInto]
    | cons y ys ihy =>
      simp only [mergeInto]
      split_ifs
      · exact List.Perm.cons x (ih (y :: ys))
      · exact (List.Perm.cons y ihy).trans List.perm_middle.symm

theorem perm_flatten_mergePairs (le : num_t → num_t → Bool) : ∀ (n : Nat)
    (l : List (List num_t)), l.length ≤ n → (mergePairs le l).flatten.Perm l.flatten := by
  intro n
  induction n using Nat.strong_induction_on with
  | _ n ih =>
    intro l hl
    match l, hl with
    | [], _ => exact List.Perm.refl _
    | [a], _ => exact List.Perm.refl _
    | a :: b :: rest, hl =>
      simp only [mergePairs, List.flatten_cons]
      simp only [List.length_cons] at hl
      rw [← List.append_assoc]
      exact List.Perm.append (perm_mergeRuns le a b) (ih rest.length (by omega) rest (le_refl _))

theorem perm_mergeAll (le : num_t → num_t → Bool) : ∀ (fuel : Nat) (l : List (List num_t)),
    (mergeAll le fuel l).Perm l.flatten := by
  intro fuel
  induction fuel with
  | zero => intro l; exact List.Perm.refl _
  | succ fuel ih =>
    intro l
    match l with
    | [] => exact List.Perm.refl _
    | [a] => simp [mergeAll]
    | a :: b :: rest =>
      simp only [mergeAll]
      exact (ih _).trans (perm_flatten_mergePairs le _ _ (le_refl _))

theorem perm_sortRuns (le : num_t → num_t → Bool) (l : List num_t) :
    (sortRuns le l).Perm l := by
  unfold sortRuns
  have := perm_mergeAll le l.length (splitRuns le l)
  rwa [flatten_splitRuns] at this

theorem pairwise_mergeRuns : ∀ (xs ys : List num_t),
    xs.Pairwise (fun a b => a.num ≤ b.num) → ys.Pairwise (fun a b => a.num ≤ b.num) →
    (mergeRuns numLe xs ys).Pairwise (fun a b => a.num ≤ b.num) := by
  intro xs
  induction xs with
  | nil => intro ys _ hy; simpa [mergeRuns] using hy
  | cons x xs ih =>
    intro ys hx hy
    have hmi : mergeRuns numLe (x :: xs) ys = mergeInto numLe x xs (mergeRuns numLe xs) ys := rfl
    rw [hmi]
    induction ys with
    | nil => simpa [mergeInto] using hx
    | cons y ys ihy =>
      simp only [mergeInto]
      rw [List.pairwise_cons] at hx hy
      split_ifs with hle
      · rw [numLe_iff] at hle
        rw [List.pairwise_cons]
        refine ⟨?_, ih (y :: ys) hx.2 (List.pairwise_cons.2 hy)⟩
        intro b hb
        rcases List.mem_append.1 ((perm_mergeRuns numLe xs (y :: ys)).mem_iff.1 hb) with hb | hb
        · exact hx.1 b hb
        · rcases List.mem_cons.1 hb with rfl | hb
          · exact hle
          · have := hy.1 b hb
            omega
      · have hlt : y.num < x.num := by
          rw [numLe_iff] at hle
          omega
        rw [List.pairwise_cons]
        refine ⟨?_, ihy hy.2 rfl⟩
        intro b hb
        have hb2 : b ∈ mergeRuns numLe (x :: xs) ys := hb
        rcases List.mem_append.1 ((perm_mergeRuns numLe (x :: xs) ys).mem_iff.1 hb2) with hb | hb
        · rcases List.mem_cons.1 hb with rfl | hb
          · omega
          · have := hx.1 b hb
            omega
        · exact hy.1 b hb

theorem pairwise_splitRuns : ∀ (l : List num_t), ∀ run ∈ splitRuns numLe l,
    run.Pairwise (fun a b => a.num ≤ b.num) := by
  intro l
  induction l with
  | nil => intro run h; simp [splitRuns] at h
  | cons x r ih =>
    intro run h
    simp only [splitRuns] at h
    cases hs : splitRuns numLe r with
    | nil =>
      rw [hs] at h
      simp only [List.mem_singleton] at h
      rw [h]
      simp
    | cons a rest =>
      rw [hs] at h ih
      cases a with
      | nil =>
        simp only [List.mem_cons] at h
        rcases h with rfl | h
        · simp
        · exact ih run (List.mem_cons_of_mem _ h)
      | cons y ys =>
        simp only at h
        have hrun := ih (y :: ys) (List.mem_cons_self _ _)
        split_ifs at h with hle
        · rcases List.mem_cons.1 h with rfl | h
          · rw [numLe_iff] at hle
            rw [List.pairwise_cons]
            refine ⟨?_, hrun⟩
            intro b hb
            rcases List.mem_cons.1 hb with rfl | hb
            · exact hle
            · have := (List.pairwise_cons.1 hrun).1 b hb
              omega
          · exact ih run (List.mem_cons_of_mem _ h)
        · rcases List.mem_cons.1 h with rfl | h
          · simp
          · exact ih run h

theorem length_splitRuns_le (le : num_t → num_t → Bool) : ∀ (l : List num_t),
    (splitRuns le l).length ≤ l.length := by
  intro l
  induction l with
  | nil => simp [splitRuns]
  | cons x r ih =>
    simp only [splitRuns]
    cases hs : splitRuns le r with
    | nil => simp
    | cons a rest =>
      rw [hs] at ih
      cases a with
      | nil => simp only [List.length_cons] at ih ⊢; omega
      | cons y ys =>
        simp only
        split_ifs
        · simp only [List.length_cons] at ih ⊢; omega
        · simp only [List.length_cons] at ih ⊢; omega

theorem mergePairs_spec : ∀ (n : Nat) (l : List (List num_t)), l.length ≤ n →
    (∀ run ∈ l, run.Pairwise (fun a b => a.num ≤ b.num)) →
    (mergePairs numLe l).length = (l.length + 1) / 2 ∧
      ∀ run ∈ mergePairs numLe l, run.Pairwise (fun a b => a.num ≤ b.num) := by
  intro n
  induction n using Nat.strong_induction_on with
  | _ n ih =>
    intro l hl hs
    match l, hl, hs with
    | [], _, _ => exact ⟨by simp [mergePairs], by simp [mergePairs]⟩
    | [a], _, hs => exact ⟨by simp [mergePairs], by simpa [mergePairs] using hs⟩
    | a :: b :: rest, hl, hs =>
      simp only [List.length_cons] at hl
      have := ih rest.length (by omega) rest (le_refl _)
        (fun run hr => hs run (List.mem_cons_of_mem _ (List.mem_cons_of_mem _ hr)))
      simp only [mergePairs, List.length_cons, this.1]
      refine ⟨by omega, ?_⟩
      intro run hr
      rcases List.mem_cons.1 hr with rfl | hr
      · exact pairwise_mergeRuns a b (hs a (List.mem_cons_self _ _))
          (hs b (List.mem_cons_of_mem _ (List.mem_cons_self _ _)))
      · exact this.2 run hr

theorem pairwise_mergeAll : ∀ (fuel : Nat) (l : List (List num_t)), l.length ≤ fuel + 1 →
    (∀ run ∈ l, run.Pairwise (fun a b => a.num ≤ b.num)) →
    (mergeAll numLe fuel l).Pairwise (fun a b => a.num ≤ b.num) := by
  intro fuel
  induction fuel with
  | zero =>
    intro l hl hs
    match l, hl, hs with
    | [], _, _ => simp [mergeAll]
    | [a], _, hs => simpa [mergeAll] using hs
  | succ fuel ih =>
    intro l hl hs
    match l, hl, hs with
    | [], _, _ => simp [mergeAll]
    | [a], _, hs => simpa [mergeAll] using hs
    | a :: b :: rest, hl, hs =>
      simp only [mergeAll]
      have := mergePairs_spec _ (a :: b :: rest) (le_refl _) hs
      simp only [List.length_cons] at hl this
      exact ih _ (by rw [this.1]; omega) this.2

/-- The stand-in for `qsort` does what `qsort` promises: the first `nmemb` entries are
rearranged into ascending `num` order and the others stay in place. -/
theorem qsort_spec (arr : List num_t) (nmemb : Nat) :
    ∃ s, qsort arr nmemb = s ++ arr.drop nmemb ∧ s.Perm (arr.take nmemb) ∧
      s.Pairwise (fun a b => a.num ≤ b.num) := by
  refine ⟨sortRuns cmpLe (arr.take nmemb), rfl, perm_sortRuns _ _, ?_⟩
  rw [cmpLe_eq_numLe]
  unfold sortRuns
  exact pairwise_mergeAll _ _ (by have := length_splitRuns_le numLe (arr.take nmemb); omega)
    (pairwise_splitRuns _)

/-! ## The whole run on concrete bounds -/

set_option maxRecDepth 1000000 in
/-- The fast path for the classical bounds 2 and 99. -/
theorem fastMain_2_99 : fastMain 2 99 = some [(52, 17, 4, 13)] := by
  decide!

/-- C1: the whole run (`init`, the three phases, `printAnswers`) for the bounds 2 and
99 prints exactly one line, `product = 52, sum = 17, x = 4, y = 13`, whatever lies in
memory after the `rows` array. -/
theorem main_2_99_single_answer (heap : Nat → num_t) :
    main 2 99 heap = some [(52, 17, 4, 13)] :=
  main_eq_of_fastMain 2 99 _ fastMain_2_99 heap

set_option maxRecDepth 1000000 in
/-- The fast path for the bounds 18 and 167. -/
theorem fastMain_18_167 :
    fastMain 18 167 = some [(399, 40, 19, 21), (432, 43, 0, 0), (580, 49, 20, 29)] := by
  decide!

/-- C2 fails on the code: for the valid bounds 18 and 167 the run prints three lines,
and the second is `product = 432, sum = 43, x = 0, y = 0`. The matrix row of 432 gets
a 1 in the column of 43 from the pair 16 * 27, which `mkMatrix` finds because its
divisor loop starts at 2; `getXY` starts at `minInt = 18`, finds no pair and leaves
`x = y = 0`. So not every printed line has `x < y`, `x >= minInt`, `x + y = sum` and
`x * y = product`. -/
theorem main_18_167_answer_without_pair (heap : Nat → num_t) :
    (0 : Int) < 18 ∧ (2 : Int) * 18 < 167 ∧
      main 18 167 heap = some [(399, 40, 19, 21), (432, 43, 0, 0), (580, 49, 20, 29)] ∧
      ¬ (∀ l, main 18 167 heap = some l → ∀ t ∈ l,
          t.2.2.1 < t.2.2.2 ∧ 18 ≤ t.2.2.1 ∧ t.2.2.1 + t.2.2.2 = t.2.1 ∧
            t.2.2.1 * t.2.2.2 = t.1) := by
  have hm := main_eq_of_fastMain 18 167 _ fastMain_18_167 heap
  refine ⟨by decide, by decide, hm, ?_⟩
  intro hall
  have := hall _ hm (432, 43, 0, 0) (by simp)
  simp at this

/-! ## The column that `nSums` reports -/

/-- C22: for every state, row and `liveOnly` flag, `nSums` returns the number of
columns `c < nCols` whose cell `(row, c)` is 1 (live columns only when `liveOnly` is
set); when that number is at least 1, the column it reports has been written, is the
highest such column and lies below `nCols`. So wherever the count is exactly 1, which
is where Phase 1 and `printAnswers` use the column, it is a written index below
`nCols`. -/
theorem nSums_count_and_column (fr : fr_t) (row : Nat) (liveOnly : Bool) :
    (nSums fr row liveOnly).1 =
        ((List.range fr.nCols).filter
          (fun c => decide (cell fr row c = 1) && (!liveOnly || colLive fr c))).length ∧
      (1 ≤ (nSums fr row liveOnly).1 →
        ∃ c, (nSums fr row liveOnly).2 = some c ∧ c < fr.nCols ∧ cell fr row c = 1 ∧
          (liveOnly = true → colLive fr c = true) ∧
          ∀ c2, c2 < fr.nCols → cell fr row c2 = 1 →
            (liveOnly = true → colLive fr c2 = true) → c2 ≤ c) ∧
      ((nSums fr row liveOnly).1 = 1 →
        ∃ c, (nSums fr row liveOnly).2 = some c ∧ c < fr.nCols) := by
  have hf : (List.range fr.nCols).filter
      (fun c => decide (cell fr row c = 1) && (!liveOnly || colLive fr c)) =
      (List.range fr.nCols).filter (countedCol fr row liveOnly) := by
    apply List.filter_congr
    intro c _
    unfold countedCol
    rw [Bool.and_comm]
  have hmem : ∀ c, c ∈ (List.range fr.nCols).filter (countedCol fr row liveOnly) ↔
      (c < fr.nCols ∧ cell fr row c = 1 ∧ (liveOnly = true → colLive fr c = true)) := by
    intro c
    rw [List.mem_filter, List.mem_range]
    unfold countedCol
    cases liveOnly
    · simp
    · simp only [Bool.not_true, Bool.false_or, Bool.and_eq_true, decide_eq_true_eq,
        forall_const]
      tauto
  have hlast : 1 ≤ (nSums fr row liveOnly).1 →
      ∃ c, (nSums fr row liveOnly).2 = some c ∧ c < fr.nCols ∧ cell fr row c = 1 ∧
        (liveOnly = true → colLive fr c = true) ∧
        ∀ c2, c2 < fr.nCols → cell fr row c2 = 1 →
          (liveOnly = true → colLive fr c2 = true) → c2 ≤ c := by
    rw [nSums_eq]
    intro h1
    simp only at h1 ⊢
    have hne : (List.range fr.nCols).filter (countedCol fr row liveOnly) ≠ [] := by
      intro h0
      rw [h0] at h1
      simp at h1
    obtain ⟨ys, c, hyc⟩ := (List.eq_nil_or_concat _).resolve_left hne
    have hc : c ∈ (List.range fr.nCols).filter (countedCol fr row liveOnly) := by
      rw [hyc]; simp
    obtain ⟨hc1, hc2, hc3⟩ := (hmem c).1 hc
    refine ⟨c, by rw [hyc]; simp, hc1, hc2, hc3, ?_⟩
    intro c2 h21 h22 h23
    have hc2m : c2 ∈ (List.range fr.nCols).filter (countedCol fr row liveOnly) :=
      (hmem c2).2 ⟨h21, h22, h23⟩
    have hsorted : ((List.range fr.nCols).filter (countedCol fr row liveOnly)).Pairwise
        (fun a b => a < b) := (List.pairwise_lt_range _).sublist (List.filter_sublist _)
    rw [hyc] at hc2m hsorted
    rw [List.concat_eq_append, List.pairwise_append] at hsorted
    rw [List.concat_eq_append] at hc2m
    rcases List.mem_append.1 hc2m with hm | hm
    · exact le_of_lt (hsorted.2.2 c2 hm c (by simp))
    · simp only [List.mem_singleton] at hm
      omega
  refine ⟨?_, hlast, ?_⟩
  · rw [hf, nSums_eq]
  · intro h1
    obtain ⟨c, h2, h3, _⟩ := hlast (by omega)
    exact ⟨c, h2, h3⟩

/-! ## The analytic solver on the fast path -/

theorem Analytic.testBit_memoLoop (f : Int → Bool) (i : Nat) : ∀ (n acc : Nat),
    (Analytic.memoLoop f n acc).testBit i =
      (acc.testBit i || (decide (i < n) && f (i : Int))) := by
  intro n
  induction n with
  | zero => intro acc; simp [Analytic.memoLoop]
  | succ n ih =>
    intro acc
    rw [Analytic.memoLoop, force_eq, ih]
    have hb : (if f (n : Int) = true then acc ||| 1 <<< n else acc).testBit i =
        (acc.testBit i || (f (n : Int) && decide (n = i))) := by
      cases hf : f (n : Int)
      · simp
      · rw [if_pos rfl, Nat.testBit_or, testBit_one_shiftLeft, Bool.true_and]
    rw [hb]
    by_cases hin : i = n
    · subst hin
      cases hf : f (i : Int) <;> simp
    · have h1 : decide (i < n + 1) = decide (i < n) := by
        rw [decide_eq_decide]
        omega
      have h2 : ¬ n = i := fun h => hin h.symm
      rw [h1]
      simp [h2]

/-- Reading a value from its mask gives the value. -/
theorem Analytic.lookup_memo (f : Int → Bool) (n : Nat) :
    Analytic.lookup f (Analytic.memo f n) n = f := by
  funext s
  cases s with
  | ofNat k =>
    simp only [Analytic.lookup, Analytic.memo]
    split_ifs with h
    · rw [Analytic.testBit_memoLoop]
      simp [h]
    · rfl
  | negSucc k => rfl

theorem Analytic.sumPassesS1LoopWith_eq (sum : Int) : ∀ (k : Nat) (a : Int),
    Analytic.sumPassesS1LoopWith Analytic.primeB sum k a = Analytic.sumPassesS1Loop sum k a := by
  intro k
  induction k with
  | zero => intro a; rfl
  | succ k ih =>
    intro a
    rw [Analytic.sumPassesS1LoopWith, Analytic.sumPassesS1Loop, ih]
    simp only [Analytic.primeB, Bool.and_eq_true, decide_eq_true_eq]

theorem Analytic.sumPassesS1With_eq :
    Analytic.sumPassesS1With Analytic.primeB = Analytic.sumPassesS1 := by
  funext s
  exact Analytic.sumPassesS1LoopWith_eq s _ _

theorem Analytic.prodPassesP2LoopWith_eq (product minint maxint : Int) :
    ∀ (k : Nat) (a cnt : Int),
      Analytic.prodPassesP2LoopWith (fun t => decide (Analytic.sumPassesS1 t ≠ 0)) product
          minint maxint k a cnt =
        Analytic.prodPassesP2Loop product minint maxint k a cnt := by
  intro k
  induction k with
  | zero => intro a cnt; rfl
  | succ k ih =>
    intro a cnt
    rw [Analytic.prodPassesP2LoopWith, Analytic.prodPassesP2Loop, ih, ih]
    simp only [decide_eq_true_eq]

theorem Analytic.prodPassesP2With_eq :
    Analytic.prodPassesP2With (fun t => decide (Analytic.sumPassesS1 t ≠ 0)) =
      Analytic.prodPassesP2 := by
  funext p mn mx
  exact Analytic.prodPassesP2LoopWith_eq p mn mx _ _ _

theorem Analytic.sumPassesS2LoopWith_eq (sum minint maxint : Int) : ∀ (k : Nat) (a cnt : Int),
    Analytic.sumPassesS2LoopWith
        (fun p => decide (Analytic.prodPassesP2 p minint maxint ≠ 0)) sum k a cnt =
      Analytic.sumPassesS2Loop sum minint maxint k a cnt := by
  intro k
  induction k with
  | zero => intro a cnt; rfl
  | succ k ih =>
    intro a cnt
    rw [Analytic.sumPassesS2LoopWith, Analytic.sumPassesS2Loop, ih, ih]
    simp only [decide_eq_true_eq]

theorem Analytic.sumPassesS2With_eq (minint maxint : Int) (s : Int) :
    Analytic.sumPassesS2With (fun p => decide (Analytic.prodPassesP2 p minint maxint ≠ 0)) s =
      Analytic.sumPassesS2 s minint maxint :=
  Analytic.sumPassesS2LoopWith_eq s minint maxint _ _ _

/-- The mask of the fast path is the mask of the sums that pass S1 and S2. -/
theorem Analytic.sumMask_eq (n1 n2 : Nat) (minint maxint : Int) :
    Analytic.sumMask n1 n2 minint maxint =
      Analytic.memo (Analytic.sumB minint maxint) n2 := by
  unfold Analytic.sumMask
  rw [force_eq, force_eq]
  congr 1
  funext s
  unfold Analytic.sumBWith
  rw [Analytic.lookup_memo Analytic.primeB n1, Analytic.sumPassesS1With_eq,
    Analytic.lookup_memo (fun t => decide (Analytic.sumPassesS1 t ≠ 0)) n1,
    Analytic.prodPassesP2With_eq, Analytic.sumPassesS2With_eq]
  rfl

/-- The fast path gives the rows of `mkPairs` for which the four checks return 1. -/
theorem Analytic.fastRows_eq (minint sumubound : Int) :
    Analytic.fastRows minint sumubound =
      (Analytic.mkPairs minint sumubound).filter (fun r =>
        decide (Analytic.prodPassesP1 r.prod = 1 ∧ Analytic.sumPassesS1 r.sum = 1 ∧
          Analytic.prodPassesP2 r.prod minint (sumubound - minint) = 1 ∧
          Analytic.sumPassesS2 r.sum minint (sumubound - minint) = 1)) := by
  unfold Analytic.fastRows
  rw [force_eq, Analytic.sumMask_eq, Analytic.lookup_memo]
  apply List.filter_congr
  intro r _
  rw [Bool.eq_iff_iff]
  simp only [Analytic.sumB, Bool.and_eq_true, decide_eq_true_eq]
  tauto

theorem Analytic.sumPassesS1Loop_zero_or_one (sum : Int) : ∀ (k : Nat) (a : Int),
    Analytic.sumPassesS1Loop sum k a = 0 ∨ Analytic.sumPassesS1Loop sum k a = 1 := by
  intro k
  induction k with
  | zero => intro a; exact Or.inr rfl
  | succ k ih =>
    intro a
    rw [Analytic.sumPassesS1Loop]
    split_ifs
    · exact Or.inl rfl
    · exact ih _

theorem Analytic.prodPassesP2Loop_zero_or_one (product minint maxint : Int) :
    ∀ (k : Nat) (a cnt : Int), (cnt = 0 ∨ cnt = 1) →
      Analytic.prodPassesP2Loop product minint maxint k a cnt = 0 ∨
        Analytic.prodPassesP2Loop product minint maxint k a cnt = 1 := by
  intro k
  induction k with
  | zero => intro a cnt h; exact h
  | succ k ih =>
    intro a cnt h
    rw [Analytic.prodPassesP2Loop]
    split_ifs
    · exact ih _ _ h
    · exact Or.inl rfl
    · exact ih _ _ (Or.inr rfl)
    · exact ih _ _ h
    · exact ih _ _ h

theorem Analytic.sumPassesS2Loop_zero_or_one (sum minint maxint : Int) :
    ∀ (k : Nat) (a cnt : Int), (cnt = 0 ∨ cnt = 1) →
      Analytic.sumPassesS2Loop sum minint maxint k a cnt = 0 ∨
        Analytic.sumPassesS2Loop sum minint maxint k a cnt = 1 := by
  intro k
  induction k with
  | zero => intro a cnt h; exact h
  | succ k ih =>
    intro a cnt h
    rw [Analytic.sumPassesS2Loop]
    split_ifs
    · exact Or.inl rfl
    · exact ih _ _ (Or.inr rfl)
    · exact ih _ _ h

/-- Each of the four checks returns 0 or 1, so "non-zero" and "1" are the same. -/
theorem Analytic.checks_ne_zero_iff (p s minint maxint : Int) :
    (Analytic.prodPassesP1 p ≠ 0 ↔ Analytic.prodPassesP1 p = 1) ∧
      (Analytic.sumPassesS1 s ≠ 0 ↔ Analytic.sumPassesS1 s = 1) ∧
      (Analytic.prodPassesP2 p minint maxint ≠ 0 ↔ Analytic.prodPassesP2 p minint maxint = 1) ∧
      (Analytic.sumPassesS2 s minint maxint ≠ 0 ↔ Analytic.sumPassesS2 s minint maxint = 1) := by
  have h1 := Analytic.prodPassesP1Loop_zero_or_one p (sqroot p - 1).toNat 2
  have h2 := Analytic.sumPassesS1Loop_zero_or_one s (s.tdiv 2 - 1).toNat 2
  have h3 := Analytic.prodPassesP2Loop_zero_or_one p minint maxint (sqroot p - 1).toNat 2 0
    (Or.inl rfl)
  have h4 := Analytic.sumPassesS2Loop_zero_or_one s minint maxint (s.tdiv 2 - 1).toNat 2 0
    (Or.inl rfl)
  unfold Analytic.prodPassesP1 Analytic.sumPassesS1 Analytic.prodPassesP2 Analytic.sumPassesS2
  refine ⟨?_, ?_, ?_, ?_⟩ <;> omega

theorem Analytic.mkPairsInner_sumps2 (x sumubound : Int) : ∀ (k : Nat) (y : Int),
    ∀ r ∈ Analytic.mkPairsInner x sumubound k y, r.sumps2 = 0 := by
  intro k
  induction k with
  | zero => intro y r h; simp [Analytic.mkPairsInner] at h
  | succ k ih =>
    intro y r h
    rw [Analytic.mkPairsInner] at h
    split_ifs at h
    · rcases List.mem_cons.1 h with rfl | h
      · rfl
      · exact ih _ r h
    · exact ih _ r h

theorem Analytic.mkPairsOuter_sumps2 (sumubound : Int) : ∀ (k : Nat) (x : Int),
    ∀ r ∈ Analytic.mkPairsOuter sumubound k x, r.sumps2 = 0 := by
  intro k
  induction k with
  | zero => intro x r h; simp [Analytic.mkPairsOuter] at h
  | succ k ih =>
    intro x r h
    rw [Analytic.mkPairsOuter] at h
    rcases List.mem_append.1 h with h | h
    · exact Analytic.mkPairsInner_sumps2 x sumubound _ _ r h
    · exact ih _ r h

/-- The four checks on one row whose `sumps2` flag is still zero: the flag is set
exactly when the four functions return a non-zero value; `x` and `y` stay. -/
theorem Analytic.checks_row (r : Analytic.fr_t) (minint maxint : Int) (h0 : r.sumps2 = 0) :
    ∀ q, Analytic.checkS2 (Analytic.checkP2 (Analytic.checkS1 (Analytic.checkP1 [r]))
        minint maxint) minint maxint = [q] →
      (q.x = r.x ∧ q.y = r.y ∧
        (q.sumps2 ≠ 0 ↔ (Analytic.prodPassesP1 r.prod ≠ 0 ∧ Analytic.sumPassesS1 r.sum ≠ 0 ∧
          Analytic.prodPassesP2 r.prod minint maxint ≠ 0 ∧
          Analytic.sumPassesS2 r.sum minint maxint ≠ 0))) := by
  intro q hq
  simp only [Analytic.checkP1, Analytic.checkS1, Analytic.checkP2, Analytic.checkS2,
    List.map_cons, List.map_nil, List.cons.injEq, and_true] at hq
  rw [← hq]
  by_cases h1 : Analytic.prodPassesP1 r.prod = 0
  · simp [h1, h0]
  · by_cases h2 : Analytic.sumPassesS1 r.sum = 0
    · simp [h1, h2, h0]
    · by_cases h3 : Analytic.prodPassesP2 r.prod minint maxint = 0
      · simp [h1, h2, h3, h0]
      · simp [h1, h2, h3]

/-- The rows that the last check prints are the rows for which the four functions
return 1. -/
theorem Analytic.checks_filter (minint maxint : Int) : ∀ (l : List Analytic.fr_t),
    (∀ r ∈ l, r.sumps2 = 0) →
    ((Analytic.checkS2 (Analytic.checkP2 (Analytic.checkS1 (Analytic.checkP1 l))
        minint maxint) minint maxint).filter (fun r => decide (r.sumps2 ≠ 0))).map
        (fun r => (r.x, r.y)) =
      (l.filter (fun r =>
        decide (Analytic.prodPassesP1 r.prod = 1 ∧ Analytic.sumPassesS1 r.sum = 1 ∧
          Analytic.prodPassesP2 r.prod minint maxint = 1 ∧
          Analytic.sumPassesS2 r.sum minint maxint = 1))).map (fun r => (r.x, r.y)) := by
  intro l
  induction l with
  | nil => intro _; rfl
  | cons r l ih =>
    intro h0
    have hsplit : Analytic.checkS2 (Analytic.checkP2 (Analytic.checkS1
        (Analytic.checkP1 (r :: l))) minint maxint) minint maxint =
        Analytic.checkS2 (Analytic.checkP2 (Analytic.checkS1 (Analytic.checkP1 [r]))
          minint maxint) minint maxint ++
        Analytic.checkS2 (Analytic.checkP2 (Analytic.checkS1 (Analytic.checkP1 l))
          minint maxint) minint maxint := by
      simp only [Analytic.checkP1, Analytic.checkS1, Analytic.checkP2, Analytic.checkS2,
        List.map_cons, List.map_nil, List.singleton_append]
    obtain ⟨q, hq⟩ : ∃ q, Analytic.checkS2 (Analytic.checkP2 (Analytic.checkS1
        (Analytic.checkP1 [r])) minint maxint) minint maxint = [q] := ⟨_, rfl⟩
    obtain ⟨hx, hy, hs⟩ := Analytic.checks_row r minint maxint
      (h0 r (List.mem_cons_self _ _)) q hq
    obtain ⟨e1, e2, e3, e4⟩ := Analytic.checks_ne_zero_iff r.prod r.sum minint maxint
    rw [e1, e2, e3, e4] at hs
    rw [hsplit, hq, List.singleton_append, List.filter_cons, List.filter_cons]
    have ih2 := ih (fun r2 h2 => h0 r2 (List.mem_cons_of_mem _ h2))
    by_cases hall : Analytic.prodPassesP1 r.prod = 1 ∧ Analytic.sumPassesS1 r.sum = 1 ∧
        Analytic.prodPassesP2 r.prod minint maxint = 1 ∧
        Analytic.sumPassesS2 r.sum minint maxint = 1
    · rw [if_pos (decide_eq_true (hs.2 hall)), if_pos (decide_eq_true hall), List.map_cons,
        List.map_cons, ih2, hx, hy]
    · have hq0 : ¬ q.sumps2 ≠ 0 := fun h => hall (hs.1 h)
      rw [if_neg (by simpa using hq0), if_neg (by simpa using hall), ih2]

/-- The run of the analytic solver: the pairs printed by the last check are the pairs
of `mkPairs` for which the four functions return 1; there is no run when `mkPairs`
finds no pair. -/
theorem Analytic.main_eq (minint sumubound : Int) :
    Analytic.main minint sumubound =
      if (Analytic.mkPairs minint sumubound).length = 0 then none
      else some (((Analytic.mkPairs minint sumubound).filter (fun r =>
        decide (Analytic.prodPassesP1 r.prod = 1 ∧ Analytic.sumPassesS1 r.sum = 1 ∧
          Analytic.prodPassesP2 r.prod minint (sumubound - minint) = 1 ∧
          Analytic.sumPassesS2 r.sum minint (sumubound - minint) = 1))).map
        (fun r => (r.x, r.y))) := by
  unfold Analytic.main Analytic.init
  split_ifs with h
  · rfl
  · have h0 : ∀ r ∈ Analytic.mkPairs minint sumubound, r.sumps2 = 0 :=
      Analytic.mkPairsOuter_sumps2 sumubound _ _
    rw [Option.map_some', Analytic.checks_filter minint (sumubound - minint) _ h0]

/-! ## The two solvers on the classical input -/

set_option maxRecDepth 1000000 in
/-- The fast path of the analytic solver for the classical bounds 2 and 99. -/
theorem Analytic.fastRows_2_99 :
    Analytic.fastRows 2 99 = [⟨4, 13, 17, 52, 0, 0, 0, 0⟩] := by
  decide!

/-- C21: on the classical input (lower bound 2, sum upper bound 99) the two solvers
agree. Among the pairs that `mkPairs` of the analytic solver generates, those for which
`prodPassesP1`, `sumPassesS1`, `prodPassesP2( ., 2, 97 )` and `sumPassesS2( ., 2, 97 )`
all return 1 are the single pair `(4, 13)`; that pair is what the run of the analytic
solver prints after its last check; and it is the `(x, y)` of the only answer
`(52, 17, 4, 13)` of the matrix solver. -/
theorem solvers_agree_2_99 (heap : Nat → num_t) :
    ((Analytic.mkPairs 2 99).filter (fun r =>
        decide (Analytic.prodPassesP1 r.prod = 1 ∧ Analytic.sumPassesS1 r.sum = 1 ∧
          Analytic.prodPassesP2 r.prod 2 97 = 1 ∧
          Analytic.sumPassesS2 r.sum 2 97 = 1))).map (fun r => (r.x, r.y)) = [(4, 13)] ∧
      Analytic.main 2 99 = some [(4, 13)] ∧
      main 2 99 heap = some [(52, 17, 4, 13)] := by
  have hf := Analytic.fastRows_eq 2 99
  rw [Analytic.fastRows_2_99] at hf
  have e : (99 : Int) - 2 = 97 := by decide
  rw [e] at hf
  have hm := Analytic.main_eq 2 99
  rw [e, ← hf] at hm
  have hlen : ¬ (Analytic.mkPairs 2 99).length = 0 := by
    intro h0
    rw [List.length_eq_zero.1 h0] at hf
    simp at hf
  rw [if_neg hlen] at hm
  refine ⟨?_, hm, main_eq_of_fastMain 2 99 _ fastMain_2_99 heap⟩
  rw [← hf]
  rfl

end Freudenthal
